import Mathlib

/-!
# ECE533 image manipulation: transforms over a packed-RGB surface

A shallow embedding of `src/src/transforms.cpp` (the canonical transform library) and of
the luma conversion of `src/image_io/src/transforms.cpp`.

* `Uint32`/`Uint8`/`int` values are `Nat`/`Int` with explicit reductions where a conversion
  can lose bits.
* `double` arithmetic that decides a pixel value is embedded exactly: a non-negative double
  is a natural number of units of `2^-56`, and every operation rounds to 53 significant
  bits, ties to even (`roundDouble`).
* The surface class `image_io` is only declared in `src/image_io/src/image_io.h`; its
  accessors are modelled from the specification (`Surface`, `get_pixel`, `put_pixel`).
  An access outside the grid yields `none`, and every transform threads that through.
-/

namespace ImageManip

/-! ## Pixel codec -/

/-- Color mask flag `M_RED`, `(1 << 0)` in `transforms.h`. -/
def M_RED : Int := 1
/-- Color mask flag `M_GREEN`, `(1 << 1)` in `transforms.h`. -/
def M_GREEN : Int := 2
/-- Color mask flag `M_BLUE`, `(1 << 2)` in `transforms.h`. -/
def M_BLUE : Int := 4

/-- The red channel, `(RGB_pixel >> 0) & 0xFF`. -/
def RGB_to_red (RGB_pixel : Nat) : Nat := (RGB_pixel >>> 0) &&& 0xFF

/-- The green channel, `(RGB_pixel >> 8) & 0xFF`. -/
def RGB_to_green (RGB_pixel : Nat) : Nat := (RGB_pixel >>> 8) &&& 0xFF

/-- The blue channel, `(RGB_pixel >> 16) & 0xFF`. -/
def RGB_to_blue (RGB_pixel : Nat) : Nat := (RGB_pixel >>> 16) &&& 0xFF

/-- Packs three channels. The parameters are `Uint8`, so each argument is first reduced
modulo 256 (the conversion at the call), then widened to 32 bits and shifted. -/
def pack_RGB (red_value green_value blue_value : Nat) : Nat :=
  ((red_value % 256) <<< 0) ||| ((green_value % 256) <<< 8) ||| ((blue_value % 256) <<< 16)

/-! ## Double precision arithmetic on non-negative values

A value is a natural number `n` standing for `n * 2^-56`. All doubles that occur in the luma
conversion (the three coefficients, their products with a channel, and the partial sums) are
such multiples, and all are far from the subnormal and overflow ranges. -/

/-- How many low bits must be dropped for `n` to fit in 53 bits (`fuel` bounds the search). -/
def excessBits : Nat → Nat → Nat
  | 0, _ => 0
  | fuel + 1, n => if n < 2 ^ 53 then 0 else excessBits fuel (n / 2) + 1

/-- Rounding of an exact non-negative result to the nearest double (53 significant bits),
ties to the even significand. The rounding does not depend on the unit in which `n` is
counted, as long as the unit is a power of two; values are assumed to lie in the normal
range of doubles (no underflow or overflow), and the products and sums are evaluated one
operation at a time in double precision (no fused multiply-add, no extended precision). -/
def roundDouble (n : Nat) : Nat :=
  let s := excessBits 1024 n
  let q := n >>> s
  let r := n % 2 ^ s
  if 2 ^ s < 2 * r ∨ (2 * r = 2 ^ s ∧ q % 2 = 1) then (q + 1) <<< s else q <<< s

/-- The double nearest to `0.3`, namely `5404319552844595 * 2^-54`, in units of `2^-56`. -/
def coef_0_3 : Nat := 5404319552844595 * 4
/-- The double nearest to `0.299`, namely `5386305154335113 * 2^-54`, in units of `2^-56`. -/
def coef_0_299 : Nat := 5386305154335113 * 4
/-- The double nearest to `0.587`, namely `5287225962532962 * 2^-53`, in units of `2^-56`. -/
def coef_0_587 : Nat := 5287225962532962 * 8
/-- The double nearest to `0.114`, namely `8214565720323785 * 2^-56`, in units of `2^-56`. -/
def coef_0_114 : Nat := 8214565720323785

/-- The double expression `cr*R + .587*G + .114*B` of `RGB_to_gray`, evaluated left to right
with a rounding after each product and each sum; `cr` is the red coefficient. -/
def luma_double (cr RGB_pixel : Nat) : Nat :=
  let r := roundDouble (cr * ((RGB_pixel >>> 0) &&& 0xFF))
  let g := roundDouble (coef_0_587 * ((RGB_pixel >>> 8) &&& 0xFF))
  let b := roundDouble (coef_0_114 * ((RGB_pixel >>> 16) &&& 0xFF))
  roundDouble (roundDouble (r + g) + b)

/-- The integer part of a double (conversion to an integer type truncates toward zero). -/
def truncDouble (d : Nat) : Nat := d / 2 ^ 56

/-- Function `RGB_to_gray` of `src/src/transforms.cpp`: the double `.3*R + .587*G + .114*B` is
converted to `Uint8` (truncation, then the low 8 bits). -/
def RGB_to_gray (RGB_pixel : Nat) : Nat :=
  truncDouble (luma_double coef_0_3 RGB_pixel) % 256

/-- Function `RGB_to_gray` of `src/image_io/src/transforms.cpp`: the double
`.299*R + .587*G + .114*B` is converted to `Uint32` (truncation) and returned as `Uint8`. -/
def image_io_RGB_to_gray (RGB_pixel : Nat) : Nat :=
  (truncDouble (luma_double coef_0_299 RGB_pixel) % 2 ^ 32) % 256

/-- The luma as the specification words it, `round(0.299*R + 0.587*G + 0.114*B)` in exact
arithmetic (nearest integer of the quotient by 1000). -/
def spec_luma (R G B : Nat) : Nat := (299 * R + 587 * G + 114 * B + 500) / 1000

/-! ## Surface -/

/-- Modelled from the spec: the surface class `image_io` is declared in `image_io.h` but its
implementation is not part of the sources. A surface is a grid of width `w` and height `h`
whose cell `(x, y)` holds one 32-bit packed pixel; `pix` is only meaningful for
`0 <= x < w`, `0 <= y < h`. -/
structure Surface where
  w : Nat
  h : Nat
  pix : Int → Int → Nat

/-- Modelled from the spec: `get_pixel(x, y)` is a bounds-checked read, valid for
`0 <= x < W`, `0 <= y < H`; the out-of-range branch is `none`. -/
def get_pixel (image : Surface) (x y : Int) : Option Nat :=
  if 0 ≤ x ∧ x < image.w ∧ 0 ≤ y ∧ y < image.h then some (image.pix x y) else none

/-- Modelled from the spec: `put_pixel(x, y, pixel)` is a bounds-checked write of one cell;
the out-of-range branch is `none`. -/
def put_pixel (image : Surface) (x y : Int) (pixel : Nat) : Option Surface :=
  if 0 ≤ x ∧ x < image.w ∧ 0 ≤ y ∧ y < image.h then
    some { image with pix := fun a b => if a = x ∧ b = y then pixel else image.pix a b }
  else none

/-- The loop `for (int i = lo; i < hi; i++) body`, threading the loop state; it stops with
`none` as soon as the body does. -/
def forRange {σ : Type} (lo hi : Int) (body : Int → σ → Option σ) (s : σ) : Option σ :=
  (List.range (hi - lo).toNat).foldlM (fun st (i : Nat) => body (lo + (i : Int)) st) s

/-! ## Point transforms -/

/-- Body of the inner loop of `color_mask` at `(x, y)`. The loop state is the surface and the
locals `red_value`, `green_value`, `blue_value`, which keep their value from one `y` to the
next. -/
def color_mask_pixel (c_mask x y : Int) (st : Surface × Nat × Nat × Nat) :
    Option (Surface × Nat × Nat × Nat) := do
  let pixel_src ← get_pixel st.1 x y
  let red_value := if Int.land c_mask M_RED ≠ M_RED then RGB_to_red pixel_src else st.2.1
  let green_value :=
    if Int.land c_mask M_GREEN ≠ M_GREEN then RGB_to_green pixel_src else st.2.2.1
  let blue_value := if Int.land c_mask M_BLUE ≠ M_BLUE then RGB_to_blue pixel_src else st.2.2.2
  let all_masked : Bool := decide (c_mask = Int.lor (Int.lor M_RED M_GREEN) M_BLUE)
  let red_value := if all_masked then RGB_to_gray pixel_src else red_value
  let green_value := if all_masked then RGB_to_gray pixel_src else green_value
  let blue_value := if all_masked then RGB_to_gray pixel_src else blue_value
  let image ← put_pixel st.1 x y (pack_RGB red_value green_value blue_value)
  pure (image, red_value, green_value, blue_value)

/-- Function `color_mask`: for every column `x` the three locals are reset to 0, then every row `y`
is processed. -/
def color_mask (image_src : Surface) (c_mask : Int) : Option Surface :=
  forRange 0 image_src.w (fun x image => do
    let st ← forRange 0 image_src.h (color_mask_pixel c_mask x) (image, 0, 0, 0)
    pure st.1) image_src

/-- The pixel written by `invert` for the source pixel `pixel_src`. -/
def invert_pixel (pixel_src : Nat) : Nat :=
  ((255 - ((pixel_src >>> 0) &&& 0xFF)) <<< 0)
    ||| ((255 - ((pixel_src >>> 8) &&& 0xFF)) <<< 8)
    ||| ((255 - ((pixel_src >>> 16) &&& 0xFF)) <<< 16)

/-- Function `invert`: every pixel is read, inverted per channel and written back. -/
def invert (image_src : Surface) : Option Surface :=
  forRange 0 image_src.w (fun x image =>
    forRange 0 image_src.h (fun y image => do
      let pixel_src ← get_pixel image x y
      put_pixel image x y (invert_pixel pixel_src)) image) image_src

/-- The pixel written by `threshold` for the source pixel `pixel_src`. -/
def threshold_pixel (threshold pixel_src : Nat) : Nat :=
  let gray_value := RGB_to_gray pixel_src
  let bw_value := if gray_value ≥ threshold then 0xFF else 0x00
  pack_RGB bw_value bw_value bw_value

/-- Function `threshold`: every pixel becomes white or black according to its gray value. -/
def threshold (image_src : Surface) (threshold : Nat) : Option Surface :=
  forRange 0 image_src.w (fun x image =>
    forRange 0 image_src.h (fun y image => do
      let pixel_src ← get_pixel image x y
      put_pixel image x y (threshold_pixel threshold pixel_src)) image) image_src

/-! ## Neighborhood transforms -/

/-- The neighborhood loops `for u = -1..1, for v = -1..1` of the smoothing and edge filters,
reading the snapshot `image_tmp` at `(x + u, y + v)` and folding `f u v pixel` over an
accumulator. -/
def window_fold {α : Type} (image_tmp : Surface) (x y : Int) (f : Int → Int → Nat → α → α)
    (init : α) : Option α :=
  forRange (-1) 2 (fun u acc =>
    forRange (-1) 2 (fun v acc => do
      let pixel_src ← get_pixel image_tmp (x + u) (y + v)
      pure (f u v pixel_src acc)) acc) init

/-- The accumulator that `window_fold` returns when its nine reads are in range: `f` applied
to the window pixels in the order of the loops (`u` outer, `v` inner). -/
def window_value {α : Type} (image_tmp : Surface) (x y : Int) (f : Int → Int → Nat → α → α)
    (init : α) : α :=
  f 1 1 (image_tmp.pix (x + 1) (y + 1)) (f 1 0 (image_tmp.pix (x + 1) (y + 0))
    (f 1 (-1) (image_tmp.pix (x + 1) (y + -1))
  (f 0 1 (image_tmp.pix (x + 0) (y + 1)) (f 0 0 (image_tmp.pix (x + 0) (y + 0))
    (f 0 (-1) (image_tmp.pix (x + 0) (y + -1))
  (f (-1) 1 (image_tmp.pix (x + -1) (y + 1)) (f (-1) 0 (image_tmp.pix (x + -1) (y + 0))
    (f (-1) (-1) (image_tmp.pix (x + -1) (y + -1)) init))))))))

/-- Function `smooth_mean`: every interior pixel becomes the per-channel mean of its 3x3 window in
the snapshot. -/
def smooth_mean (image_src : Surface) : Option Surface :=
  let image_tmp := image_src
  forRange 1 ((image_tmp.w : Int) - 1) (fun x image =>
    forRange 1 ((image_tmp.h : Int) - 1) (fun y image => do
      let avg ← window_fold image_tmp x y (fun _ _ pixel_src (acc : Nat × Nat × Nat) =>
        (acc.1 + ((pixel_src >>> 0) &&& 0xFF), acc.2.1 + ((pixel_src >>> 8) &&& 0xFF),
          acc.2.2 + ((pixel_src >>> 16) &&& 0xFF))) (0, 0, 0)
      let pixel_dst := ((avg.1 / 9) <<< 0) ||| ((avg.2.1 / 9) <<< 8) ||| ((avg.2.2 / 9) <<< 16)
      put_pixel image x y pixel_dst) image) image_src

/-- The result of `std::sort` on an `int` array: the ascending rearrangement. -/
def sort_list (l : List Nat) : List Nat := l.insertionSort (fun a b => a ≤ b)

/-- Function `smooth_median`: every interior pixel becomes the per-channel median of its 3x3 window
in the snapshot. The three 9-element arrays are completely overwritten for every pixel, at
index `(u + 1) + 3*(v + 1)`. -/
def smooth_median (image_src : Surface) : Option Surface :=
  let image_tmp := image_src
  forRange 1 ((image_tmp.w : Int) - 1) (fun x image =>
    forRange 1 ((image_tmp.h : Int) - 1) (fun y image => do
      let lists ← window_fold image_tmp x y
        (fun u v pixel_src (acc : List Nat × List Nat × List Nat) =>
          (acc.1.set ((u + 1) + 3 * (v + 1)).toNat ((pixel_src >>> 0) &&& 0xFF),
            acc.2.1.set ((u + 1) + 3 * (v + 1)).toNat ((pixel_src >>> 8) &&& 0xFF),
            acc.2.2.set ((u + 1) + 3 * (v + 1)).toNat ((pixel_src >>> 16) &&& 0xFF)))
        (List.replicate 9 0, List.replicate 9 0, List.replicate 9 0)
      let R_med := (sort_list lists.1).getD 4 0
      let G_med := (sort_list lists.2.1).getD 4 0
      let B_med := (sort_list lists.2.2).getD 4 0
      let pixel_dst := (R_med <<< 0) ||| (G_med <<< 8) ||| (B_med <<< 16)
      put_pixel image x y pixel_dst) image) image_src

/-- Conversion of an integer to `int` (32 bits, two's complement). -/
def toInt32 (z : Int) : Int := (z + 2 ^ 31) % 2 ^ 32 - 2 ^ 31

/-- Conversion of an `int` to `Uint8`: the low 8 bits. -/
def toUint8 (z : Int) : Nat := (z % 256).toNat

/-- The static array `sobel_mask_x`. -/
def sobel_mask_x : List Int := [-1, 0, 1, -2, 0, 2, -1, 0, 1]

/-- The static array `sobel_mask_y`. -/
def sobel_mask_y : List Int := [-1, -2, -1, 0, 0, 0, 1, 2, 1]

/-- The static array `laplacian_mask`. -/
def laplacian_mask : List Int := [0, 1, 0, 1, -4, 1, 0, 1, 0]

/-- The assignment `gray_value_sum_xy = sqrt(pow(sx, 2) + pow(sy, 2))`: the double square
root converted to `int` by truncation. For the sums that can occur (`|sx|, |sy| <= 1020`)
the squares and their sum are exact doubles and the truncated correctly rounded root is
the integer square root. -/
def sobel_magnitude (gray_value_sum_x gray_value_sum_y : Int) : Int :=
  (Nat.sqrt (gray_value_sum_x.natAbs ^ 2 + gray_value_sum_y.natAbs ^ 2) : Int)

/-- Function `sobel_gradient`: every interior pixel becomes the gradient magnitude of the gray values
of its 3x3 window in the snapshot, passed to `pack_RGB` as `Uint8`. -/
def sobel_gradient (image_src : Surface) : Option Surface :=
  let image_tmp := image_src
  forRange 1 ((image_tmp.w : Int) - 1) (fun x image =>
    forRange 1 ((image_tmp.h : Int) - 1) (fun y image => do
      let sums ← window_fold image_tmp x y (fun u v pixel_src (acc : Int × Int) =>
        let gray_value := RGB_to_gray pixel_src
        (toInt32 (acc.1 + sobel_mask_x.getD ((u + 1) + 3 * (v + 1)).toNat 0 * gray_value),
          toInt32 (acc.2 + sobel_mask_y.getD ((u + 1) + 3 * (v + 1)).toNat 0 * gray_value)))
        (0, 0)
      let gray_value_sum_xy := sobel_magnitude sums.1 sums.2
      let pixel_dst := pack_RGB (toUint8 gray_value_sum_xy) (toUint8 gray_value_sum_xy)
        (toUint8 gray_value_sum_xy)
      put_pixel image x y pixel_dst) image) image_src

/-- Function `laplacian`: every interior pixel becomes the Laplace response of the gray values of its
3x3 window in the snapshot, passed to `pack_RGB` as `Uint8`. -/
def laplacian (image_src : Surface) : Option Surface :=
  let image_tmp := image_src
  forRange 1 ((image_tmp.w : Int) - 1) (fun x image =>
    forRange 1 ((image_tmp.h : Int) - 1) (fun y image => do
      let gray_value_sum ← window_fold image_tmp x y (fun u v pixel_src (acc : Int) =>
        let gray_value := RGB_to_gray pixel_src
        toInt32 (acc + laplacian_mask.getD ((u + 1) + 3 * (v + 1)).toNat 0 * gray_value)) 0
      let pixel_dst := pack_RGB (toUint8 gray_value_sum) (toUint8 gray_value_sum)
        (toUint8 gray_value_sum)
      put_pixel image x y pixel_dst) image) image_src

/-! ## Morphology -/

/-- The innermost loop of `erosion` over the remaining values of `v`, for a fixed `u`: it
sets `erode_flag` and leaves the loop (`break`) at the first window pixel that is not
black. -/
def erosion_scan (image_tmp : Surface) (x y u : Int) : List Int → Nat → Option Nat
  | [], erode_flag => some erode_flag
  | v :: vs, erode_flag => do
    let pixel_src ← get_pixel image_tmp (x + u) (y + v)
    let gray_value := RGB_to_gray pixel_src
    if gray_value ≠ 0x00 then some 1 else erosion_scan image_tmp x y u vs erode_flag

/-- Whether one of the three pixels `(x + u, y - 1)`, `(x + u, y)`, `(x + u, y + 1)` of the
snapshot has a nonzero gray value. -/
def column_nonblack (image_tmp : Surface) (x y u : Int) : Bool :=
  RGB_to_gray (image_tmp.pix (x + u) (y + -1)) != 0 ||
    RGB_to_gray (image_tmp.pix (x + u) (y + 0)) != 0 ||
    RGB_to_gray (image_tmp.pix (x + u) (y + 1)) != 0

/-- Whether one of the nine pixels of the 3x3 window of `(x, y)` in the snapshot has a
nonzero gray value. -/
def window_nonblack (image_tmp : Surface) (x y : Int) : Bool :=
  column_nonblack image_tmp x y (-1) || column_nonblack image_tmp x y 0 ||
    column_nonblack image_tmp x y 1

/-- One iteration of the `n` loop of `erosion`: a snapshot is taken, and every interior
pixel whose window holds a non-black pixel is set to white. -/
def erosion_pass (image_src : Surface) : Option Surface :=
  let image_tmp := image_src
  forRange 1 ((image_tmp.w : Int) - 1) (fun x image =>
    forRange 1 ((image_tmp.h : Int) - 1) (fun y image => do
      let erode_flag ← forRange (-1) 2 (fun u erode_flag =>
        erosion_scan image_tmp x y u [-1, 0, 1] erode_flag) 0
      if erode_flag ≠ 0 then put_pixel image x y (pack_RGB 0xFF 0xFF 0xFF)
      else pure image) image) image_src

/-- Function `erosion`: `erode_n` passes (none when `erode_n <= 0`). -/
def erosion (image_src : Surface) (erode_n : Int) : Option Surface :=
  forRange 0 erode_n (fun _ image => erosion_pass image) image_src

/-- One iteration of the `n` loop of `dilation`: a snapshot is taken, and for every interior
pixel that is black in the snapshot the whole 3x3 window is written black. -/
def dilation_pass (image_src : Surface) : Option Surface :=
  let image_tmp := image_src
  forRange 1 ((image_tmp.w : Int) - 1) (fun x image =>
    forRange 1 ((image_tmp.h : Int) - 1) (fun y image => do
      let pixel_src ← get_pixel image_tmp x y
      let gray_value := RGB_to_gray pixel_src
      let pixel_dst := pack_RGB 0x00 0x00 0x00
      if gray_value = 0x00 then
        forRange (-1) 2 (fun u image =>
          forRange (-1) 2 (fun v image => put_pixel image (x + u) (y + v) pixel_dst) image)
          image
      else pure image) image) image_src

/-- Function `dilation`: `dilate_n` passes (none when `dilate_n <= 0`). -/
def dilation (image_src : Surface) (dilate_n : Int) : Option Surface :=
  forRange 0 dilate_n (fun _ image => dilation_pass image) image_src

/-! ## Shape statistics -/

/-- Function `perimiter`: counts the interior pixels whose gray value differs between the surface and
its copy eroded once. The difference is taken in `Uint32` arithmetic. -/
def perimiter (image_src : Surface) : Option Nat := do
  let image_eroded ← erosion image_src 1
  forRange 1 ((image_eroded.w : Int) - 1) (fun x perimeter_sum =>
    forRange 1 ((image_eroded.h : Int) - 1) (fun y perimeter_sum => do
      let pixel_src ← get_pixel image_src x y
      let pixel_src_eroded ← get_pixel image_eroded x y
      let pixel_src_gray := RGB_to_gray pixel_src
      let pixel_src_gray_eroded := RGB_to_gray pixel_src_eroded
      if (pixel_src_gray + 2 ^ 32 - pixel_src_gray_eroded) % 2 ^ 32 ≠ 0 then
        pure (perimeter_sum + 1)
      else pure perimeter_sum) perimeter_sum) 0

/-- Function `area`: counts the interior pixels whose gray value is 0. -/
def area (image_src : Surface) : Option Nat :=
  forRange 1 ((image_src.w : Int) - 1) (fun x area_sum =>
    forRange 1 ((image_src.h : Int) - 1) (fun y area_sum => do
      let pixel_src ← get_pixel image_src x y
      let pixel_src_gray := RGB_to_gray pixel_src
      if pixel_src_gray = 0 then pure (area_sum + 1) else pure area_sum) area_sum) 0

/-- A 4x4 table of doubles holding non-negative integers, indexed `M i j`. -/
abbrev Moments := Nat → Nat → Nat

/-- The statement `M[i][j] += term`: `term` is a `Uint32` product (reduced modulo `2^32`),
converted to double and added with one rounding. -/
def Moments.accumulate (M : Moments) (i j term : Nat) : Moments :=
  fun a b => if a = i ∧ b = j then roundDouble (M a b + term % 2 ^ 32) else M a b

/-- Function `moment`: the raw moments of `255 - gray` over every pixel of the surface. -/
def moment (image_src : Surface) : Option Moments :=
  forRange 0 image_src.w (fun x M =>
    forRange 0 image_src.h (fun y M => do
      let pixel_src ← get_pixel image_src x y
      let gray_value := 255 - RGB_to_gray pixel_src
      let x := x.toNat
      let y := y.toNat
      let M := M.accumulate 0 0 gray_value
      let M := M.accumulate 0 1 (gray_value * y)
      let M := M.accumulate 0 2 (gray_value * y * y)
      let M := M.accumulate 0 3 (gray_value * y * y * y)
      let M := M.accumulate 1 0 (gray_value * x)
      let M := M.accumulate 2 0 (gray_value * x * x)
      let M := M.accumulate 3 0 (gray_value * x * x * x)
      let M := M.accumulate 1 1 (gray_value * x * y)
      let M := M.accumulate 1 2 (gray_value * x * y * y)
      let M := M.accumulate 2 1 (gray_value * x * x * y)
      pure M) M) (fun _ _ => 0)

/-! ## Example surfaces -/

/-- A 1x1 surface whose pixel has bit 24 set and all channels 0. -/
def alpha_surface : Surface := ⟨1, 1, fun _ _ => 0x1000000⟩

/-- A 2x2 surface with two columns of different colours, bits 24-31 zero. -/
def two_tone_surface : Surface := ⟨2, 2, fun x _ => if x = 0 then 0x123456 else 0xABCDEF⟩

/-- A 1x1 surface whose pixel is `(1, 2, 3)`. -/
def rgb_123_surface : Surface := ⟨1, 1, fun _ _ => pack_RGB 1 2 3⟩

/-- A 3x3 white surface with a black pixel at the centre `(1, 1)`. -/
def centre_dot_surface : Surface :=
  ⟨3, 3, fun x y => if x = 1 ∧ y = 1 then pack_RGB 0 0 0 else pack_RGB 255 255 255⟩

/-- A 4x3 surface filled with the colour `(10, 20, 30)`. -/
def uniform_surface : Surface := ⟨4, 3, fun _ _ => pack_RGB 10 20 30⟩

/-! ## Sums used to state the results of the counting and accumulating loops -/

/-- The sum `g 0 + g 1 + ... + g (n - 1)`. -/
def sum_upto : Nat → (Nat → Nat) → Nat
  | 0, _ => 0
  | n + 1, g => sum_upto n g + g n

/-- The sum of `f x` over the integers `lo <= x < hi`. -/
def sum_range (lo hi : Int) (f : Int → Nat) : Nat :=
  sum_upto (hi - lo).toNat (fun i => f (lo + (i : Int)))

/-- A 3x3 white surface with a black pixel in the corner `(0, 0)`. -/
def corner_dot_surface : Surface :=
  ⟨3, 3, fun x y => if x = 0 ∧ y = 0 then pack_RGB 0 0 0 else pack_RGB 255 255 255⟩

/-- A 5x4 white surface with a black pixel at `(3, 2)`. -/
def inner_dot_surface : Surface :=
  ⟨5, 4, fun x y => if x = 3 ∧ y = 2 then pack_RGB 0 0 0 else pack_RGB 255 255 255⟩

/-- The product `(255 - gray) * x^i * y^j` of `moment` at the pixel `(x, y)`, as the
`Uint32` arithmetic of the code yields it (reduced modulo `2^32`). -/
def moment_term (s : Surface) (i j x y : Nat) : Nat :=
  ((255 - RGB_to_gray (s.pix x y)) * x ^ i * y ^ j) % 2 ^ 32

/-- The exact sum of the products `moment_term` over all pixels `0 <= x < W`,
`0 <= y < H`. -/
def exact_moment (s : Surface) (i j : Nat) : Nat :=
  sum_upto s.w (fun x => sum_upto s.h (fun y => moment_term s i j x y))

/-- An all-black surface of width 255 and height 33681. -/
def black_sheet : Surface := ⟨255, 33681, fun _ _ => pack_RGB 0 0 0⟩

/-! ## Descriptors computed from the moments

The functions below work on doubles only. Their arithmetic is taken exactly: a double is an
element of a field `K` (the rationals or the reals), and the library function `sqrt` is a
parameter. A table `std::array<std::array<double, 4>, 4>` is a function of its two
indices, and the pair `std::array<double, 2>` is a pair `(C[0], C[1])`. -/

/-- Function `centroid`: `C[0] = M[1][0]/M[0][0]`, `C[1] = M[0][1]/M[0][0]`. -/
def centroid {K : Type} [Field K] (M : Nat → Nat → K) : K × K :=
  (M 1 0 / M 0 0, M 0 1 / M 0 0)

/-- Function `central_moments`: the eight assigned entries, every other entry is 0. -/
def central_moments {K : Type} [Field K] (M : Nat → Nat → K) (C : K × K) : Nat → Nat → K :=
  fun i j =>
    match i, j with
    | 0, 0 => M 0 0
    | 0, 2 => M 0 2 - C.2 * M 0 1
    | 0, 3 => M 0 3 - 3 * C.2 * M 0 2 + 2 * C.2 * C.2 * M 0 1
    | 2, 0 => M 2 0 - C.1 * M 1 0
    | 3, 0 => M 3 0 - 3 * C.1 * M 2 0 + 2 * C.1 * C.1 * M 1 0
    | 1, 1 => M 1 1 - C.1 * M 0 1
    | 1, 2 => M 1 2 - 2 * C.2 * M 1 1 - C.1 * M 0 2 + 2 * C.2 * C.2 * M 1 0
    | 2, 1 => M 2 1 - 2 * C.1 * M 1 1 - C.2 * M 2 0 + 2 * C.1 * C.1 * M 0 1
    | _, _ => 0

/-- The normalised moments `n[i][j]` of `invariants`; `pow(u00, 2)` is `u00^2` and
`pow(u00, 2.5)` is `u00^2 * sqrt(u00)`. -/
def normalized_moments {K : Type} [Field K] (sqrt : K → K) (u : Nat → Nat → K) :
    Nat → Nat → K :=
  fun i j =>
    match i, j with
    | 0, 2 => u 0 2 / (u 0 0 ^ 2)
    | 0, 3 => u 0 3 / (u 0 0 ^ 2 * sqrt (u 0 0))
    | 2, 0 => u 2 0 / (u 0 0 ^ 2)
    | 3, 0 => u 3 0 / (u 0 0 ^ 2 * sqrt (u 0 0))
    | 1, 1 => u 1 1 / (u 0 0 ^ 2)
    | 1, 2 => u 1 2 / (u 0 0 ^ 2 * sqrt (u 0 0))
    | 2, 1 => u 2 1 / (u 0 0 ^ 2 * sqrt (u 0 0))
    | _, _ => 0

/-- Function `invariants`: the seven values `invariants[0..6]`, with the operators and the
grouping of the source. -/
def invariants {K : Type} [Field K] (sqrt : K → K) (u : Nat → Nat → K) : Nat → K :=
  let n := normalized_moments sqrt u
  fun k =>
    match k with
    | 0 => n 2 0 + n 0 2
    | 1 => (n 2 0 - n 0 2) * (n 2 0 - n 0 2) + 4 * n 1 1 * n 1 1
    | 2 => (n 3 0 - 3 * n 1 2) * (n 3 0 - 3 * n 1 2)
        + (3 * n 2 1 - n 0 3) * (3 * n 2 1 - n 0 3)
    | 3 => (n 3 0 + n 1 2) * (n 3 0 + n 1 2) + (n 2 1 + n 0 3) * (n 2 1 + n 0 3)
    | 4 => (n 3 0 - 3 * n 1 2)
        * (n 3 0 + n 1 2)
        * ((n 3 0 + n 1 2) * (n 3 0 + n 1 2)
        - 3 * ((n 2 1 + n 0 3) * (n 2 1 + n 0 3)))
        * (3 * n 2 1 - n 0 3)
        * (n 2 1 + n 0 3)
        * (3 * (n 3 0 + n 1 2) * (n 3 0 + n 1 2)
        - ((n 2 1 + n 0 3) * (n 2 1 + n 0 3)))
    | 5 => (n 2 0 - n 0 2)
        * ((n 3 0 + n 1 2) * (n 3 0 + n 1 2)
        - (n 2 1 + n 0 3) * (n 2 1 + n 0 3))
        + 4 * n 1 1
        * (n 3 0 + n 1 2)
        * (n 2 1 + n 0 3)
    | 6 => (3 * n 2 1 - n 0 3)
        * (n 3 0 + n 1 2)
        * ((n 3 0 + n 1 2) * (n 3 0 + n 1 2)
        - 3 * ((n 2 1 + n 0 3) * (n 2 1 + n 0 3)))
        - (n 3 0 - 3 * n 1 2)
        * (n 2 1 + n 0 3)
        * (3 * (n 3 0 + n 1 2) * (n 3 0 + n 1 2)
        - ((n 2 1 + n 0 3) * (n 2 1 + n 0 3)))
    | _ => 0

/-- The seven Hu invariants as the specification gives them, from normalised moments `n`. -/
def hu_invariants {K : Type} [Field K] (n : Nat → Nat → K) : Nat → K :=
  fun k =>
    match k with
    | 0 => n 2 0 + n 0 2
    | 1 => (n 2 0 - n 0 2) ^ 2 + 4 * n 1 1 ^ 2
    | 2 => (n 3 0 - 3 * n 1 2) ^ 2 + (3 * n 2 1 - n 0 3) ^ 2
    | 3 => (n 3 0 + n 1 2) ^ 2 + (n 2 1 + n 0 3) ^ 2
    | 4 => (n 3 0 - 3 * n 1 2) * (n 3 0 + n 1 2)
          * ((n 3 0 + n 1 2) ^ 2 - 3 * (n 2 1 + n 0 3) ^ 2)
        + (3 * n 2 1 - n 0 3) * (n 2 1 + n 0 3)
          * (3 * (n 3 0 + n 1 2) ^ 2 - (n 2 1 + n 0 3) ^ 2)
    | 5 => (n 2 0 - n 0 2) * ((n 3 0 + n 1 2) ^ 2 - (n 2 1 + n 0 3) ^ 2)
        + 4 * n 1 1 * (n 3 0 + n 1 2) * (n 2 1 + n 0 3)
    | 6 => (3 * n 2 1 - n 0 3) * (n 3 0 + n 1 2)
          * ((n 3 0 + n 1 2) ^ 2 - 3 * (n 2 1 + n 0 3) ^ 2)
        - (n 3 0 - 3 * n 1 2) * (n 2 1 + n 0 3)
          * (3 * (n 3 0 + n 1 2) ^ 2 - (n 2 1 + n 0 3) ^ 2)
    | _ => 0

/-- The position of `eigen[r][c]` in the storage of the result of `eigen`, which is declared
as 3 rows of 2 doubles laid out one row after the other. The source uses the column
indices 0, 1 and 2; with column 2 the position is that of the first cell of the next
row. -/
def eigen_cell (r c : Nat) : Nat := 2 * r + c

/-- The assignment `eigen[r][c] = v` on the six stored doubles. -/
def eigen_set {K : Type} (e : Nat → K) (r c : Nat) (v : K) : Nat → K :=
  fun k => if k = eigen_cell r c then v else e k

/-- Function `eigen`: the six stored doubles of the result after the assignments of the
source, in their order. -/
def eigen {K : Type} [Field K] [DecidableEq K] (sqrt : K → K) (M : Nat → Nat → K)
    (C : K × K) : Nat → K :=
  let up20 := M 2 0 / M 0 0 - C.1 * C.1
  let up02 := M 0 2 / M 0 0 - C.2 * C.2
  let up11 := M 1 1 / M 0 0 - C.1 * C.2
  let A00 := up20
  let A01 := up11
  let A10 := up11
  let A11 := up02
  let T := A00 + A11
  let D := A00 * A11 - A01 * A10
  let e : Nat → K := fun _ => 0
  let e := eigen_set e 0 0 (T / 2 + sqrt ((T * T) / 4 - D))
  let e := eigen_set e 1 0 (T / 2 - sqrt ((T * T) / 4 - D))
  if A10 ≠ 0 then
    let e := eigen_set e 0 1 (e (eigen_cell 0 0) - A11)
    let e := eigen_set e 0 2 A10
    let e := eigen_set e 1 1 (e (eigen_cell 1 0) - A11)
    let e := eigen_set e 1 2 A10
    e
  else if A01 ≠ 0 then
    let e := eigen_set e 0 1 A01
    let e := eigen_set e 0 2 (e (eigen_cell 0 0) - A00)
    let e := eigen_set e 1 1 A01
    let e := eigen_set e 1 2 (e (eigen_cell 1 0) - A00)
    e
  else
    let e := eigen_set e 0 1 1
    let e := eigen_set e 0 2 0
    let e := eigen_set e 1 1 0
    let e := eigen_set e 1 2 1
    e

/-- The covariance matrix `A` that `eigen` builds, as `(A[0][0], A[0][1], A[1][0],
A[1][1])`. -/
def covariance {K : Type} [Field K] (M : Nat → Nat → K) (C : K × K) : K × K × K × K :=
  (M 2 0 / M 0 0 - C.1 * C.1, M 1 1 / M 0 0 - C.1 * C.2, M 1 1 / M 0 0 - C.1 * C.2,
    M 0 2 / M 0 0 - C.2 * C.2)

/-! ## Moments of an intensity grid in exact arithmetic -/

/-- The raw moment `sum of x^i * y^j * I(x, y)` of a W x H grid of intensities. -/
def grid_moment {K : Type} [Field K] (W H : Nat) (I : Nat → Nat → K) (i j : Nat) : K :=
  ∑ x ∈ Finset.range W, ∑ y ∈ Finset.range H, (x : K) ^ i * (y : K) ^ j * I x y

/-- The moment of a W x H grid taken about the point `(cx, cy)`. -/
def grid_moment_about {K : Type} [Field K] (W H : Nat) (I : Nat → Nat → K) (cx cy : K)
    (i j : Nat) : K :=
  ∑ x ∈ Finset.range W, ∑ y ∈ Finset.range H, ((x : K) - cx) ^ i * ((y : K) - cy) ^ j * I x y

/-- The content of a grid moved by `(a, b)`: the cell `(x + a, y + b)` of the new grid holds
what the cell `(x, y)` held, the cells with `x < a` or `y < b` hold 0. -/
def grid_translate {K : Type} [Field K] (a b : Nat) (I : Nat → Nat → K) : Nat → Nat → K :=
  fun x y => if a ≤ x ∧ b ≤ y then I (x - a) (y - b) else 0
/-- A white surface of one row and 16843011 columns with a black pixel in the last column,
at `(16843010, 0)`. -/
def wide_row_surface : Surface :=
  ⟨16843011, 1, fun x y => if x = 16843010 ∧ y = 0 then pack_RGB 0 0 0
    else pack_RGB 255 255 255⟩
/-- The copy of a surface rotated by 90 degrees: the H x W surface whose pixel at
`(H - 1 - y, x)` is the pixel `(x, y)` of the original. -/
def rotate90 (s : Surface) : Surface :=
  ⟨s.h, s.w, fun x y => s.pix y ((s.h : Int) - 1 - x)⟩

/-- A 3x1 surface with the gray pixels `(252, 252, 252)` at `(0, 0)`, white at `(1, 0)` and
`(254, 254, 254)` at `(2, 0)`: the intensities `255 - gray` are 3, 0 and 1. -/
def skew_row_surface : Surface :=
  ⟨3, 1, fun x _ => if x = 0 then pack_RGB 252 252 252
    else if x = 2 then pack_RGB 254 254 254 else pack_RGB 255 255 255⟩

/-- A white surface of one column and 300 rows with a black pixel at `(0, 299)`. -/
def tall_dot_surface : Surface :=
  ⟨1, 300, fun x y => if x = 0 ∧ y = 299 then pack_RGB 0 0 0 else pack_RGB 255 255 255⟩

/-- A surface of one column and three rows: black at `(0, 0)` and `(0, 2)`, white at
`(0, 1)`. -/
def vertical_pair_surface : Surface :=
  ⟨1, 3, fun _ y => if y = 1 then pack_RGB 255 255 255 else pack_RGB 0 0 0⟩

/-- A 7x7 white surface holding the solid black square of side 5 whose corner is
`(1, 1)`. -/
def black_square_surface : Surface :=
  ⟨7, 7, fun x y => if 1 ≤ x ∧ x < 6 ∧ 1 ≤ y ∧ y < 6 then pack_RGB 0 0 0
    else pack_RGB 255 255 255⟩

/-! ## Reference maps for the morphology and perimeter claims -/

/-- The one-pass map of erosion as the specification words it: an interior pixel becomes pure
white exactly when one of the nine pixels of its 3x3 window in `img` has a nonzero gray
value, and every other pixel keeps its value in `img`. -/
def erosion_step (img : Surface) : Surface :=
  { img with pix := fun x y =>
      if (1 ≤ x ∧ x < (img.w : Int) - 1 ∧ 1 ≤ y ∧ y < (img.h : Int) - 1) ∧
        window_nonblack img x y = true
      then pack_RGB 0xFF 0xFF 0xFF else img.pix x y }

/-- Function `perimiter` with both surfaces it holds kept in the result: `image_src`, the copy
`image_eroded`, and the returned count, as they are when the function returns. The only
writes are those of `erosion` on the copy. -/
def perimiter_state (image_src : Surface) : Option (Surface × Surface × Nat) := do
  let image_eroded := image_src
  let image_eroded ← erosion image_eroded 1
  let perimeter_sum ← forRange 1 ((image_eroded.w : Int) - 1) (fun x perimeter_sum =>
    forRange 1 ((image_eroded.h : Int) - 1) (fun y perimeter_sum => do
      let pixel_src ← get_pixel image_src x y
      let pixel_src_eroded ← get_pixel image_eroded x y
      let pixel_src_gray := RGB_to_gray pixel_src
      let pixel_src_gray_eroded := RGB_to_gray pixel_src_eroded
      if (pixel_src_gray + 2 ^ 32 - pixel_src_gray_eroded) % 2 ^ 32 ≠ 0 then
        pure (perimeter_sum + 1)
      else pure perimeter_sum) perimeter_sum) 0
  pure (image_src, image_eroded, perimeter_sum)

/-- The body of the two pixel loops of `dilation` at `(x, y)`: it reads the snapshot
`image_tmp` and paints the 3x3 window of `(x, y)` on `image` when the gray value is zero. -/
def dilation_at (image_tmp : Surface) (x y : Int) (image : Surface) : Option Surface := do
  let pixel_src ← get_pixel image_tmp x y
  let gray_value := RGB_to_gray pixel_src
  let pixel_dst := pack_RGB 0x00 0x00 0x00
  if gray_value = 0x00 then
    forRange (-1) 2 (fun u image =>
      forRange (-1) 2 (fun v image => put_pixel image (x + u) (y + v) pixel_dst) image)
      image
  else pure image

/-- One pass of `dilation` with the pixels visited in the order of the list `order` instead of
the order of the two loops `x`, `y`. -/
def dilation_visit (image_src : Surface) (order : List (Int × Int)) : Option Surface :=
  let image_tmp := image_src
  order.foldlM (fun image c => dilation_at image_tmp c.1 c.2 image) image_src

/-- The interior pixels in the order in which the loops `for x = 1 .. W - 2`,
`for y = 1 .. H - 2` visit them. -/
def interior_cells (img : Surface) : List (Int × Int) :=
  (List.range ((img.w : Int) - 1 - 1).toNat).flatMap fun (i : Nat) =>
    (List.range ((img.h : Int) - 1 - 1).toNat).map fun (j : Nat) => (1 + (i : Int), 1 + (j : Int))

/-- Whether `(x, y)` is an interior pixel of `img` whose gray value is zero. -/
def black_interior (img : Surface) (x y : Int) : Bool :=
  decide (1 ≤ x ∧ x < (img.w : Int) - 1 ∧ 1 ≤ y ∧ y < (img.h : Int) - 1) &&
    RGB_to_gray (img.pix x y) == 0

/-- Whether one of the nine pixels `(p + u, q + v)`, `u, v = -1, 0, 1`, is an interior pixel of
`img` whose gray value is zero. -/
def near_black_interior (img : Surface) (p q : Int) : Bool :=
  black_interior img (p + -1) (q + -1) || black_interior img (p + -1) (q + 0) ||
    black_interior img (p + -1) (q + 1) || black_interior img (p + 0) (q + -1) ||
    black_interior img (p + 0) (q + 0) || black_interior img (p + 0) (q + 1) ||
    black_interior img (p + 1) (q + -1) || black_interior img (p + 1) (q + 0) ||
    black_interior img (p + 1) (q + 1)

/-- The one-pass map of dilation as the claim words it, without any visiting order: a pixel
is pure black when an interior pixel at distance at most 1 in both coordinates has gray
value zero in `img`, and keeps its value in `img` otherwise. -/
def dilation_step (img : Surface) : Surface :=
  { img with pix := fun p q =>
      if near_black_interior img p q = true then pack_RGB 0x00 0x00 0x00 else img.pix p q }

/-! ## Reference values for the Sobel claim -/

/-- The weighted sum of the gray values of the window of `(x, y)` under the kernel
`Gx = [-1,0,1; -2,0,2; -1,0,1]` (rows indexed by the y offset, columns by the x offset), in
exact integer arithmetic. -/
def sobel_sum_x (img : Surface) (x y : Int) : Int :=
  -1 * (RGB_to_gray (img.pix (x + -1) (y + -1)) : Int)
    + 0 * (RGB_to_gray (img.pix (x + 0) (y + -1)) : Int)
    + 1 * (RGB_to_gray (img.pix (x + 1) (y + -1)) : Int)
    + -2 * (RGB_to_gray (img.pix (x + -1) (y + 0)) : Int)
    + 0 * (RGB_to_gray (img.pix (x + 0) (y + 0)) : Int)
    + 2 * (RGB_to_gray (img.pix (x + 1) (y + 0)) : Int)
    + -1 * (RGB_to_gray (img.pix (x + -1) (y + 1)) : Int)
    + 0 * (RGB_to_gray (img.pix (x + 0) (y + 1)) : Int)
    + 1 * (RGB_to_gray (img.pix (x + 1) (y + 1)) : Int)

/-- The weighted sum of the gray values of the window of `(x, y)` under the kernel
`Gy = [-1,-2,-1; 0,0,0; 1,2,1]` (rows indexed by the y offset, columns by the x offset), in
exact integer arithmetic. -/
def sobel_sum_y (img : Surface) (x y : Int) : Int :=
  -1 * (RGB_to_gray (img.pix (x + -1) (y + -1)) : Int)
    + -2 * (RGB_to_gray (img.pix (x + 0) (y + -1)) : Int)
    + -1 * (RGB_to_gray (img.pix (x + 1) (y + -1)) : Int)
    + 0 * (RGB_to_gray (img.pix (x + -1) (y + 0)) : Int)
    + 0 * (RGB_to_gray (img.pix (x + 0) (y + 0)) : Int)
    + 0 * (RGB_to_gray (img.pix (x + 1) (y + 0)) : Int)
    + 1 * (RGB_to_gray (img.pix (x + -1) (y + 1)) : Int)
    + 2 * (RGB_to_gray (img.pix (x + 0) (y + 1)) : Int)
    + 1 * (RGB_to_gray (img.pix (x + 1) (y + 1)) : Int)

/-- The largest `r <= bound` with `r * r <= n`, found by searching downwards from `bound`;
for `bound = n` it is the floor of the square root of `n`. -/
def floor_sqrt_from : Nat → Nat → Nat
  | 0, _ => 0
  | bound + 1, n => if (bound + 1) * (bound + 1) ≤ n then bound + 1 else floor_sqrt_from bound n

/-- The magnitude as the specification words it, `round(sqrt(gx^2 + gy^2))`: the integer
nearest to the square root, which is the floor `r` of the root when
`gx^2 + gy^2 <= r^2 + r` and `r + 1` otherwise. -/
def spec_sobel_magnitude (gx gy : Int) : Nat :=
  let n := gx.natAbs ^ 2 + gy.natAbs ^ 2
  let r := floor_sqrt_from n n
  if r * r + r < n then r + 1 else r

/-- A 3x3 black surface whose corner pixel `(2, 2)` is the dark gray `(2, 2, 2)`. -/
def faint_corner_surface : Surface :=
  ⟨3, 3, fun x y => if x = 2 ∧ y = 2 then pack_RGB 2 2 2 else pack_RGB 0 0 0⟩

/-! ## Division of doubles and the zero mass -/

/-- A value of type `double` as far as a division tells values apart: a finite number with
its sign bit (so that `-0.0` differs from `0.0`) and its magnitude, an infinity with its
sign, or a NaN. -/
inductive Double where
  | finite (negative : Bool) (magnitude : ℚ)
  | infinity (negative : Bool)
  | nan

/-- The integer nearest to `x`, the even one of the two when `x` lies half way between two
integers (the IEEE 754 rounding direction `roundTiesToEven`). -/
def round_half_even (x : ℚ) : ℤ :=
  if x - ⌊x⌋ < 1 / 2 then ⌊x⌋
  else if 1 / 2 < x - ⌊x⌋ then ⌊x⌋ + 1
  else if ⌊x⌋ % 2 = 0 then ⌊x⌋ else ⌊x⌋ + 1

/-- The exponent `e` of the unit in the last place `2^e` of a double near `q > 0`: the
mantissa has 53 bits, so `e = floor(log2 q) - 52`, and not below `-1074`, the exponent of
the subnormal doubles. -/
def double_exponent (q : ℚ) : ℤ := max (-1074) (Int.log 2 q - 52)

/-- The double nearest to the magnitude `q >= 0`, with the sign bit `negative`: `q` is
rounded to a multiple of `2^e` for `e = double_exponent q`, ties to even, and a result of
`2^1024` or more is an infinity. -/
def round_to_double (negative : Bool) (q : ℚ) : Double :=
  if q = 0 then Double.finite negative 0
  else if 2 ^ 1024 ≤ (round_half_even (q / 2 ^ double_exponent q) : ℚ) * 2 ^ double_exponent q
    then Double.infinity negative
  else Double.finite negative
    ((round_half_even (q / 2 ^ double_exponent q) : ℚ) * 2 ^ double_exponent q)

/-- The operator `/` on doubles (IEEE 754 in the default environment, where no operation
traps): the special cases of NaN, infinities and a zero divisor, and for a finite dividend
and a finite nonzero divisor the exact quotient of the magnitudes rounded to a double. -/
def Double.div : Double → Double → Double
  | Double.nan, _ => Double.nan
  | _, Double.nan => Double.nan
  | Double.infinity _, Double.infinity _ => Double.nan
  | Double.infinity s, Double.finite t _ => Double.infinity (xor s t)
  | Double.finite s _, Double.infinity t => Double.finite (xor s t) 0
  | Double.finite s a, Double.finite t b =>
    if b = 0 then (if a = 0 then Double.nan else Double.infinity (xor s t))
    else round_to_double (xor s t) (a / b)

/-- Function `centroid` on doubles with their special values: `C[0] = M[1][0]/M[0][0]`,
`C[1] = M[0][1]/M[0][0]`. The function has no other statement, and its result type has no
error alternative. -/
def centroid_double (M : Nat → Nat → Double) : Double × Double :=
  (Double.div (M 1 0) (M 0 0), Double.div (M 0 1) (M 0 0))

/-- The table of doubles holding the non-negative integers of a table returned by
`moment`. -/
def moments_as_doubles (M : Moments) : Nat → Nat → Double :=
  fun i j => Double.finite false (M i j : ℚ)

/-- A 2x2 surface that is pure white. -/
def white_surface : Surface := ⟨2, 2, fun _ _ => pack_RGB 255 255 255⟩

/-- A 2x2 white surface with black pixels at `(0, 0)` and `(1, 1)`. -/
def diagonal_pair_surface : Surface :=
  ⟨2, 2, fun x y => if x = y then pack_RGB 0 0 0 else pack_RGB 255 255 255⟩

/-! ## Theorems -/

/-! ### Loops -/

theorem foldlM_range_inv {σ : Type} (P : Int → σ → Prop) (lo : Int) (body : Int → σ → Option σ)
    (s : σ) (h0 : P lo s) (n : Nat)
    (hstep : ∀ (i : Nat) st, i < n → P (lo + i) st →
      ∃ st', body (lo + i) st = some st' ∧ P (lo + i + 1) st') :
    ∃ st', (List.range n).foldlM (fun st (i : Nat) => body (lo + (i : Int)) st) s = some st' ∧
      P (lo + n) st' := by
  induction n with
  | zero => exact ⟨s, by simp, by simpa using h0⟩
  | succ k ih =>
    obtain ⟨st1, h1, p1⟩ := ih (fun i st hi hp => hstep i st (by omega) hp)
    obtain ⟨st2, h2, p2⟩ := hstep k st1 (by omega) p1
    refine ⟨st2, ?_, ?_⟩
    · rw [List.range_succ, List.foldlM_append, h1]
      simp [h2]
    · have e : lo + ((k + 1 : Nat) : Int) = lo + (k : Int) + 1 := by push_cast; ring
      rw [e]; exact p2

/-- Loop rule with an invariant that depends on the loop counter. -/
theorem forRange_inv_idx {σ : Type} (P : Int → σ → Prop) (lo hi : Int)
    (body : Int → σ → Option σ) (s : σ) (hle : lo ≤ hi) (h0 : P lo s)
    (hstep : ∀ x st, lo ≤ x → x < hi → P x st → ∃ st', body x st = some st' ∧ P (x + 1) st') :
    ∃ st', forRange lo hi body s = some st' ∧ P hi st' := by
  obtain ⟨st', h1, p1⟩ := foldlM_range_inv P lo body s h0 (hi - lo).toNat
    (fun i st hi' hp => hstep (lo + i) st (by omega) (by omega) hp)
  refine ⟨st', by unfold forRange; exact h1, ?_⟩
  have e : lo + (((hi - lo).toNat : Nat) : Int) = hi := by omega
  rw [e] at p1; exact p1

/-- Loop rule with an invariant that does not depend on the loop counter. -/
theorem forRange_inv {σ : Type} (P : σ → Prop) (lo hi : Int) (body : Int → σ → Option σ)
    (s : σ) (h0 : P s)
    (hstep : ∀ x st, lo ≤ x → x < hi → P st → ∃ st', body x st = some st' ∧ P st') :
    ∃ st', forRange lo hi body s = some st' ∧ P st' := by
  unfold forRange
  exact foldlM_range_inv (fun _ st => P st) lo body s h0 (hi - lo).toNat
    (fun i st hi' hp => hstep (lo + i) st (by omega) (by omega) hp)

theorem forRange_window {σ : Type} (body : Int → σ → Option σ) (s : σ) :
    forRange (-1) 2 body s =
      (body (-1) s).bind fun s1 => (body 0 s1).bind fun s2 => body 1 s2 := by
  have e : ((2 : Int) - (-1)).toNat = 3 := by decide
  simp only [forRange, e]
  simp [List.range_succ]

theorem get_pixel_of_inRange (s : Surface) (x y : Int) (hx0 : 0 ≤ x) (hx : x < s.w)
    (hy0 : 0 ≤ y) (hy : y < s.h) : get_pixel s x y = some (s.pix x y) := by
  simp [get_pixel, hx0, hx, hy0, hy]

theorem window_fold_eq {α : Type} (tmp : Surface) (x y : Int) (f : Int → Int → Nat → α → α)
    (init : α) (hx1 : 1 ≤ x) (hx : x < (tmp.w : Int) - 1) (hy1 : 1 ≤ y)
    (hy : y < (tmp.h : Int) - 1) :
    window_fold tmp x y f init = some (window_value tmp x y f init) := by
  unfold window_fold
  simp only [forRange_window]
  rw [get_pixel_of_inRange tmp (x + -1) (y + -1) (by omega) (by omega) (by omega) (by omega),
    get_pixel_of_inRange tmp (x + -1) (y + 0) (by omega) (by omega) (by omega) (by omega),
    get_pixel_of_inRange tmp (x + -1) (y + 1) (by omega) (by omega) (by omega) (by omega),
    get_pixel_of_inRange tmp (x + 0) (y + -1) (by omega) (by omega) (by omega) (by omega),
    get_pixel_of_inRange tmp (x + 0) (y + 0) (by omega) (by omega) (by omega) (by omega),
    get_pixel_of_inRange tmp (x + 0) (y + 1) (by omega) (by omega) (by omega) (by omega),
    get_pixel_of_inRange tmp (x + 1) (y + -1) (by omega) (by omega) (by omega) (by omega),
    get_pixel_of_inRange tmp (x + 1) (y + 0) (by omega) (by omega) (by omega) (by omega),
    get_pixel_of_inRange tmp (x + 1) (y + 1) (by omega) (by omega) (by omega) (by omega)]
  rfl

/-! ### Point transforms -/

theorem put_pixel_of_inRange (s : Surface) (x y : Int) (v : Nat) (hx0 : 0 ≤ x) (hx : x < s.w)
    (hy0 : 0 ≤ y) (hy : y < s.h) :
    put_pixel s x y v =
      some { s with pix := fun a b => if a = x ∧ b = y then v else s.pix a b } := by
  simp [put_pixel, hx0, hx, hy0, hy]

/-- A loop over every cell that replaces the pixel read at `(x, y)` by `F` of it maps `F`
over the grid. -/
theorem pointwise_loop (F : Nat → Nat) (s : Surface) :
    ∃ s', forRange 0 s.w (fun x image =>
        forRange 0 s.h (fun y image => do
          let pixel_src ← get_pixel image x y
          put_pixel image x y (F pixel_src)) image) s = some s' ∧
      s'.w = s.w ∧ s'.h = s.h ∧
      ∀ a b, s'.pix a b =
        if 0 ≤ a ∧ a < s.w ∧ 0 ≤ b ∧ b < s.h then F (s.pix a b) else s.pix a b := by
  apply forRange_inv_idx (fun x (img : Surface) => img.w = s.w ∧ img.h = s.h ∧
      ∀ a b, img.pix a b =
        if 0 ≤ a ∧ a < x ∧ 0 ≤ b ∧ b < s.h then F (s.pix a b) else s.pix a b)
  · omega
  · refine ⟨rfl, rfl, fun a b => ?_⟩
    rw [if_neg (by omega)]
  · intro x img hx0 hx ⟨hw, hh, hp⟩
    obtain ⟨img', h1, hw', hh', hp'⟩ := forRange_inv_idx (fun y (im : Surface) =>
        im.w = s.w ∧ im.h = s.h ∧ ∀ a b, im.pix a b =
          if (0 ≤ a ∧ a < x ∧ 0 ≤ b ∧ b < s.h) ∨ (a = x ∧ 0 ≤ b ∧ b < y)
          then F (s.pix a b) else s.pix a b) 0 s.h
        (fun y image => do
          let pixel_src ← get_pixel image x y
          put_pixel image x y (F pixel_src)) img (by omega)
        (by
          refine ⟨hw, hh, fun a b => ?_⟩
          rw [hp a b]
          by_cases c : 0 ≤ a ∧ a < x ∧ 0 ≤ b ∧ b < s.h
          · rw [if_pos c, if_pos (Or.inl c)]
          · rw [if_neg c, if_neg (by omega)])
        (by
          intro y im hy0 hy ⟨iw, ih, ip⟩
          beta_reduce
          rw [get_pixel_of_inRange im x y hx0 (by omega) hy0 (by omega)]
          simp only [Option.bind_eq_bind, Option.some_bind]
          rw [put_pixel_of_inRange im x y _ hx0 (by omega) hy0 (by omega)]
          refine ⟨_, rfl, iw, ih, fun a b => ?_⟩
          simp only
          by_cases c : a = x ∧ b = y
          · rw [if_pos c, if_pos (by omega), ip x y, if_neg (by omega), c.1, c.2]
          · rw [if_neg c, ip a b]
            by_cases d : (0 ≤ a ∧ a < x ∧ 0 ≤ b ∧ b < s.h) ∨ (a = x ∧ 0 ≤ b ∧ b < y)
            · rw [if_pos d, if_pos (by omega)]
            · rw [if_neg d, if_neg (by omega)])
    refine ⟨img', h1, hw', hh', fun a b => ?_⟩
    rw [hp' a b]
    by_cases d : (0 ≤ a ∧ a < x ∧ 0 ≤ b ∧ b < s.h) ∨ (a = x ∧ 0 ≤ b ∧ b < s.h)
    · rw [if_pos d, if_pos (by omega)]
    · rw [if_neg d, if_neg (by omega)]

theorem invert_spec (s : Surface) :
    ∃ s', invert s = some s' ∧ s'.w = s.w ∧ s'.h = s.h ∧
      ∀ a b, s'.pix a b =
        if 0 ≤ a ∧ a < s.w ∧ 0 ≤ b ∧ b < s.h then invert_pixel (s.pix a b) else s.pix a b :=
  pointwise_loop invert_pixel s

theorem threshold_spec (s : Surface) (level : Nat) :
    ∃ s', threshold s level = some s' ∧ s'.w = s.w ∧ s'.h = s.h ∧
      ∀ a b, s'.pix a b =
        if 0 ≤ a ∧ a < s.w ∧ 0 ≤ b ∧ b < s.h then threshold_pixel level (s.pix a b)
        else s.pix a b :=
  pointwise_loop (threshold_pixel level) s

/-- What `color_mask` writes for a source pixel: gray when the mask is exactly
`M_RED | M_GREEN | M_BLUE`, otherwise each channel whose flag is set is zeroed. -/
theorem color_mask_spec (s : Surface) (c_mask : Int) :
    ∃ s', color_mask s c_mask = some s' ∧ s'.w = s.w ∧ s'.h = s.h ∧
      ∀ a b, s'.pix a b =
        if 0 ≤ a ∧ a < s.w ∧ 0 ≤ b ∧ b < s.h then
          (if c_mask = Int.lor (Int.lor M_RED M_GREEN) M_BLUE then
            pack_RGB (RGB_to_gray (s.pix a b)) (RGB_to_gray (s.pix a b))
              (RGB_to_gray (s.pix a b))
          else pack_RGB (if Int.land c_mask M_RED ≠ M_RED then RGB_to_red (s.pix a b) else 0)
            (if Int.land c_mask M_GREEN ≠ M_GREEN then RGB_to_green (s.pix a b) else 0)
            (if Int.land c_mask M_BLUE ≠ M_BLUE then RGB_to_blue (s.pix a b) else 0))
        else s.pix a b := by
  generalize hF : (fun p : Nat =>
    if c_mask = Int.lor (Int.lor M_RED M_GREEN) M_BLUE then
      pack_RGB (RGB_to_gray p) (RGB_to_gray p) (RGB_to_gray p)
    else pack_RGB (if Int.land c_mask M_RED ≠ M_RED then RGB_to_red p else 0)
      (if Int.land c_mask M_GREEN ≠ M_GREEN then RGB_to_green p else 0)
      (if Int.land c_mask M_BLUE ≠ M_BLUE then RGB_to_blue p else 0)) = F
  have hF' : ∀ p, F p = (if c_mask = Int.lor (Int.lor M_RED M_GREEN) M_BLUE then
      pack_RGB (RGB_to_gray p) (RGB_to_gray p) (RGB_to_gray p)
    else pack_RGB (if Int.land c_mask M_RED ≠ M_RED then RGB_to_red p else 0)
      (if Int.land c_mask M_GREEN ≠ M_GREEN then RGB_to_green p else 0)
      (if Int.land c_mask M_BLUE ≠ M_BLUE then RGB_to_blue p else 0)) := fun p => by rw [← hF]
  suffices h : ∃ s', color_mask s c_mask = some s' ∧ s'.w = s.w ∧ s'.h = s.h ∧
      ∀ a b, s'.pix a b =
        if 0 ≤ a ∧ a < s.w ∧ 0 ≤ b ∧ b < s.h then F (s.pix a b) else s.pix a b by
    obtain ⟨s', h1, h2, h3, h4⟩ := h
    refine ⟨s', h1, h2, h3, fun a b => ?_⟩
    rw [h4 a b, hF']
  unfold color_mask
  apply forRange_inv_idx (fun x (img : Surface) => img.w = s.w ∧ img.h = s.h ∧
      ∀ a b, img.pix a b =
        if 0 ≤ a ∧ a < x ∧ 0 ≤ b ∧ b < s.h then F (s.pix a b) else s.pix a b)
  · omega
  · refine ⟨rfl, rfl, fun a b => ?_⟩
    rw [if_neg (by omega)]
  · intro x img hx0 hx ⟨hw, hh, hp⟩
    obtain ⟨st, h1, hw', hh', hp', -⟩ := forRange_inv_idx
        (fun y (st : Surface × Nat × Nat × Nat) =>
        st.1.w = s.w ∧ st.1.h = s.h ∧ (∀ a b, st.1.pix a b =
          if (0 ≤ a ∧ a < x ∧ 0 ≤ b ∧ b < s.h) ∨ (a = x ∧ 0 ≤ b ∧ b < y)
          then F (s.pix a b) else s.pix a b) ∧
          (c_mask ≠ Int.lor (Int.lor M_RED M_GREEN) M_BLUE →
            (Int.land c_mask M_RED = M_RED → st.2.1 = 0) ∧
            (Int.land c_mask M_GREEN = M_GREEN → st.2.2.1 = 0) ∧
            (Int.land c_mask M_BLUE = M_BLUE → st.2.2.2 = 0))) 0 s.h
        (color_mask_pixel c_mask x) (img, 0, 0, 0) (by omega)
        (by
          refine ⟨hw, hh, fun a b => ?_, fun _ => ⟨fun _ => rfl, fun _ => rfl, fun _ => rfl⟩⟩
          rw [hp a b]
          by_cases c : 0 ≤ a ∧ a < x ∧ 0 ≤ b ∧ b < s.h
          · rw [if_pos c, if_pos (Or.inl c)]
          · rw [if_neg c, if_neg (by omega)])
        (by
          intro y st hy0 hy ⟨iw, ih, ip, il⟩
          unfold color_mask_pixel
          rw [get_pixel_of_inRange st.1 x y hx0 (by omega) hy0 (by omega)]
          simp only [Option.bind_eq_bind, Option.some_bind, Option.pure_def]
          rw [put_pixel_of_inRange st.1 x y _ hx0 (by omega) hy0 (by omega)]
          simp only [Option.some_bind]
          have hsrc : st.1.pix x y = s.pix x y := by rw [ip x y, if_neg (by omega)]
          refine ⟨_, rfl, iw, ih, fun a b => ?_, fun hne => ?_⟩
          · simp only
            by_cases c : a = x ∧ b = y
            · obtain ⟨rfl, rfl⟩ := c
              rw [if_pos ⟨rfl, rfl⟩, if_pos (Or.inr ⟨rfl, hy0, by omega⟩), hsrc, hF']
              by_cases h7 : c_mask = Int.lor (Int.lor M_RED M_GREEN) M_BLUE
              · rw [if_pos h7]
                simp only [h7, decide_True, if_true]
              · obtain ⟨l1, l2, l3⟩ := il h7
                have e1 : (if Int.land c_mask M_RED ≠ M_RED then RGB_to_red (s.pix a b)
                    else st.2.1) = (if Int.land c_mask M_RED ≠ M_RED then RGB_to_red (s.pix a b)
                    else 0) := by
                  by_cases hc : Int.land c_mask M_RED = M_RED
                  · simp [hc, l1 hc]
                  · simp [hc]
                have e2 : (if Int.land c_mask M_GREEN ≠ M_GREEN then RGB_to_green (s.pix a b)
                    else st.2.2.1) = (if Int.land c_mask M_GREEN ≠ M_GREEN then
                    RGB_to_green (s.pix a b) else 0) := by
                  by_cases hc : Int.land c_mask M_GREEN = M_GREEN
                  · simp [hc, l2 hc]
                  · simp [hc]
                have e3 : (if Int.land c_mask M_BLUE ≠ M_BLUE then RGB_to_blue (s.pix a b)
                    else st.2.2.2) = (if Int.land c_mask M_BLUE ≠ M_BLUE then
                    RGB_to_blue (s.pix a b) else 0) := by
                  by_cases hc : Int.land c_mask M_BLUE = M_BLUE
                  · simp [hc, l3 hc]
                  · simp [hc]
                rw [if_neg h7]
                simp only [h7, decide_False, if_false, Bool.false_eq_true]
                rw [e1, e2, e3]
            · rw [if_neg c, ip a b]
              by_cases d : (0 ≤ a ∧ a < x ∧ 0 ≤ b ∧ b < s.h) ∨ (a = x ∧ 0 ≤ b ∧ b < y)
              · rw [if_pos d, if_pos (by omega)]
              · rw [if_neg d, if_neg (by omega)]
          · obtain ⟨l1, l2, l3⟩ := il hne
            simp only [hne, decide_False, if_false, Bool.false_eq_true]
            refine ⟨fun hc => ?_, fun hc => ?_, fun hc => ?_⟩
            · rw [if_neg (by simpa using hc)]; exact l1 hc
            · rw [if_neg (by simpa using hc)]; exact l2 hc
            · rw [if_neg (by simpa using hc)]; exact l3 hc)
    rw [h1]
    refine ⟨st.1, rfl, hw', hh', fun a b => ?_⟩
    rw [hp' a b]
    by_cases d : (0 ≤ a ∧ a < x ∧ 0 ≤ b ∧ b < s.h) ∨ (a = x ∧ 0 ≤ b ∧ b < s.h)
    · rw [if_pos d, if_pos (by omega)]
    · rw [if_neg d, if_neg (by omega)]

/-! ### Codec lemmas -/

theorem lor_bytes (a b c : Nat) (ha : a < 256) (hb : b < 256) :
    (a <<< 0) ||| (b <<< 8) ||| (c <<< 16) = a + 256 * b + 65536 * c := by
  have h1 : 2 ^ 8 * b + a = 2 ^ 8 * b ||| a := Nat.mul_add_lt_is_or (by omega) b
  have h2 : 2 ^ 16 * c + (2 ^ 8 * b + a) = 2 ^ 16 * c ||| (2 ^ 8 * b + a) :=
    Nat.mul_add_lt_is_or (by omega) c
  simp only [Nat.shiftLeft_eq, Nat.pow_zero, Nat.mul_one]
  rw [Nat.lor_comm a, Nat.mul_comm b, ← h1, Nat.lor_comm, Nat.mul_comm c, ← h2]
  omega

theorem channels_of_sum (a b c : Nat) (ha : a < 256) (hb : b < 256) (hc : c < 256) :
    RGB_to_red (a + 256 * b + 65536 * c) = a ∧ RGB_to_green (a + 256 * b + 65536 * c) = b ∧
      RGB_to_blue (a + 256 * b + 65536 * c) = c := by
  have e : (0xFF : Nat) = 2 ^ 8 - 1 := by norm_num
  simp only [RGB_to_red, RGB_to_green, RGB_to_blue, e, Nat.and_pow_two_sub_one_eq_mod,
    Nat.shiftRight_eq_div_pow]
  omega

theorem pack_RGB_eq (r g b : Nat) :
    pack_RGB r g b = r % 256 + 256 * (g % 256) + 65536 * (b % 256) := by
  unfold pack_RGB
  exact lor_bytes _ _ _ (Nat.mod_lt _ (by norm_num)) (Nat.mod_lt _ (by norm_num))

/-- C1: for channel values in [0,255], unpacking a packed pixel returns the three channels,
and the packed pixel has bits 24-31 equal to zero. -/
theorem pack_unpack_roundtrip (r g b : Nat) (hr : r ≤ 255) (hg : g ≤ 255) (hb : b ≤ 255) :
    RGB_to_red (pack_RGB r g b) = r ∧ RGB_to_green (pack_RGB r g b) = g ∧
      RGB_to_blue (pack_RGB r g b) = b ∧ pack_RGB r g b >>> 24 = 0 := by
  have h := channels_of_sum r g b (by omega) (by omega) (by omega)
  rw [pack_RGB_eq, Nat.mod_eq_of_lt (by omega : r < 256), Nat.mod_eq_of_lt (by omega : g < 256),
    Nat.mod_eq_of_lt (by omega : b < 256)]
  refine ⟨h.1, h.2.1, h.2.2, ?_⟩
  rw [Nat.shiftRight_eq_div_pow]
  omega

theorem pack_unpack_roundtrip_witness :
    RGB_to_red (pack_RGB 10 200 255) = 10 ∧ RGB_to_green (pack_RGB 10 200 255) = 200 ∧
      RGB_to_blue (pack_RGB 10 200 255) = 255 ∧ pack_RGB 10 200 255 >>> 24 = 0 :=
  pack_unpack_roundtrip 10 200 255 (by decide) (by decide) (by decide)

/-! ### Error analysis of the luma conversion -/

theorem excessBits_le (fuel : Nat) : ∀ (n k : Nat), n < 2 ^ (53 + k) → excessBits fuel n ≤ k := by
  induction fuel with
  | zero => intro n k _; simp [excessBits]
  | succ f ih =>
    intro n k h
    unfold excessBits
    split
    · exact Nat.zero_le _
    · rename_i hn
      cases k with
      | zero => exact absurd h hn
      | succ k =>
        have h2 : n / 2 < 2 ^ (53 + k) := by
          have : 2 ^ (53 + (k + 1)) = 2 * 2 ^ (53 + k) := by rw [← Nat.add_assoc, Nat.pow_succ]; ring
          omega
        have := ih (n / 2) k h2
        omega

theorem roundDouble_err (n : Nat) (h : n < 2 ^ 65) :
    n ≤ roundDouble n + 2048 ∧ roundDouble n ≤ n + 2048 := by
  have hs : excessBits 1024 n ≤ 12 := excessBits_le 1024 n 12 (by simpa using h)
  have hP : 2 ^ excessBits 1024 n ≤ 2 ^ 12 := Nat.pow_le_pow_right (by norm_num) hs
  have hpos : 0 < 2 ^ excessBits 1024 n := Nat.pow_pos (by norm_num)
  unfold roundDouble
  simp only [Nat.shiftRight_eq_div_pow, Nat.shiftLeft_eq]
  generalize 2 ^ excessBits 1024 n = P at hP hpos
  have hd := Nat.div_add_mod n P
  have hr := Nat.mod_lt n hpos
  rw [Nat.mul_comm] at hd
  split
  · rename_i hc
    rw [Nat.add_mul]
    omega
  · rename_i hc
    omega

/-- The four coefficients are 53-bit significands within half a unit in the last place of
the decimal literals `.3`, `.299`, `.587` and `.114` (all in units of `2^-56`). -/
theorem coef_nearest :
    (2 ^ 54 ≤ coef_0_3 ∧ coef_0_3 < 2 ^ 55 ∧ coef_0_3 % 4 = 0 ∧
      10 * coef_0_3 ≤ 3 * 2 ^ 56 + 20 ∧ 3 * 2 ^ 56 ≤ 10 * coef_0_3 + 20) ∧
    (2 ^ 54 ≤ coef_0_299 ∧ coef_0_299 < 2 ^ 55 ∧ coef_0_299 % 4 = 0 ∧
      1000 * coef_0_299 ≤ 299 * 2 ^ 56 + 2000 ∧ 299 * 2 ^ 56 ≤ 1000 * coef_0_299 + 2000) ∧
    (2 ^ 55 ≤ coef_0_587 ∧ coef_0_587 < 2 ^ 56 ∧ coef_0_587 % 8 = 0 ∧
      1000 * coef_0_587 ≤ 587 * 2 ^ 56 + 4000 ∧ 587 * 2 ^ 56 ≤ 1000 * coef_0_587 + 4000) ∧
    (2 ^ 52 ≤ coef_0_114 ∧ coef_0_114 < 2 ^ 53 ∧
      1000 * coef_0_114 ≤ 114 * 2 ^ 56 + 500 ∧ 114 * 2 ^ 56 ≤ 1000 * coef_0_114 + 500) := by
  decide

/-- A value that fits in 53 bits is a double and is not changed by the rounding. -/
theorem roundDouble_exact (n : Nat) (h : n < 2 ^ 53) : roundDouble n = n := by
  have e : excessBits 1024 n = 0 := by
    have := excessBits_le 1024 n 0 (by simpa using h)
    omega
  unfold roundDouble
  simp [e, Nat.mod_one]

theorem luma_double_bounds (cr p : Nat) (hcr : cr ≤ 2 ^ 55) :
    luma_double cr p ≤ cr * RGB_to_red p + coef_0_587 * RGB_to_green p
        + coef_0_114 * RGB_to_blue p + 10240 ∧
      cr * RGB_to_red p + coef_0_587 * RGB_to_green p + coef_0_114 * RGB_to_blue p
        ≤ luma_double cr p + 10240 := by
  have e : (0xFF : Nat) = 2 ^ 8 - 1 := by norm_num
  have hR : RGB_to_red p < 256 := by
    simp only [RGB_to_red, e, Nat.and_pow_two_sub_one_eq_mod]; exact Nat.mod_lt _ (by norm_num)
  have hG : RGB_to_green p < 256 := by
    simp only [RGB_to_green, e, Nat.and_pow_two_sub_one_eq_mod]; exact Nat.mod_lt _ (by norm_num)
  have hB : RGB_to_blue p < 256 := by
    simp only [RGB_to_blue, e, Nat.and_pow_two_sub_one_eq_mod]; exact Nat.mod_lt _ (by norm_num)
  unfold luma_double
  simp only []
  change roundDouble (roundDouble (roundDouble (cr * RGB_to_red p)
      + roundDouble (coef_0_587 * RGB_to_green p)) + roundDouble (coef_0_114 * RGB_to_blue p)) ≤ _ ∧
    _ ≤ roundDouble (roundDouble (roundDouble (cr * RGB_to_red p)
      + roundDouble (coef_0_587 * RGB_to_green p)) + roundDouble (coef_0_114 * RGB_to_blue p)) + _
  generalize RGB_to_red p = R at hR
  generalize RGB_to_green p = G at hG
  generalize RGB_to_blue p = B at hB
  have h1 : cr * R ≤ 2 ^ 55 * 255 := Nat.mul_le_mul hcr (by omega)
  have h2 : coef_0_587 * G ≤ coef_0_587 * 255 := Nat.mul_le_mul_left _ (by omega)
  have h3 : coef_0_114 * B ≤ coef_0_114 * 255 := Nat.mul_le_mul_left _ (by omega)
  have e587 : coef_0_587 = 42297807700263696 := by norm_num [coef_0_587]
  have e114 : coef_0_114 = 8214565720323785 := rfl
  rw [e587] at h2 ⊢
  rw [e114] at h3 ⊢
  have a1 := roundDouble_err (cr * R) (by omega)
  have a2 := roundDouble_err (42297807700263696 * G) (by omega)
  have a3 := roundDouble_err (8214565720323785 * B) (by omega)
  have a4 := roundDouble_err (roundDouble (cr * R) + roundDouble (42297807700263696 * G))
    (by omega)
  have a5 := roundDouble_err (roundDouble (roundDouble (cr * R)
    + roundDouble (42297807700263696 * G)) + roundDouble (8214565720323785 * B))
    (by omega)
  omega

/-- The truncated double can fall one below the exact quotient: for the pixel `(0, 72, 24)`
the exact weighted sum is 45 (`587*72 + 114*24 = 45000`) and `RGB_to_gray` returns 44. -/
theorem RGB_to_gray_below_exact :
    RGB_to_gray (pack_RGB 0 72 24) = 44 ∧ 300 * 0 + 587 * 72 + 114 * 24 = 1000 * 45 := by
  decide

/-! ### Claims on the codec and the point transforms -/

theorem channel_lt (p : Nat) :
    RGB_to_red p < 256 ∧ RGB_to_green p < 256 ∧ RGB_to_blue p < 256 := by
  have e : (0xFF : Nat) = 2 ^ 8 - 1 := by norm_num
  simp only [RGB_to_red, RGB_to_green, RGB_to_blue, e, Nat.and_pow_two_sub_one_eq_mod]
  exact ⟨Nat.mod_lt _ (by norm_num), Nat.mod_lt _ (by norm_num), Nat.mod_lt _ (by norm_num)⟩

theorem pack_channels (r g b : Nat) (hr : r < 256) (hg : g < 256) (hb : b < 256) :
    RGB_to_red (pack_RGB r g b) = r ∧ RGB_to_green (pack_RGB r g b) = g ∧
      RGB_to_blue (pack_RGB r g b) = b := by
  rw [pack_RGB_eq, Nat.mod_eq_of_lt hr, Nat.mod_eq_of_lt hg, Nat.mod_eq_of_lt hb]
  exact channels_of_sum r g b hr hg hb

theorem invert_pixel_eq (p : Nat) :
    invert_pixel p = (255 - RGB_to_red p) + 256 * (255 - RGB_to_green p)
      + 65536 * (255 - RGB_to_blue p) := by
  unfold invert_pixel
  exact lor_bytes _ _ _ (by omega) (by omega)

theorem invert_pixel_twice (p : Nat) : invert_pixel (invert_pixel p) = p % 2 ^ 24 := by
  obtain ⟨hr, hg, hb⟩ := channel_lt p
  have h := channels_of_sum (255 - RGB_to_red p) (255 - RGB_to_green p) (255 - RGB_to_blue p)
    (by omega) (by omega) (by omega)
  rw [invert_pixel_eq (invert_pixel p), invert_pixel_eq p, h.1, h.2.1, h.2.2]
  have e : (0xFF : Nat) = 2 ^ 8 - 1 := by norm_num
  simp only [RGB_to_red, RGB_to_green, RGB_to_blue, e, Nat.and_pow_two_sub_one_eq_mod,
    Nat.shiftRight_eq_div_pow] at hr hg hb ⊢
  omega

/-- C2 (as stated, for any 32-bit pixel values): on the 1x1 surface whose pixel is
`0x1000000`, two inversions leave the pixel `0`, not the original value. -/
theorem invert_twice_counterexample :
    get_pixel alpha_surface 0 0 = some 0x1000000 ∧
      (do let s1 ← invert alpha_surface
          let s2 ← invert s1
          get_pixel s2 0 0) = some 0 := by
  decide

/-- C2 (amended): on a surface whose pixels have bits 24-31 equal to zero, applying `invert`
twice succeeds and yields a surface of the same size whose pixel at every coordinate equals
the original pixel at that coordinate. -/
theorem invert_twice (s : Surface)
    (h24 : ∀ x y, 0 ≤ x → x < (s.w : Int) → 0 ≤ y → y < (s.h : Int) → s.pix x y >>> 24 = 0) :
    ∃ s1 s2, invert s = some s1 ∧ invert s1 = some s2 ∧ s2.w = s.w ∧ s2.h = s.h ∧
      ∀ x y, get_pixel s2 x y = get_pixel s x y := by
  obtain ⟨s1, h1, w1, hh1, p1⟩ := invert_spec s
  obtain ⟨s2, h2, w2, hh2, p2⟩ := invert_spec s1
  refine ⟨s1, s2, h1, h2, by omega, by omega, fun x y => ?_⟩
  unfold get_pixel
  rw [w2, hh2, w1, hh1]
  by_cases c : 0 ≤ x ∧ x < (s.w : Int) ∧ 0 ≤ y ∧ y < (s.h : Int)
  · rw [if_pos c, if_pos c, p2 x y, w1, hh1, if_pos c, p1 x y, if_pos c, invert_pixel_twice]
    have := h24 x y c.1 c.2.1 c.2.2.1 c.2.2.2
    rw [Nat.shiftRight_eq_div_pow] at this
    congr 1
    omega
  · rw [if_neg c, if_neg c]

theorem invert_twice_witness :
    ∃ s1 s2, invert two_tone_surface = some s1 ∧ invert s1 = some s2 ∧
      s2.w = two_tone_surface.w ∧ s2.h = two_tone_surface.h ∧
      ∀ x y, get_pixel s2 x y = get_pixel two_tone_surface x y :=
  invert_twice two_tone_surface (by
    intro x y _ _ _ _
    unfold two_tone_surface
    by_cases c : x = 0
    · simp only [c, if_true]; decide
    · simp only [c, if_false]; decide)

/-- C3: `threshold` succeeds on every surface and every level, and afterwards the pixel at
every coordinate is pure white if the gray value of the original pixel is at least the level
and pure black otherwise; so every pixel is pure black or pure white. -/
theorem threshold_binarizes (s : Surface) (level : Nat) :
    ∃ s', threshold s level = some s' ∧ s'.w = s.w ∧ s'.h = s.h ∧
      ∀ x y, 0 ≤ x → x < (s.w : Int) → 0 ≤ y → y < (s.h : Int) →
        get_pixel s' x y = some (if level ≤ RGB_to_gray (s.pix x y) then pack_RGB 255 255 255
          else pack_RGB 0 0 0) ∧
        (get_pixel s' x y = some (pack_RGB 255 255 255) ∨
          get_pixel s' x y = some (pack_RGB 0 0 0)) := by
  obtain ⟨s', h1, hw, hh, hp⟩ := threshold_spec s level
  refine ⟨s', h1, hw, hh, fun x y hx0 hx hy0 hy => ?_⟩
  have hg : get_pixel s' x y = some (if level ≤ RGB_to_gray (s.pix x y)
      then pack_RGB 255 255 255 else pack_RGB 0 0 0) := by
    rw [get_pixel_of_inRange s' x y hx0 (by omega) hy0 (by omega), hp x y,
      if_pos ⟨hx0, hx, hy0, hy⟩]
    unfold threshold_pixel
    by_cases c : level ≤ RGB_to_gray (s.pix x y)
    · simp [c]
    · simp [c]
  refine ⟨hg, ?_⟩
  rw [hg]
  by_cases c : level ≤ RGB_to_gray (s.pix x y)
  · left; rw [if_pos c]
  · right; rw [if_neg c]

/-- C4 (as stated): on the 1x1 surface with pixel `(1, 2, 3)` and the flag set `M_RED`, the
selected red channel is not kept (it becomes 0) and the unselected green and blue channels
are not zeroed (they stay 2 and 3). -/
theorem color_mask_counterexample :
    get_pixel rgb_123_surface 0 0 = some (pack_RGB 1 2 3) ∧
      (do let s' ← color_mask rgb_123_surface M_RED
          get_pixel s' 0 0) = some (pack_RGB 0 2 3) ∧
      RGB_to_red (pack_RGB 0 2 3) = 0 ∧ RGB_to_green (pack_RGB 0 2 3) = 2 ∧
      RGB_to_blue (pack_RGB 0 2 3) = 3 := by
  decide

/-- C4 (amended): when the flag set is not `M_RED | M_GREEN | M_BLUE`, `color_mask` succeeds
and every pixel has value 0 in each channel selected by the flag set and keeps the value of
each channel that is not selected. -/
theorem color_mask_zeroes_selected (s : Surface) (c_mask : Int)
    (hc : c_mask ≠ Int.lor (Int.lor M_RED M_GREEN) M_BLUE) :
    ∃ s', color_mask s c_mask = some s' ∧ s'.w = s.w ∧ s'.h = s.h ∧
      ∀ x y, 0 ≤ x → x < (s.w : Int) → 0 ≤ y → y < (s.h : Int) →
        ∃ p', get_pixel s' x y = some p' ∧
          RGB_to_red p' = (if Int.land c_mask M_RED = M_RED then 0
            else RGB_to_red (s.pix x y)) ∧
          RGB_to_green p' = (if Int.land c_mask M_GREEN = M_GREEN then 0
            else RGB_to_green (s.pix x y)) ∧
          RGB_to_blue p' = (if Int.land c_mask M_BLUE = M_BLUE then 0
            else RGB_to_blue (s.pix x y)) := by
  obtain ⟨s', h1, hw, hh, hp⟩ := color_mask_spec s c_mask
  refine ⟨s', h1, hw, hh, fun x y hx0 hx hy0 hy => ?_⟩
  refine ⟨_, get_pixel_of_inRange s' x y hx0 (by omega) hy0 (by omega), ?_⟩
  rw [hp x y, if_pos ⟨hx0, hx, hy0, hy⟩, if_neg hc]
  obtain ⟨hr, hg, hb⟩ := channel_lt (s.pix x y)
  have h := pack_channels
    (if Int.land c_mask M_RED ≠ M_RED then RGB_to_red (s.pix x y) else 0)
    (if Int.land c_mask M_GREEN ≠ M_GREEN then RGB_to_green (s.pix x y) else 0)
    (if Int.land c_mask M_BLUE ≠ M_BLUE then RGB_to_blue (s.pix x y) else 0)
    (by split <;> omega) (by split <;> omega) (by split <;> omega)
  rw [h.1, h.2.1, h.2.2]
  refine ⟨?_, ?_, ?_⟩
  · by_cases c : Int.land c_mask M_RED = M_RED
    · simp [c]
    · simp [c]
  · by_cases c : Int.land c_mask M_GREEN = M_GREEN
    · simp [c]
    · simp [c]
  · by_cases c : Int.land c_mask M_BLUE = M_BLUE
    · simp [c]
    · simp [c]

theorem color_mask_zeroes_selected_witness :
    ∃ s', color_mask two_tone_surface (Int.lor M_RED M_BLUE) = some s' ∧
      s'.w = two_tone_surface.w ∧ s'.h = two_tone_surface.h ∧
      ∀ x y, 0 ≤ x → x < (two_tone_surface.w : Int) → 0 ≤ y → y < (two_tone_surface.h : Int) →
        ∃ p', get_pixel s' x y = some p' ∧
          RGB_to_red p' = (if Int.land (Int.lor M_RED M_BLUE) M_RED = M_RED then 0
            else RGB_to_red (two_tone_surface.pix x y)) ∧
          RGB_to_green p' = (if Int.land (Int.lor M_RED M_BLUE) M_GREEN = M_GREEN then 0
            else RGB_to_green (two_tone_surface.pix x y)) ∧
          RGB_to_blue p' = (if Int.land (Int.lor M_RED M_BLUE) M_BLUE = M_BLUE then 0
            else RGB_to_blue (two_tone_surface.pix x y)) :=
  color_mask_zeroes_selected two_tone_surface (Int.lor M_RED M_BLUE) (by decide)

/-- C5: with the flag set `M_RED | M_GREEN | M_BLUE`, `color_mask` succeeds and replaces
every pixel `p` by `pack_RGB(g, g, g)` with `g = RGB_to_gray(p)`. -/
theorem color_mask_all_is_gray (s : Surface) :
    ∃ s', color_mask s (Int.lor (Int.lor M_RED M_GREEN) M_BLUE) = some s' ∧
      s'.w = s.w ∧ s'.h = s.h ∧
      ∀ x y, 0 ≤ x → x < (s.w : Int) → 0 ≤ y → y < (s.h : Int) →
        get_pixel s' x y = some (pack_RGB (RGB_to_gray (s.pix x y)) (RGB_to_gray (s.pix x y))
          (RGB_to_gray (s.pix x y))) := by
  obtain ⟨s', h1, hw, hh, hp⟩ := color_mask_spec s (Int.lor (Int.lor M_RED M_GREEN) M_BLUE)
  refine ⟨s', h1, hw, hh, fun x y hx0 hx hy0 hy => ?_⟩
  rw [get_pixel_of_inRange s' x y hx0 (by omega) hy0 (by omega), hp x y,
    if_pos ⟨hx0, hx, hy0, hy⟩, if_pos rfl]

/-- C6 (as stated): for the pixel `(2, 0, 0)` both `RGB_to_gray` functions return 0, while
`round(0.299*2)` is 1. -/
theorem RGB_to_gray_counterexample :
    RGB_to_red (pack_RGB 2 0 0) = 2 ∧ RGB_to_green (pack_RGB 2 0 0) = 0 ∧
      RGB_to_blue (pack_RGB 2 0 0) = 0 ∧ RGB_to_gray (pack_RGB 2 0 0) = 0 ∧
      image_io_RGB_to_gray (pack_RGB 2 0 0) = 0 ∧ spec_luma 2 0 0 = 1 := by
  decide

/-- C6 (amended): for every packed pixel, `RGB_to_gray` returns the weighted sum of the
channels truncated toward zero (not rounded): the truncated double is at most 255, so the
conversion to 8 bits does not wrap, and the result `g` satisfies
`1000*g <= 300*R + 587*G + 114*B <= 1000*(g + 1)` in `src/src/transforms.cpp` and
`1000*g <= 299*R + 587*G + 114*B <= 1000*(g + 1)` in `src/image_io/src/transforms.cpp`. -/
theorem RGB_to_gray_truncates (p : Nat) :
    (truncDouble (luma_double coef_0_3 p) ≤ 255 ∧
      RGB_to_gray p = truncDouble (luma_double coef_0_3 p) ∧
      1000 * RGB_to_gray p ≤ 300 * RGB_to_red p + 587 * RGB_to_green p + 114 * RGB_to_blue p ∧
      300 * RGB_to_red p + 587 * RGB_to_green p + 114 * RGB_to_blue p
        ≤ 1000 * (RGB_to_gray p + 1)) ∧
    (truncDouble (luma_double coef_0_299 p) ≤ 255 ∧
      image_io_RGB_to_gray p = truncDouble (luma_double coef_0_299 p) ∧
      1000 * image_io_RGB_to_gray p
        ≤ 299 * RGB_to_red p + 587 * RGB_to_green p + 114 * RGB_to_blue p ∧
      299 * RGB_to_red p + 587 * RGB_to_green p + 114 * RGB_to_blue p
        ≤ 1000 * (image_io_RGB_to_gray p + 1)) := by
  obtain ⟨hr, hg, hb⟩ := channel_lt p
  have b3 := luma_double_bounds coef_0_3 p (by norm_num [coef_0_3])
  have b299 := luma_double_bounds coef_0_299 p (by norm_num [coef_0_299])
  have e3 : coef_0_3 = 21617278211378380 := by norm_num [coef_0_3]
  have e299 : coef_0_299 = 21545220617340452 := by norm_num [coef_0_299]
  have e587 : coef_0_587 = 42297807700263696 := by norm_num [coef_0_587]
  have e114 : coef_0_114 = 8214565720323785 := rfl
  rw [e587, e114] at b3 b299
  unfold RGB_to_gray image_io_RGB_to_gray truncDouble
  generalize luma_double coef_0_3 p = t3 at b3 ⊢
  generalize luma_double coef_0_299 p = t299 at b299 ⊢
  rw [e3] at b3
  rw [e299] at b299
  generalize RGB_to_red p = R at hr b3 b299 ⊢
  generalize RGB_to_green p = G at hg b3 b299 ⊢
  generalize RGB_to_blue p = B at hb b3 b299 ⊢
  have k3 : t3 / 2 ^ 56 ≤ 255 := by omega
  have k299 : t299 / 2 ^ 56 ≤ 255 := by omega
  have m3 : t3 / 2 ^ 56 % 256 = t3 / 2 ^ 56 := Nat.mod_eq_of_lt (by omega)
  have m299 : t299 / 2 ^ 56 % 2 ^ 32 % 256 = t299 / 2 ^ 56 := by omega
  rw [m3, m299]
  refine ⟨⟨k3, rfl, ?_, ?_⟩, ⟨k299, rfl, ?_, ?_⟩⟩ <;> omega

/-! ### Loops over the interior -/

theorem forRange_empty {σ : Type} (lo hi : Int) (body : Int → σ → Option σ) (s : σ)
    (h : hi ≤ lo) : forRange lo hi body s = some s := by
  have e : (hi - lo).toNat = 0 := by omega
  simp [forRange, e]

/-- The two loops over the interior `1 <= x < w - 1`, `1 <= y < h - 1`, when the body at
`(x, y)` writes `v` at `(x, y)` if `val x y = some v` and writes nothing if it is `none`:
the result holds the written value at every interior cell that is written, and the former
pixel everywhere else. -/
theorem interior_loop_spec (s : Surface) (body : Int → Int → Surface → Option Surface)
    (val : Int → Int → Option Nat)
    (hbody : ∀ x y img, 1 ≤ x → x < (s.w : Int) - 1 → 1 ≤ y → y < (s.h : Int) - 1 →
      img.w = s.w → img.h = s.h →
      body x y img = (match val x y with
        | some v => put_pixel img x y v
        | none => some img)) :
    ∃ s', forRange 1 ((s.w : Int) - 1) (fun x image =>
        forRange 1 ((s.h : Int) - 1) (fun y image => body x y image) image) s = some s' ∧
      s'.w = s.w ∧ s'.h = s.h ∧
      ∀ a b, s'.pix a b =
        if 1 ≤ a ∧ a < (s.w : Int) - 1 ∧ 1 ≤ b ∧ b < (s.h : Int) - 1
        then (val a b).getD (s.pix a b) else s.pix a b := by
  by_cases hw : (s.w : Int) - 1 ≤ 1
  · rw [forRange_empty _ _ _ _ hw]
    exact ⟨s, rfl, rfl, rfl, fun a b => by rw [if_neg (by omega)]⟩
  by_cases hh : (s.h : Int) - 1 ≤ 1
  · obtain ⟨s', h1, h2⟩ := forRange_inv (fun img : Surface => img = s) 1 ((s.w : Int) - 1)
      (fun x image => forRange 1 ((s.h : Int) - 1) (fun y image => body x y image) image) s rfl
      (fun x st _ _ hst => ⟨s, by rw [hst]; exact forRange_empty _ _ _ _ hh, rfl⟩)
    subst h2
    exact ⟨s', h1, rfl, rfl, fun a b => by rw [if_neg (by omega)]⟩
  apply forRange_inv_idx (fun x (img : Surface) => img.w = s.w ∧ img.h = s.h ∧
      ∀ a b, img.pix a b =
        if 1 ≤ a ∧ a < x ∧ 1 ≤ b ∧ b < (s.h : Int) - 1
        then (val a b).getD (s.pix a b) else s.pix a b)
  · omega
  · refine ⟨rfl, rfl, fun a b => ?_⟩
    rw [if_neg (by omega)]
  · intro x img hx0 hx ⟨iw0, ih0, hp⟩
    obtain ⟨img', h1, hw', hh', hp'⟩ := forRange_inv_idx (fun y (im : Surface) =>
        im.w = s.w ∧ im.h = s.h ∧ ∀ a b, im.pix a b =
          if (1 ≤ a ∧ a < x ∧ 1 ≤ b ∧ b < (s.h : Int) - 1) ∨ (a = x ∧ 1 ≤ b ∧ b < y)
          then (val a b).getD (s.pix a b) else s.pix a b) 1 ((s.h : Int) - 1)
        (fun y image => body x y image) img (by omega)
        (by
          refine ⟨iw0, ih0, fun a b => ?_⟩
          rw [hp a b]
          by_cases c : 1 ≤ a ∧ a < x ∧ 1 ≤ b ∧ b < (s.h : Int) - 1
          · rw [if_pos c, if_pos (Or.inl c)]
          · rw [if_neg c, if_neg (by omega)])
        (by
          intro y im hy0 hy ⟨iw, ih, ip⟩
          beta_reduce
          rw [hbody x y im hx0 hx hy0 hy iw ih]
          have hsrc : im.pix x y = s.pix x y := by rw [ip x y, if_neg (by omega)]
          cases hv : val x y with
          | none =>
            refine ⟨im, rfl, iw, ih, fun a b => ?_⟩
            rw [ip a b]
            by_cases c : a = x ∧ b = y
            · obtain ⟨rfl, rfl⟩ := c
              rw [if_neg (by omega), if_pos (Or.inr ⟨rfl, hy0, by omega⟩), hv]
              rfl
            · by_cases d : (1 ≤ a ∧ a < x ∧ 1 ≤ b ∧ b < (s.h : Int) - 1) ∨
                (a = x ∧ 1 ≤ b ∧ b < y)
              · rw [if_pos d, if_pos (by omega)]
              · rw [if_neg d, if_neg (by omega)]
          | some v =>
            simp only
            rw [put_pixel_of_inRange im x y v (by omega) (by omega) (by omega) (by omega)]
            refine ⟨_, rfl, iw, ih, fun a b => ?_⟩
            simp only
            by_cases c : a = x ∧ b = y
            · obtain ⟨rfl, rfl⟩ := c
              rw [if_pos ⟨rfl, rfl⟩, if_pos (Or.inr ⟨rfl, hy0, by omega⟩), hv]
              rfl
            · rw [if_neg c, ip a b]
              by_cases d : (1 ≤ a ∧ a < x ∧ 1 ≤ b ∧ b < (s.h : Int) - 1) ∨
                (a = x ∧ 1 ≤ b ∧ b < y)
              · rw [if_pos d, if_pos (by omega)]
              · rw [if_neg d, if_neg (by omega)])
    refine ⟨img', h1, hw', hh', fun a b => ?_⟩
    rw [hp' a b]
    by_cases d : (1 ≤ a ∧ a < x ∧ 1 ≤ b ∧ b < (s.h : Int) - 1) ∨
      (a = x ∧ 1 ≤ b ∧ b < (s.h : Int) - 1)
    · rw [if_pos d, if_pos (by omega)]
    · rw [if_neg d, if_neg (by omega)]

/-! ### Neighborhood transforms -/

/-- A filter that writes `g` of the window accumulator at every interior pixel. -/
theorem window_transform_spec {α : Type} (s : Surface) (f : Int → Int → Nat → α → α)
    (init : α) (g : α → Nat) :
    ∃ s', forRange 1 ((s.w : Int) - 1) (fun x image =>
        forRange 1 ((s.h : Int) - 1) (fun y image => do
          let acc ← window_fold s x y f init
          put_pixel image x y (g acc)) image) s = some s' ∧
      s'.w = s.w ∧ s'.h = s.h ∧
      ∀ a b, s'.pix a b =
        if 1 ≤ a ∧ a < (s.w : Int) - 1 ∧ 1 ≤ b ∧ b < (s.h : Int) - 1
        then g (window_value s a b f init) else s.pix a b := by
  obtain ⟨s', h1, hw, hh, hp⟩ := interior_loop_spec s
    (fun x y image => do
      let acc ← window_fold s x y f init
      put_pixel image x y (g acc))
    (fun x y => some (g (window_value s x y f init)))
    (by
      intro x y img hx0 hx hy0 hy _ _
      simp only [window_fold_eq s x y f init hx0 hx hy0 hy, Option.bind_eq_bind,
        Option.some_bind])
  refine ⟨s', h1, hw, hh, fun a b => ?_⟩
  rw [hp a b]
  rfl

theorem erosion_scan_eq (tmp : Surface) (x y u : Int) (flag : Nat) (hx1 : 1 ≤ x)
    (hx : x < (tmp.w : Int) - 1) (hy1 : 1 ≤ y) (hy : y < (tmp.h : Int) - 1)
    (hu : -1 ≤ u) (hu' : u ≤ 1) :
    erosion_scan tmp x y u [-1, 0, 1] flag =
      some (if column_nonblack tmp x y u then 1 else flag) := by
  simp only [erosion_scan, column_nonblack]
  rw [get_pixel_of_inRange tmp (x + u) (y + -1) (by omega) (by omega) (by omega) (by omega),
    get_pixel_of_inRange tmp (x + u) (y + 0) (by omega) (by omega) (by omega) (by omega),
    get_pixel_of_inRange tmp (x + u) (y + 1) (by omega) (by omega) (by omega) (by omega)]
  simp only [Option.bind_eq_bind, Option.some_bind, Int.add_zero]
  by_cases c1 : RGB_to_gray (tmp.pix (x + u) (y + -1)) = 0 <;>
  by_cases c2 : RGB_to_gray (tmp.pix (x + u) y) = 0 <;>
  by_cases c3 : RGB_to_gray (tmp.pix (x + u) (y + 1)) = 0 <;>
  simp [c1, c2, c3]

theorem erosion_flag_eq (tmp : Surface) (x y : Int) (hx1 : 1 ≤ x)
    (hx : x < (tmp.w : Int) - 1) (hy1 : 1 ≤ y) (hy : y < (tmp.h : Int) - 1) :
    forRange (-1) 2 (fun u erode_flag => erosion_scan tmp x y u [-1, 0, 1] erode_flag) 0 =
      some (if window_nonblack tmp x y then 1 else 0) := by
  rw [forRange_window]
  rw [erosion_scan_eq tmp x y (-1) 0 hx1 hx hy1 hy (by omega) (by omega)]
  simp only [Option.some_bind]
  rw [erosion_scan_eq tmp x y 0 _ hx1 hx hy1 hy (by omega) (by omega)]
  simp only [Option.some_bind]
  rw [erosion_scan_eq tmp x y 1 _ hx1 hx hy1 hy (by omega) (by omega)]
  unfold window_nonblack
  cases column_nonblack tmp x y (-1) <;> cases column_nonblack tmp x y 0 <;>
    cases column_nonblack tmp x y 1 <;> rfl

/-- One pass of `erosion`: an interior pixel whose window holds a non-black pixel becomes
white, every other pixel is unchanged. -/
theorem erosion_pass_spec (s : Surface) :
    ∃ s', erosion_pass s = some s' ∧ s'.w = s.w ∧ s'.h = s.h ∧
      ∀ a b, s'.pix a b =
        if (1 ≤ a ∧ a < (s.w : Int) - 1 ∧ 1 ≤ b ∧ b < (s.h : Int) - 1) ∧
          window_nonblack s a b = true
        then pack_RGB 0xFF 0xFF 0xFF else s.pix a b := by
  obtain ⟨s', h1, hw, hh, hp⟩ := interior_loop_spec s
    (fun x y image => do
      let erode_flag ← forRange (-1) 2 (fun u erode_flag =>
        erosion_scan s x y u [-1, 0, 1] erode_flag) 0
      if erode_flag ≠ 0 then put_pixel image x y (pack_RGB 0xFF 0xFF 0xFF)
      else pure image)
    (fun x y => if window_nonblack s x y then some (pack_RGB 0xFF 0xFF 0xFF) else none)
    (by
      intro x y img hx0 hx hy0 hy _ _
      simp only [erosion_flag_eq s x y hx0 hx hy0 hy, Option.bind_eq_bind, Option.some_bind]
      by_cases hn : window_nonblack s x y = true
      · rw [if_pos hn, if_pos hn, if_pos (by decide)]
      · rw [if_neg hn, if_neg hn, if_neg (by decide)]
        rfl)
  refine ⟨s', h1, hw, hh, fun a b => ?_⟩
  rw [hp a b]
  by_cases c : 1 ≤ a ∧ a < (s.w : Int) - 1 ∧ 1 ≤ b ∧ b < (s.h : Int) - 1
  · by_cases hn : window_nonblack s a b = true
    · rw [if_pos c, if_pos hn, if_pos (And.intro c hn), Option.getD_some]
    · rw [if_pos c, if_neg hn, if_neg (fun h : (1 ≤ a ∧ a < (s.w : Int) - 1 ∧ 1 ≤ b ∧
        b < (s.h : Int) - 1) ∧ window_nonblack s a b = true => hn h.2), Option.getD_none]
  · rw [if_neg c, if_neg (fun h => c h.1)]

/-- Frame part of `window_transform_spec`: nothing outside the interior is written. -/
theorem window_transform_frame {α : Type} (s : Surface) (f : Int → Int → Nat → α → α)
    (init : α) (g : α → Nat) :
    ∃ s', forRange 1 ((s.w : Int) - 1) (fun x image =>
        forRange 1 ((s.h : Int) - 1) (fun y image => do
          let acc ← window_fold s x y f init
          put_pixel image x y (g acc)) image) s = some s' ∧
      s'.w = s.w ∧ s'.h = s.h ∧
      ∀ a b, ¬ (1 ≤ a ∧ a < (s.w : Int) - 1 ∧ 1 ≤ b ∧ b < (s.h : Int) - 1) →
        s'.pix a b = s.pix a b := by
  obtain ⟨s', h1, hw, hh, hp⟩ := window_transform_spec s f init g
  exact ⟨s', h1, hw, hh, fun a b hn => by rw [hp a b, if_neg hn]⟩

theorem smooth_mean_frame (s : Surface) :
    ∃ s', smooth_mean s = some s' ∧ s'.w = s.w ∧ s'.h = s.h ∧
      ∀ a b, ¬ (1 ≤ a ∧ a < (s.w : Int) - 1 ∧ 1 ≤ b ∧ b < (s.h : Int) - 1) →
        s'.pix a b = s.pix a b :=
  window_transform_frame s _ (0, 0, 0)
    (fun avg => ((avg.1 / 9) <<< 0) ||| ((avg.2.1 / 9) <<< 8) ||| ((avg.2.2 / 9) <<< 16))

theorem smooth_median_frame (s : Surface) :
    ∃ s', smooth_median s = some s' ∧ s'.w = s.w ∧ s'.h = s.h ∧
      ∀ a b, ¬ (1 ≤ a ∧ a < (s.w : Int) - 1 ∧ 1 ≤ b ∧ b < (s.h : Int) - 1) →
        s'.pix a b = s.pix a b :=
  window_transform_frame s _ (List.replicate 9 0, List.replicate 9 0, List.replicate 9 0)
    (fun lists => ((sort_list lists.1).getD 4 0 <<< 0) ||| ((sort_list lists.2.1).getD 4 0 <<< 8)
      ||| ((sort_list lists.2.2).getD 4 0 <<< 16))

theorem sobel_gradient_frame (s : Surface) :
    ∃ s', sobel_gradient s = some s' ∧ s'.w = s.w ∧ s'.h = s.h ∧
      ∀ a b, ¬ (1 ≤ a ∧ a < (s.w : Int) - 1 ∧ 1 ≤ b ∧ b < (s.h : Int) - 1) →
        s'.pix a b = s.pix a b :=
  window_transform_frame s _ ((0 : Int), (0 : Int))
    (fun sums => pack_RGB (toUint8 (sobel_magnitude sums.1 sums.2))
      (toUint8 (sobel_magnitude sums.1 sums.2)) (toUint8 (sobel_magnitude sums.1 sums.2)))

theorem laplacian_frame (s : Surface) :
    ∃ s', laplacian s = some s' ∧ s'.w = s.w ∧ s'.h = s.h ∧
      ∀ a b, ¬ (1 ≤ a ∧ a < (s.w : Int) - 1 ∧ 1 ≤ b ∧ b < (s.h : Int) - 1) →
        s'.pix a b = s.pix a b :=
  window_transform_frame s _ (0 : Int)
    (fun gray_value_sum => pack_RGB (toUint8 gray_value_sum) (toUint8 gray_value_sum)
      (toUint8 gray_value_sum))

theorem erosion_frame (s : Surface) (erode_n : Int) :
    ∃ s', erosion s erode_n = some s' ∧ s'.w = s.w ∧ s'.h = s.h ∧
      ∀ a b, ¬ (1 ≤ a ∧ a < (s.w : Int) - 1 ∧ 1 ≤ b ∧ b < (s.h : Int) - 1) →
        s'.pix a b = s.pix a b := by
  unfold erosion
  apply forRange_inv (fun img : Surface => img.w = s.w ∧ img.h = s.h ∧
      ∀ a b, ¬ (1 ≤ a ∧ a < (s.w : Int) - 1 ∧ 1 ≤ b ∧ b < (s.h : Int) - 1) →
        img.pix a b = s.pix a b)
  · exact ⟨rfl, rfl, fun _ _ _ => rfl⟩
  · intro _ img _ _ ⟨iw, ih, ip⟩
    obtain ⟨img', h1, hw, hh, hp⟩ := erosion_pass_spec img
    refine ⟨img', h1, by omega, by omega, fun a b hn => ?_⟩
    rw [hp a b, if_neg (fun h => hn (by rw [← iw, ← ih]; exact h.1))]
    exact ip a b hn

/-! ### Dilation and the statistics -/

/-- One pass of `dilation` succeeds, keeps the size, and leaves every pixel either as it was
in the reference surface `s0` or black, when that held before the pass. -/
theorem dilation_pass_inv (s0 img : Surface) (iw : img.w = s0.w) (ih : img.h = s0.h)
    (ip : ∀ a b, img.pix a b = s0.pix a b ∨ img.pix a b = pack_RGB 0x00 0x00 0x00) :
    ∃ img', dilation_pass img = some img' ∧ img'.w = s0.w ∧ img'.h = s0.h ∧
      ∀ a b, img'.pix a b = s0.pix a b ∨ img'.pix a b = pack_RGB 0x00 0x00 0x00 := by
  unfold dilation_pass
  apply forRange_inv (fun im : Surface => im.w = s0.w ∧ im.h = s0.h ∧
      ∀ a b, im.pix a b = s0.pix a b ∨ im.pix a b = pack_RGB 0x00 0x00 0x00)
  · exact ⟨iw, ih, ip⟩
  · intro x im hx0 hx hP
    apply forRange_inv (fun im : Surface => im.w = s0.w ∧ im.h = s0.h ∧
      ∀ a b, im.pix a b = s0.pix a b ∨ im.pix a b = pack_RGB 0x00 0x00 0x00)
    · exact hP
    · intro y im2 hy0 hy hP2
      rw [get_pixel_of_inRange img x y (by omega) (by omega) (by omega) (by omega)]
      simp only [Option.bind_eq_bind, Option.some_bind]
      split
      · apply forRange_inv (fun im : Surface => im.w = s0.w ∧ im.h = s0.h ∧
          ∀ a b, im.pix a b = s0.pix a b ∨ im.pix a b = pack_RGB 0x00 0x00 0x00)
        · exact hP2
        · intro u im3 hu0 hu hP3
          apply forRange_inv (fun im : Surface => im.w = s0.w ∧ im.h = s0.h ∧
            ∀ a b, im.pix a b = s0.pix a b ∨ im.pix a b = pack_RGB 0x00 0x00 0x00)
          · exact hP3
          · intro v im4 hv0 hv ⟨w4, h4, p4⟩
            rw [put_pixel_of_inRange im4 (x + u) (y + v) _ (by omega) (by omega) (by omega)
              (by omega)]
            refine ⟨_, rfl, w4, h4, fun a b => ?_⟩
            simp only
            by_cases c : a = x + u ∧ b = y + v
            · rw [if_pos c]; exact Or.inr rfl
            · rw [if_neg c]; exact p4 a b
      · exact ⟨im2, rfl, hP2⟩

theorem dilation_inv (s : Surface) (dilate_n : Int) :
    ∃ s', dilation s dilate_n = some s' ∧ s'.w = s.w ∧ s'.h = s.h ∧
      ∀ a b, s'.pix a b = s.pix a b ∨ s'.pix a b = pack_RGB 0x00 0x00 0x00 := by
  unfold dilation
  apply forRange_inv (fun im : Surface => im.w = s.w ∧ im.h = s.h ∧
      ∀ a b, im.pix a b = s.pix a b ∨ im.pix a b = pack_RGB 0x00 0x00 0x00)
  · exact ⟨rfl, rfl, fun _ _ => Or.inl rfl⟩
  · intro _ img _ _ ⟨iw, ih, ip⟩
    exact dilation_pass_inv s img iw ih ip

theorem perimiter_succeeds (s : Surface) : ∃ n, perimiter s = some n := by
  obtain ⟨e, h1, hw, hh, -⟩ := erosion_frame s 1
  unfold perimiter
  rw [h1]
  simp only [Option.bind_eq_bind, Option.some_bind]
  obtain ⟨n, hn, -⟩ := forRange_inv (fun _ : Nat => True) 1 ((e.w : Int) - 1)
    (fun x perimeter_sum =>
      forRange 1 ((e.h : Int) - 1) (fun y perimeter_sum => do
        let pixel_src ← get_pixel s x y
        let pixel_src_eroded ← get_pixel e x y
        let pixel_src_gray := RGB_to_gray pixel_src
        let pixel_src_gray_eroded := RGB_to_gray pixel_src_eroded
        if (pixel_src_gray + 2 ^ 32 - pixel_src_gray_eroded) % 2 ^ 32 ≠ 0 then
          pure (perimeter_sum + 1)
        else pure perimeter_sum) perimeter_sum) 0 trivial
    (by
      intro x acc hx0 hx _
      apply forRange_inv (fun _ : Nat => True)
      · trivial
      · intro y acc2 hy0 hy _
        rw [get_pixel_of_inRange s x y (by omega) (by omega) (by omega) (by omega),
          get_pixel_of_inRange e x y (by omega) (by omega) (by omega) (by omega)]
        simp only [Option.bind_eq_bind, Option.some_bind]
        split
        · exact ⟨_, rfl, trivial⟩
        · exact ⟨_, rfl, trivial⟩)
  exact ⟨n, hn⟩

theorem area_succeeds (s : Surface) : ∃ n, area s = some n := by
  unfold area
  obtain ⟨n, hn, -⟩ := forRange_inv (fun _ : Nat => True) 1 ((s.w : Int) - 1)
    (fun x area_sum =>
      forRange 1 ((s.h : Int) - 1) (fun y area_sum => do
        let pixel_src ← get_pixel s x y
        let pixel_src_gray := RGB_to_gray pixel_src
        if pixel_src_gray = 0 then pure (area_sum + 1) else pure area_sum) area_sum) 0 trivial
    (by
      intro x acc hx0 hx _
      apply forRange_inv (fun _ : Nat => True)
      · trivial
      · intro y acc2 hy0 hy _
        rw [get_pixel_of_inRange s x y (by omega) (by omega) (by omega) (by omega)]
        simp only [Option.bind_eq_bind, Option.some_bind]
        split
        · exact ⟨_, rfl, trivial⟩
        · exact ⟨_, rfl, trivial⟩)
  exact ⟨n, hn⟩

theorem moment_succeeds (s : Surface) : ∃ M, moment s = some M := by
  unfold moment
  obtain ⟨M, hM, -⟩ := forRange_inv (fun _ : Moments => True) 0 (s.w : Int)
    (fun x M =>
      forRange 0 s.h (fun y M => do
        let pixel_src ← get_pixel s x y
        let gray_value := 255 - RGB_to_gray pixel_src
        let x := x.toNat
        let y := y.toNat
        let M := M.accumulate 0 0 gray_value
        let M := M.accumulate 0 1 (gray_value * y)
        let M := M.accumulate 0 2 (gray_value * y * y)
        let M := M.accumulate 0 3 (gray_value * y * y * y)
        let M := M.accumulate 1 0 (gray_value * x)
        let M := M.accumulate 2 0 (gray_value * x * x)
        let M := M.accumulate 3 0 (gray_value * x * x * x)
        let M := M.accumulate 1 1 (gray_value * x * y)
        let M := M.accumulate 1 2 (gray_value * x * y * y)
        let M := M.accumulate 2 1 (gray_value * x * x * y)
        pure M) M) (fun _ _ => 0) trivial
    (by
      intro x acc hx0 hx _
      apply forRange_inv (fun _ : Moments => True)
      · trivial
      · intro y acc2 hy0 hy _
        rw [get_pixel_of_inRange s x y (by omega) (by omega) (by omega) (by omega)]
        exact ⟨_, rfl, trivial⟩)
  exact ⟨M, hM⟩

/-! ### Claims on bounds, borders and uniform surfaces -/

theorem median_of_constant (v : Nat) :
    (sort_list [v, v, v, v, v, v, v, v, v]).getD 4 0 = v := by
  simp [sort_list, List.insertionSort, List.orderedInsert]

/-- C10: on a surface whose pixels all hold one colour `(r, g, b)` with channels in [0,255]
(so bits 24-31 are zero), `smooth_mean` and `smooth_median` both succeed and leave every
interior pixel unchanged. -/
theorem uniform_mean_median (s : Surface) (r g b : Nat) (hr : r ≤ 255) (hg : g ≤ 255)
    (hb : b ≤ 255)
    (huni : ∀ x y, 0 ≤ x → x < (s.w : Int) → 0 ≤ y → y < (s.h : Int) →
      s.pix x y = pack_RGB r g b) :
    ∃ s1 s2, smooth_mean s = some s1 ∧ smooth_median s = some s2 ∧
      ∀ x y, 1 ≤ x → x < (s.w : Int) - 1 → 1 ≤ y → y < (s.h : Int) - 1 →
        get_pixel s1 x y = get_pixel s x y ∧ get_pixel s2 x y = get_pixel s x y := by
  obtain ⟨s1, h1, w1, hh1, p1⟩ := window_transform_spec s
    (fun _ _ pixel_src (acc : Nat × Nat × Nat) =>
        (acc.1 + ((pixel_src >>> 0) &&& 0xFF), acc.2.1 + ((pixel_src >>> 8) &&& 0xFF),
          acc.2.2 + ((pixel_src >>> 16) &&& 0xFF))) (0, 0, 0)
    (fun avg => ((avg.1 / 9) <<< 0) ||| ((avg.2.1 / 9) <<< 8) ||| ((avg.2.2 / 9) <<< 16))
  obtain ⟨s2, h2, w2, hh2, p2⟩ := window_transform_spec s
    (fun u v pixel_src (acc : List Nat × List Nat × List Nat) =>
          (acc.1.set ((u + 1) + 3 * (v + 1)).toNat ((pixel_src >>> 0) &&& 0xFF),
            acc.2.1.set ((u + 1) + 3 * (v + 1)).toNat ((pixel_src >>> 8) &&& 0xFF),
            acc.2.2.set ((u + 1) + 3 * (v + 1)).toNat ((pixel_src >>> 16) &&& 0xFF)))
    (List.replicate 9 0, List.replicate 9 0, List.replicate 9 0)
    (fun lists => ((sort_list lists.1).getD 4 0 <<< 0) ||| ((sort_list lists.2.1).getD 4 0 <<< 8)
      ||| ((sort_list lists.2.2).getD 4 0 <<< 16))
  refine ⟨s1, s2, h1, h2, fun x y hx0 hx hy0 hy => ?_⟩
  obtain ⟨cr, cg, cb⟩ := pack_channels r g b (by omega) (by omega) (by omega)
  simp only [RGB_to_red, RGB_to_green, RGB_to_blue] at cr cg cb
  have hpk : (r <<< 0) ||| (g <<< 8) ||| (b <<< 16) = pack_RGB r g b := by
    rw [lor_bytes r g b (by omega) (by omega), pack_RGB_eq,
      Nat.mod_eq_of_lt (by omega : r < 256), Nat.mod_eq_of_lt (by omega : g < 256),
      Nat.mod_eq_of_lt (by omega : b < 256)]
  have e9 : ∀ n : Nat, (0 + n + n + n + n + n + n + n + n + n) / 9 = n := fun n => by omega
  have i0 : ((-1 : Int) + 1 + 3 * (-1 + 1)).toNat = 0 := by decide
  have i1 : ((-1 : Int) + 1 + 3 * (0 + 1)).toNat = 3 := by decide
  have i2 : ((-1 : Int) + 1 + 3 * (1 + 1)).toNat = 6 := by decide
  have i3 : ((0 : Int) + 1 + 3 * (-1 + 1)).toNat = 1 := by decide
  have i4 : ((0 : Int) + 1 + 3 * (0 + 1)).toNat = 4 := by decide
  have i5 : ((0 : Int) + 1 + 3 * (1 + 1)).toNat = 7 := by decide
  have i6 : ((1 : Int) + 1 + 3 * (-1 + 1)).toNat = 2 := by decide
  have i7 : ((1 : Int) + 1 + 3 * (0 + 1)).toNat = 5 := by decide
  have i8 : ((1 : Int) + 1 + 3 * (1 + 1)).toNat = 8 := by decide
  rw [get_pixel_of_inRange s1 x y (by omega) (by omega) (by omega) (by omega),
    get_pixel_of_inRange s2 x y (by omega) (by omega) (by omega) (by omega),
    get_pixel_of_inRange s x y (by omega) (by omega) (by omega) (by omega),
    p1 x y, p2 x y, if_pos ⟨hx0, hx, hy0, hy⟩, if_pos ⟨hx0, hx, hy0, hy⟩]
  unfold window_value
  rw [huni (x + 1) (y + 1) (by omega) (by omega) (by omega) (by omega),
    huni (x + 1) (y + 0) (by omega) (by omega) (by omega) (by omega),
    huni (x + 1) (y + -1) (by omega) (by omega) (by omega) (by omega),
    huni (x + 0) (y + 1) (by omega) (by omega) (by omega) (by omega),
    huni (x + 0) (y + 0) (by omega) (by omega) (by omega) (by omega),
    huni (x + 0) (y + -1) (by omega) (by omega) (by omega) (by omega),
    huni (x + -1) (y + 1) (by omega) (by omega) (by omega) (by omega),
    huni (x + -1) (y + 0) (by omega) (by omega) (by omega) (by omega),
    huni (x + -1) (y + -1) (by omega) (by omega) (by omega) (by omega),
    huni x y (by omega) (by omega) (by omega) (by omega)]
  simp only [cr, cg, cb, e9, hpk, i0, i1, i2, i3, i4, i5, i6, i7, i8, List.replicate,
    List.set_cons_zero, List.set_cons_succ, median_of_constant, and_self]

theorem uniform_mean_median_witness :
    ∃ s1 s2, smooth_mean uniform_surface = some s1 ∧ smooth_median uniform_surface = some s2 ∧
      ∀ x y, 1 ≤ x → x < (uniform_surface.w : Int) - 1 → 1 ≤ y →
        y < (uniform_surface.h : Int) - 1 →
        get_pixel s1 x y = get_pixel uniform_surface x y ∧
          get_pixel s2 x y = get_pixel uniform_surface x y :=
  uniform_mean_median uniform_surface 10 20 30 (by decide) (by decide) (by decide)
    (fun _ _ _ _ _ _ => rfl)

/-- C7: an access outside the grid is the only way `get_pixel` or `put_pixel` yields `none`,
and on every surface (any width and height, 0x0 and 1x1 included) each of the twelve
operations returns a result, so none of their accesses is out of range. -/
theorem accesses_in_range (s : Surface) (c_mask : Int) (level : Nat)
    (erode_n dilate_n : Int) :
    (∀ (img : Surface) (x y : Int), get_pixel img x y = none ↔
      ¬ (0 ≤ x ∧ x < (img.w : Int) ∧ 0 ≤ y ∧ y < (img.h : Int))) ∧
    (∀ (img : Surface) (x y : Int) (v : Nat), put_pixel img x y v = none ↔
      ¬ (0 ≤ x ∧ x < (img.w : Int) ∧ 0 ≤ y ∧ y < (img.h : Int))) ∧
    (∃ r, color_mask s c_mask = some r) ∧ (∃ r, invert s = some r) ∧
    (∃ r, threshold s level = some r) ∧ (∃ r, smooth_mean s = some r) ∧
    (∃ r, smooth_median s = some r) ∧ (∃ r, sobel_gradient s = some r) ∧
    (∃ r, laplacian s = some r) ∧ (∃ r, erosion s erode_n = some r) ∧
    (∃ r, dilation s dilate_n = some r) ∧ (∃ r, area s = some r) ∧
    (∃ r, perimiter s = some r) ∧ (∃ r, moment s = some r) := by
  refine ⟨?_, ?_, ?_, ?_, ?_, ?_, ?_, ?_, ?_, ?_, ?_, ?_, ?_, ?_⟩
  · intro img x y
    unfold get_pixel
    by_cases c : 0 ≤ x ∧ x < (img.w : Int) ∧ 0 ≤ y ∧ y < (img.h : Int)
    · simp [c]
    · simp [c]
  · intro img x y v
    unfold put_pixel
    by_cases c : 0 ≤ x ∧ x < (img.w : Int) ∧ 0 ≤ y ∧ y < (img.h : Int)
    · simp [c]
    · simp [c]
  · obtain ⟨r, h, -⟩ := color_mask_spec s c_mask; exact ⟨r, h⟩
  · obtain ⟨r, h, -⟩ := invert_spec s; exact ⟨r, h⟩
  · obtain ⟨r, h, -⟩ := threshold_spec s level; exact ⟨r, h⟩
  · obtain ⟨r, h, -⟩ := smooth_mean_frame s; exact ⟨r, h⟩
  · obtain ⟨r, h, -⟩ := smooth_median_frame s; exact ⟨r, h⟩
  · obtain ⟨r, h, -⟩ := sobel_gradient_frame s; exact ⟨r, h⟩
  · obtain ⟨r, h, -⟩ := laplacian_frame s; exact ⟨r, h⟩
  · obtain ⟨r, h, -⟩ := erosion_frame s erode_n; exact ⟨r, h⟩
  · obtain ⟨r, h, -⟩ := dilation_inv s dilate_n; exact ⟨r, h⟩
  · exact area_succeeds s
  · exact perimiter_succeeds s
  · exact moment_succeeds s

theorem frame_get_pixel (s s' : Surface) (hw : s'.w = s.w) (hh : s'.h = s.h)
    (hp : ∀ a b, ¬ (1 ≤ a ∧ a < (s.w : Int) - 1 ∧ 1 ≤ b ∧ b < (s.h : Int) - 1) →
      s'.pix a b = s.pix a b)
    (x y : Int) (hring : x = 0 ∨ x = (s.w : Int) - 1 ∨ y = 0 ∨ y = (s.h : Int) - 1) :
    get_pixel s' x y = get_pixel s x y := by
  unfold get_pixel
  rw [hw, hh, hp x y (by omega)]

/-- C8: `smooth_mean`, `smooth_median`, `sobel_gradient`, `laplacian` and `erosion` (for any
`n`) succeed on every surface, and every pixel on the outermost ring (`x = 0`, `x = W-1`,
`y = 0` or `y = H-1`) has the same value afterwards as before. -/
theorem border_untouched (s : Surface) (erode_n : Int) :
    ∃ s1 s2 s3 s4 s5, smooth_mean s = some s1 ∧ smooth_median s = some s2 ∧
      sobel_gradient s = some s3 ∧ laplacian s = some s4 ∧ erosion s erode_n = some s5 ∧
      ∀ x y, 0 ≤ x → x < (s.w : Int) → 0 ≤ y → y < (s.h : Int) →
        (x = 0 ∨ x = (s.w : Int) - 1 ∨ y = 0 ∨ y = (s.h : Int) - 1) →
        get_pixel s1 x y = get_pixel s x y ∧ get_pixel s2 x y = get_pixel s x y ∧
        get_pixel s3 x y = get_pixel s x y ∧ get_pixel s4 x y = get_pixel s x y ∧
        get_pixel s5 x y = get_pixel s x y := by
  obtain ⟨s1, h1, w1, hh1, p1⟩ := smooth_mean_frame s
  obtain ⟨s2, h2, w2, hh2, p2⟩ := smooth_median_frame s
  obtain ⟨s3, h3, w3, hh3, p3⟩ := sobel_gradient_frame s
  obtain ⟨s4, h4, w4, hh4, p4⟩ := laplacian_frame s
  obtain ⟨s5, h5, w5, hh5, p5⟩ := erosion_frame s erode_n
  refine ⟨s1, s2, s3, s4, s5, h1, h2, h3, h4, h5, fun x y _ _ _ _ hring => ?_⟩
  exact ⟨frame_get_pixel s s1 w1 hh1 p1 x y hring, frame_get_pixel s s2 w2 hh2 p2 x y hring,
    frame_get_pixel s s3 w3 hh3 p3 x y hring, frame_get_pixel s s4 w4 hh4 p4 x y hring,
    frame_get_pixel s s5 w5 hh5 p5 x y hring⟩

/-- C9 (as stated): on the 3x3 white surface with a black centre, one pass of `dilation`
turns the ring pixel `(0, 0)` from white to black. -/
theorem dilation_border_counterexample :
    get_pixel centre_dot_surface 0 0 = some (pack_RGB 255 255 255) ∧
      (do let s' ← dilation centre_dot_surface 1
          get_pixel s' 0 0) = some (pack_RGB 0 0 0) := by
  decide

/-- A first bound on `dilation`: it succeeds for every surface and every `n`, keeps the size,
and leaves every pixel either as it was or pure black. The exact set of blackened pixels is
given by `dilation_iterate_reach`. -/
theorem dilation_same_or_black (s : Surface) (dilate_n : Int) :
    ∃ s', dilation s dilate_n = some s' ∧ s'.w = s.w ∧ s'.h = s.h ∧
      ∀ x y, 0 ≤ x → x < (s.w : Int) → 0 ≤ y → y < (s.h : Int) →
        get_pixel s' x y = get_pixel s x y ∨ get_pixel s' x y = some (pack_RGB 0 0 0) := by
  obtain ⟨s', h1, hw, hh, hp⟩ := dilation_inv s dilate_n
  refine ⟨s', h1, hw, hh, fun x y hx0 hx hy0 hy => ?_⟩
  rw [get_pixel_of_inRange s' x y hx0 (by omega) hy0 (by omega),
    get_pixel_of_inRange s x y hx0 hx hy0 hy]
  rcases hp x y with h | h
  · left; rw [h]
  · right; rw [h]

/-! ### Flat windows under the edge filters -/

theorem RGB_to_gray_of_channels (p q : Nat) (hr : RGB_to_red p = RGB_to_red q)
    (hg : RGB_to_green p = RGB_to_green q) (hb : RGB_to_blue p = RGB_to_blue q) :
    RGB_to_gray p = RGB_to_gray q := by
  unfold RGB_to_red at hr
  unfold RGB_to_green at hg
  unfold RGB_to_blue at hb
  unfold RGB_to_gray luma_double
  simp only [hr, hg, hb]

theorem toInt32_small (z : Int) (h1 : -(2 ^ 31) ≤ z) (h2 : z < 2 ^ 31) : toInt32 z = z := by
  unfold toInt32
  omega

theorem RGB_to_gray_lt (p : Nat) : RGB_to_gray p < 256 := by
  unfold RGB_to_gray
  exact Nat.mod_lt _ (by norm_num)

/-- C11: when the nine pixels of the 3x3 window of an interior pixel all have the same
colour (the same three channels), `sobel_gradient` and `laplacian` succeed and both write
pure black at that pixel. -/
theorem flat_window_is_black (s : Surface) (x y : Int) (hx1 : 1 ≤ x)
    (hx : x < (s.w : Int) - 1) (hy1 : 1 ≤ y) (hy : y < (s.h : Int) - 1)
    (hflat : ∀ u v : Int, -1 ≤ u → u ≤ 1 → -1 ≤ v → v ≤ 1 →
      RGB_to_red (s.pix (x + u) (y + v)) = RGB_to_red (s.pix x y) ∧
      RGB_to_green (s.pix (x + u) (y + v)) = RGB_to_green (s.pix x y) ∧
      RGB_to_blue (s.pix (x + u) (y + v)) = RGB_to_blue (s.pix x y)) :
    ∃ s1 s2, sobel_gradient s = some s1 ∧ laplacian s = some s2 ∧
      get_pixel s1 x y = some (pack_RGB 0 0 0) ∧ get_pixel s2 x y = some (pack_RGB 0 0 0) := by
  obtain ⟨s1, h1, w1, hh1, p1⟩ := window_transform_spec s
    (fun u v pixel_src (acc : Int × Int) =>
        let gray_value := RGB_to_gray pixel_src
        (toInt32 (acc.1 + sobel_mask_x.getD ((u + 1) + 3 * (v + 1)).toNat 0 * gray_value),
          toInt32 (acc.2 + sobel_mask_y.getD ((u + 1) + 3 * (v + 1)).toNat 0 * gray_value)))
    ((0 : Int), (0 : Int))
    (fun sums => pack_RGB (toUint8 (sobel_magnitude sums.1 sums.2))
      (toUint8 (sobel_magnitude sums.1 sums.2)) (toUint8 (sobel_magnitude sums.1 sums.2)))
  obtain ⟨s2, h2, w2, hh2, p2⟩ := window_transform_spec s
    (fun u v pixel_src (acc : Int) =>
        let gray_value := RGB_to_gray pixel_src
        toInt32 (acc + laplacian_mask.getD ((u + 1) + 3 * (v + 1)).toNat 0 * gray_value))
    (0 : Int)
    (fun gray_value_sum => pack_RGB (toUint8 gray_value_sum) (toUint8 gray_value_sum)
      (toUint8 gray_value_sum))
  refine ⟨s1, s2, h1, h2, ?_, ?_⟩
  all_goals
    have hgray : ∀ u v : Int, -1 ≤ u → u ≤ 1 → -1 ≤ v → v ≤ 1 →
        RGB_to_gray (s.pix (x + u) (y + v)) = RGB_to_gray (s.pix x y) :=
      fun u v a b c d => RGB_to_gray_of_channels _ _ (hflat u v a b c d).1
        (hflat u v a b c d).2.1 (hflat u v a b c d).2.2
    have hlt := RGB_to_gray_lt (s.pix x y)
    have i0 : ((-1 : Int) + 1 + 3 * (-1 + 1)).toNat = 0 := by decide
    have i1 : ((-1 : Int) + 1 + 3 * (0 + 1)).toNat = 3 := by decide
    have i2 : ((-1 : Int) + 1 + 3 * (1 + 1)).toNat = 6 := by decide
    have i3 : ((0 : Int) + 1 + 3 * (-1 + 1)).toNat = 1 := by decide
    have i4 : ((0 : Int) + 1 + 3 * (0 + 1)).toNat = 4 := by decide
    have i5 : ((0 : Int) + 1 + 3 * (1 + 1)).toNat = 7 := by decide
    have i6 : ((1 : Int) + 1 + 3 * (-1 + 1)).toNat = 2 := by decide
    have i7 : ((1 : Int) + 1 + 3 * (0 + 1)).toNat = 5 := by decide
    have i8 : ((1 : Int) + 1 + 3 * (1 + 1)).toNat = 8 := by decide
  · rw [get_pixel_of_inRange s1 x y (by omega) (by omega) (by omega) (by omega), p1 x y,
      if_pos ⟨hx1, hx, hy1, hy⟩]
    unfold window_value
    simp only [hgray 1 1 (by omega) (by omega) (by omega) (by omega),
      hgray 1 0 (by omega) (by omega) (by omega) (by omega),
      hgray 1 (-1) (by omega) (by omega) (by omega) (by omega),
      hgray 0 1 (by omega) (by omega) (by omega) (by omega),
      hgray 0 0 (by omega) (by omega) (by omega) (by omega),
      hgray 0 (-1) (by omega) (by omega) (by omega) (by omega),
      hgray (-1) 1 (by omega) (by omega) (by omega) (by omega),
      hgray (-1) 0 (by omega) (by omega) (by omega) (by omega),
      hgray (-1) (-1) (by omega) (by omega) (by omega) (by omega),
      i0, i1, i2, i3, i4, i5, i6, i7, i8, sobel_mask_x, sobel_mask_y, List.getD_cons_zero,
      List.getD_cons_succ]
    have hG0 : (0 : Int) ≤ (RGB_to_gray (s.pix x y) : Int) := Int.ofNat_nonneg _
    have hG1 : (RGB_to_gray (s.pix x y) : Int) < 256 := by exact_mod_cast hlt
    generalize (RGB_to_gray (s.pix x y) : Int) = G at hG0 hG1 ⊢
    have e1 : toInt32 (toInt32 (toInt32 (toInt32 (toInt32 (toInt32 (toInt32 (toInt32
        (toInt32 (0 + -1 * G) + -2 * G) + -1 * G) + 0 * G) + 0 * G) + 0 * G) + 1 * G)
        + 2 * G) + 1 * G) = 0 := by
      simp (disch := omega) only [toInt32_small]
      omega
    have e2 : toInt32 (toInt32 (toInt32 (toInt32 (toInt32 (toInt32 (toInt32 (toInt32
        (toInt32 (0 + -1 * G) + 0 * G) + 1 * G) + -2 * G) + 0 * G) + 2 * G) + -1 * G)
        + 0 * G) + 1 * G) = 0 := by
      simp (disch := omega) only [toInt32_small]
      omega
    have hm : sobel_magnitude 0 0 = 0 := by simp [sobel_magnitude]
    have hu : toUint8 0 = 0 := by decide
    rw [e1, e2, hm, hu]
  · rw [get_pixel_of_inRange s2 x y (by omega) (by omega) (by omega) (by omega), p2 x y,
      if_pos ⟨hx1, hx, hy1, hy⟩]
    unfold window_value
    simp only [hgray 1 1 (by omega) (by omega) (by omega) (by omega),
      hgray 1 0 (by omega) (by omega) (by omega) (by omega),
      hgray 1 (-1) (by omega) (by omega) (by omega) (by omega),
      hgray 0 1 (by omega) (by omega) (by omega) (by omega),
      hgray 0 0 (by omega) (by omega) (by omega) (by omega),
      hgray 0 (-1) (by omega) (by omega) (by omega) (by omega),
      hgray (-1) 1 (by omega) (by omega) (by omega) (by omega),
      hgray (-1) 0 (by omega) (by omega) (by omega) (by omega),
      hgray (-1) (-1) (by omega) (by omega) (by omega) (by omega),
      i0, i1, i2, i3, i4, i5, i6, i7, i8, laplacian_mask, List.getD_cons_zero,
      List.getD_cons_succ]
    have hG0 : (0 : Int) ≤ (RGB_to_gray (s.pix x y) : Int) := Int.ofNat_nonneg _
    have hG1 : (RGB_to_gray (s.pix x y) : Int) < 256 := by exact_mod_cast hlt
    generalize (RGB_to_gray (s.pix x y) : Int) = G at hG0 hG1 ⊢
    have e3 : toInt32 (toInt32 (toInt32 (toInt32 (toInt32 (toInt32 (toInt32 (toInt32
        (toInt32 (0 + 0 * G) + 1 * G) + 0 * G) + 1 * G) + -4 * G) + 1 * G) + 0 * G)
        + 1 * G) + 0 * G) = 0 := by
      simp (disch := omega) only [toInt32_small]
      omega
    have hu : toUint8 0 = 0 := by decide
    rw [e3, hu]

theorem flat_window_is_black_witness :
    ∃ s1 s2, sobel_gradient uniform_surface = some s1 ∧ laplacian uniform_surface = some s2 ∧
      get_pixel s1 1 1 = some (pack_RGB 0 0 0) ∧ get_pixel s2 1 1 = some (pack_RGB 0 0 0) :=
  flat_window_is_black uniform_surface 1 1 (by decide) (by decide) (by decide) (by decide)
    (fun _ _ _ _ _ _ => ⟨rfl, rfl, rfl⟩)

/-! ### Counting loops -/

theorem sum_upto_congr (n : Nat) (g g' : Nat → Nat) (h : ∀ i, i < n → g i = g' i) :
    sum_upto n g = sum_upto n g' := by
  induction n with
  | zero => rfl
  | succ k ih =>
    simp only [sum_upto]
    rw [ih (fun i hi => h i (by omega)), h k (by omega)]

theorem sum_upto_zero (n : Nat) (g : Nat → Nat) (h : ∀ i, i < n → g i = 0) :
    sum_upto n g = 0 := by
  induction n with
  | zero => rfl
  | succ k ih =>
    simp only [sum_upto]
    rw [ih (fun i hi => h i (by omega)), h k (by omega)]

theorem sum_upto_single (n c : Nat) (g : Nat → Nat) (hc : c < n)
    (h : ∀ i, i < n → i ≠ c → g i = 0) : sum_upto n g = g c := by
  induction n with
  | zero => omega
  | succ k ih =>
    simp only [sum_upto]
    by_cases e : c = k
    · subst e
      rw [sum_upto_zero c g (fun i hi => h i (by omega) (by omega))]
      omega
    · rw [ih (by omega) (fun i hi hne => h i (by omega) hne), h k (by omega) (by omega)]
      omega

theorem sum_upto_le (n m : Nat) (g : Nat → Nat) (h : n ≤ m) : sum_upto n g ≤ sum_upto m g := by
  induction m with
  | zero =>
    have : n = 0 := by omega
    subst this
    exact Nat.le_refl _
  | succ k ih =>
    by_cases e : n = k + 1
    · subst e; exact Nat.le_refl _
    · have := ih (by omega)
      simp only [sum_upto]
      omega

theorem sum_range_zero (lo hi : Int) (f : Int → Nat) (h : ∀ x, lo ≤ x → x < hi → f x = 0) :
    sum_range lo hi f = 0 :=
  sum_upto_zero _ _ (fun i hi' => h (lo + i) (by omega) (by omega))

theorem sum_range_single (lo hi c : Int) (f : Int → Nat) (hlo : lo ≤ c) (hhi : c < hi)
    (h : ∀ x, lo ≤ x → x < hi → x ≠ c → f x = 0) : sum_range lo hi f = f c := by
  unfold sum_range
  rw [sum_upto_single (hi - lo).toNat (c - lo).toNat _ (by omega)
    (fun i hi' hne => h (lo + i) (by omega) (by omega) (by omega))]
  congr 1
  omega

/-- A loop that adds `f x` to a counter computes the sum of `f` over the range. -/
theorem forRange_sum (lo hi : Int) (body : Int → Nat → Option Nat) (f : Int → Nat)
    (hbody : ∀ x acc, lo ≤ x → x < hi → body x acc = some (acc + f x)) (init : Nat) :
    forRange lo hi body init = some (init + sum_range lo hi f) := by
  obtain ⟨r, h1, h2⟩ := foldlM_range_inv
    (fun x acc => acc = init + sum_upto (x - lo).toNat (fun i => f (lo + (i : Int))))
    lo body init (by simp [sum_upto]) (hi - lo).toNat
    (fun i acc hi' hp => by
      refine ⟨_, hbody (lo + i) acc (by omega) (by omega), ?_⟩
      have e1 : (lo + (i : Int) + 1 - lo).toNat = i + 1 := by omega
      have e2 : (lo + (i : Int) - lo).toNat = i := by omega
      beta_reduce at hp ⊢
      rw [e1]
      rw [e2] at hp
      simp only [sum_upto]
      omega)
  unfold forRange sum_range
  rw [h1, h2]
  congr 3
  omega

/-- The value of `area`: the number of interior pixels whose gray value is 0. -/
theorem area_spec (s : Surface) :
    area s = some (sum_range 1 ((s.w : Int) - 1) (fun x =>
      sum_range 1 ((s.h : Int) - 1) (fun y =>
        if RGB_to_gray (s.pix x y) = 0 then 1 else 0))) := by
  unfold area
  rw [forRange_sum 1 ((s.w : Int) - 1) _ (fun x =>
      sum_range 1 ((s.h : Int) - 1) (fun y =>
        if RGB_to_gray (s.pix x y) = 0 then 1 else 0)) _ 0]
  · simp
  · intro x acc hx0 hx
    apply forRange_sum
    intro y acc2 hy0 hy
    rw [get_pixel_of_inRange s x y (by omega) (by omega) (by omega) (by omega)]
    simp only [Option.bind_eq_bind, Option.some_bind]
    split <;> rfl

theorem gray_black : RGB_to_gray (pack_RGB 0 0 0) = 0 := by decide

theorem gray_white : RGB_to_gray (pack_RGB 255 255 255) = 255 := by decide

/-- C12 (as stated): on the 3x3 white surface with a black centre, `area` returns 1, not 0:
the centre `(1, 1)` is the one pixel the loops `1 <= x < W - 1`, `1 <= y < H - 1` visit. -/
theorem area_centre_dot_counterexample :
    get_pixel centre_dot_surface 1 1 = some (pack_RGB 0 0 0) ∧
      area centre_dot_surface = some 1 := by
  decide

/-- C12 (amended): for a 3x3 surface whose centre pixel `(1, 1)` is black (gray value 0), in
particular for the white surface with a black centre, `area` returns 1. -/
theorem area_three_by_three (s : Surface) (hw : s.w = 3) (hh : s.h = 3)
    (hc : RGB_to_gray (s.pix 1 1) = 0) : area s = some 1 := by
  rw [area_spec, hw, hh]
  have e : (((3 : Nat) : Int) - 1 - 1).toNat = 1 := by decide
  simp only [sum_range, e, sum_upto]
  simp [hc]

theorem area_three_by_three_witness : area centre_dot_surface = some 1 :=
  area_three_by_three centre_dot_surface rfl rfl (by decide)

/-- C13 (as stated): on the 3x3 white surface whose only black pixel is the corner `(0, 0)`,
`area` returns 0, not 1. -/
theorem area_corner_dot_counterexample :
    get_pixel corner_dot_surface 0 0 = some (pack_RGB 0 0 0) ∧
      area corner_dot_surface = some 0 := by
  decide

/-- C13 (amended): on a W x H surface whose pixel at `(cx, cy)` is pure black and whose
other pixels are pure white, `area` returns 1 when `(cx, cy)` is an interior pixel
(`1 <= cx < W - 1`, `1 <= cy < H - 1`) and 0 when it lies on the outermost ring. -/
theorem area_single_black (s : Surface) (cx cy : Int) (_hcx0 : 0 ≤ cx) (_hcx : cx < (s.w : Int))
    (_hcy0 : 0 ≤ cy) (_hcy : cy < (s.h : Int)) (hblack : s.pix cx cy = pack_RGB 0 0 0)
    (hwhite : ∀ x y, 0 ≤ x → x < (s.w : Int) → 0 ≤ y → y < (s.h : Int) →
      ¬ (x = cx ∧ y = cy) → s.pix x y = pack_RGB 255 255 255) :
    area s = some (if 1 ≤ cx ∧ cx < (s.w : Int) - 1 ∧ 1 ≤ cy ∧ cy < (s.h : Int) - 1
      then 1 else 0) := by
  rw [area_spec]
  have hw : ∀ x y, 1 ≤ x → x < (s.w : Int) - 1 → 1 ≤ y → y < (s.h : Int) - 1 →
      ¬ (x = cx ∧ y = cy) → (if RGB_to_gray (s.pix x y) = 0 then 1 else 0) = 0 := by
    intro x y hx0 hx hy0 hy hne
    rw [hwhite x y (by omega) (by omega) (by omega) (by omega) hne, gray_white]
    rfl
  by_cases c : 1 ≤ cx ∧ cx < (s.w : Int) - 1 ∧ 1 ≤ cy ∧ cy < (s.h : Int) - 1
  · rw [if_pos c]
    rw [sum_range_single 1 ((s.w : Int) - 1) cx _ c.1 c.2.1]
    · rw [sum_range_single 1 ((s.h : Int) - 1) cy _ c.2.2.1 c.2.2.2]
      · rw [hblack, gray_black]
        rfl
      · intro y hy0 hy hne
        exact hw cx y c.1 c.2.1 hy0 hy (fun h => hne h.2)
    · intro x hx0 hx hne
      exact sum_range_zero _ _ _ (fun y hy0 hy => hw x y hx0 hx hy0 hy (fun h => hne h.1))
  · rw [if_neg c]
    congr 1
    apply sum_range_zero
    intro x hx0 hx
    apply sum_range_zero
    intro y hy0 hy
    exact hw x y hx0 hx hy0 hy (fun h => c (by omega))

theorem area_single_black_witness :
    area inner_dot_surface = some (if (1 : Int) ≤ 3 ∧ (3 : Int) < (inner_dot_surface.w : Int) - 1
      ∧ (1 : Int) ≤ 2 ∧ (2 : Int) < (inner_dot_surface.h : Int) - 1 then 1 else 0) :=
  area_single_black inner_dot_surface 3 2 (by decide) (by decide) (by decide) (by decide)
    (by decide) (fun x y _ _ _ _ hne => by
      unfold inner_dot_surface
      simp only [if_neg hne])

/-! ### The raw moments -/

theorem excessBits_eq_zero (fuel n : Nat) (h : excessBits (fuel + 1) n = 0) : n < 2 ^ 53 := by
  unfold excessBits at h
  by_cases c : n < 2 ^ 53
  · exact c
  · rw [if_neg c] at h
    omega

/-- A rounded value is a double: below `2^53` or even. -/
theorem roundDouble_repr (n : Nat) : roundDouble n < 2 ^ 53 ∨ 2 ∣ roundDouble n := by
  by_cases c : excessBits 1024 n = 0
  · left
    have hn := excessBits_eq_zero 1023 n c
    rw [roundDouble_exact n hn]
    exact hn
  · right
    unfold roundDouble
    simp only [Nat.shiftLeft_eq]
    obtain ⟨k, hk⟩ : ∃ k, excessBits 1024 n = k + 1 := ⟨excessBits 1024 n - 1, by omega⟩
    rw [hk, Nat.pow_succ]
    split
    · exact Dvd.dvd.mul_left (Dvd.dvd.mul_left (dvd_refl 2) _) _
    · exact Dvd.dvd.mul_left (Dvd.dvd.mul_left (dvd_refl 2) _) _

/-- The ten statements `M[i][j] += ...` of one pixel: every entry with `i + j <= 3` receives
its product once, the others are not touched. -/
theorem accumulate_all (M : Moments) (g x y i j : Nat) :
    ((((((((((M.accumulate 0 0 g).accumulate 0 1 (g * y)).accumulate 0 2
      (g * y * y)).accumulate 0 3 (g * y * y * y)).accumulate 1 0 (g * x)).accumulate 2 0
      (g * x * x)).accumulate 3 0 (g * x * x * x)).accumulate 1 1 (g * x * y)).accumulate 1 2
      (g * x * y * y)).accumulate 2 1 (g * x * x * y)) i j =
      if i + j ≤ 3 then roundDouble (M i j + (g * x ^ i * y ^ j) % 2 ^ 32) else M i j := by
  by_cases h : i + j ≤ 3
  · rw [if_pos h]
    have hi : i ≤ 3 := by omega
    have hj : j ≤ 3 := by omega
    interval_cases i <;> interval_cases j <;>
      first
        | omega
        | (simp only [Moments.accumulate]; simp; try ring_nf)
  · rw [if_neg h]
    simp only [Moments.accumulate]
    repeat rw [if_neg (by omega)]

theorem moment_partial_le (s : Surface) (i j x y : Nat) (hx : x < s.w) (hy : y < s.h) :
    sum_upto x (fun x1 => sum_upto s.h (fun y1 => moment_term s i j x1 y1))
      + sum_upto y (fun y1 => moment_term s i j x y1) + moment_term s i j x y
      ≤ exact_moment s i j := by
  have h1 : sum_upto (y + 1) (fun y1 => moment_term s i j x y1)
      ≤ sum_upto s.h (fun y1 => moment_term s i j x y1) := sum_upto_le _ _ _ (by omega)
  have h2 : sum_upto (x + 1) (fun x1 => sum_upto s.h (fun y1 => moment_term s i j x1 y1))
      ≤ exact_moment s i j := sum_upto_le _ _ _ (by omega)
  simp only [sum_upto] at h1 h2
  omega

/-- The table returned by `moment`: an entry with `i + j <= 3` whose exact sum is below
`2^53` holds that sum, every entry with `i + j > 3` is 0, and every entry is a double. -/
theorem moment_spec (s : Surface) :
    ∃ M, moment s = some M ∧
      (∀ i j, i + j ≤ 3 → exact_moment s i j < 2 ^ 53 → M i j = exact_moment s i j) ∧
      (∀ i j, 3 < i + j → M i j = 0) ∧
      (∀ i j, M i j < 2 ^ 53 ∨ 2 ∣ M i j) := by
  unfold moment
  apply forRange_inv_idx (fun x (M : Moments) =>
      (∀ i j, i + j ≤ 3 → exact_moment s i j < 2 ^ 53 → M i j =
        sum_upto x.toNat (fun x1 => sum_upto s.h (fun y1 => moment_term s i j x1 y1))) ∧
      (∀ i j, 3 < i + j → M i j = 0) ∧
      (∀ i j, M i j < 2 ^ 53 ∨ 2 ∣ M i j))
  · omega
  · exact ⟨fun _ _ _ _ => rfl, fun _ _ _ => rfl, fun _ _ => Or.inl (by norm_num)⟩
  · intro x M hx0 hx ⟨hsum, hzero, hrep⟩
    obtain ⟨M1, h1, q1, q2, q3⟩ := forRange_inv_idx (fun y (M : Moments) =>
        (∀ i j, i + j ≤ 3 → exact_moment s i j < 2 ^ 53 → M i j =
          sum_upto x.toNat (fun x1 => sum_upto s.h (fun y1 => moment_term s i j x1 y1))
          + sum_upto y.toNat (fun y1 => moment_term s i j x.toNat y1)) ∧
        (∀ i j, 3 < i + j → M i j = 0) ∧
        (∀ i j, M i j < 2 ^ 53 ∨ 2 ∣ M i j)) 0 (s.h : Int)
        (fun y M => do
          let pixel_src ← get_pixel s x y
          let gray_value := 255 - RGB_to_gray pixel_src
          let x := x.toNat
          let y := y.toNat
          let M := M.accumulate 0 0 gray_value
          let M := M.accumulate 0 1 (gray_value * y)
          let M := M.accumulate 0 2 (gray_value * y * y)
          let M := M.accumulate 0 3 (gray_value * y * y * y)
          let M := M.accumulate 1 0 (gray_value * x)
          let M := M.accumulate 2 0 (gray_value * x * x)
          let M := M.accumulate 3 0 (gray_value * x * x * x)
          let M := M.accumulate 1 1 (gray_value * x * y)
          let M := M.accumulate 1 2 (gray_value * x * y * y)
          let M := M.accumulate 2 1 (gray_value * x * x * y)
          pure M) M (by omega)
        ⟨fun i j hij hlt => by rw [hsum i j hij hlt]; simp [sum_upto], hzero, hrep⟩
        (by
          intro y M2 hy0 hy ⟨r1, r2, r3⟩
          beta_reduce
          rw [get_pixel_of_inRange s x y (by omega) (by omega) (by omega) (by omega)]
          simp only [Option.bind_eq_bind, Option.some_bind, Option.pure_def]
          refine ⟨_, rfl, fun i j hij hlt => ?_, fun i j hij => ?_, fun i j => ?_⟩
          · rw [accumulate_all, if_pos hij, r1 i j hij hlt]
            have e : (y + 1).toNat = y.toNat + 1 := by omega
            rw [e]
            simp only [sum_upto]
            have hb := moment_partial_le s i j x.toNat y.toNat (by omega) (by omega)
            have ex : ((x.toNat : Nat) : Int) = x := by omega
            have ey : ((y.toNat : Nat) : Int) = y := by omega
            have et : (255 - RGB_to_gray (s.pix x y)) * x.toNat ^ i * y.toNat ^ j % 2 ^ 32
                = moment_term s i j x.toNat y.toNat := by
              unfold moment_term
              rw [ex, ey]
            rw [et, roundDouble_exact _ (by omega)]
            omega
          · rw [accumulate_all, if_neg (by omega)]
            exact r2 i j hij
          · rw [accumulate_all]
            split
            · exact roundDouble_repr _
            · exact r3 i j)
    refine ⟨M1, h1, fun i j hij hlt => ?_, q2, q3⟩
    rw [q1 i j hij hlt]
    have e : (x + 1).toNat = x.toNat + 1 := by omega
    have e2 : ((s.h : Int)).toNat = s.h := by omega
    rw [e, e2]
    simp only [sum_upto]

theorem sum_upto_const (n c : Nat) : sum_upto n (fun _ => c) = n * c := by
  induction n with
  | zero => simp [sum_upto]
  | succ k ih => simp only [sum_upto, ih]; ring

theorem sum_upto_mul (n k : Nat) (g : Nat → Nat) :
    sum_upto n (fun i => k * g i) = k * sum_upto n g := by
  induction n with
  | zero => simp [sum_upto]
  | succ m ih => simp only [sum_upto, ih]; ring

set_option maxRecDepth 100000 in
theorem black_sheet_cubes : sum_upto 255 (fun x => (255 * x ^ 3) % 2 ^ 32) = 267440997375 := by
  decide

theorem black_sheet_exact : exact_moment black_sheet 3 0 = 9007680232587375 := by
  unfold exact_moment
  have e : ∀ x y : Nat, moment_term black_sheet 3 0 x y = (255 * x ^ 3) % 2 ^ 32 := by
    intro x y
    unfold moment_term black_sheet
    simp only [gray_black, pow_zero, Nat.mul_one]
  simp only [e, sum_upto_const]
  show sum_upto 255 (fun x => 33681 * ((255 * x ^ 3) % 2 ^ 32)) = 9007680232587375
  rw [sum_upto_mul, black_sheet_cubes]

/-- C16 (as stated): on the all-black 255 x 33681 surface the exact sum for `M[3][0]` is
`9007680232587375`, an odd number above `2^53`; the entry returned by `moment` is a double
(below `2^53` or even), so it differs from the exact sum. -/
theorem moment_counterexample :
    exact_moment black_sheet 3 0 = 9007680232587375 ∧ 2 ^ 53 < 9007680232587375 ∧
      9007680232587375 % 2 = 1 ∧
      ∃ M, moment black_sheet = some M ∧ (M 3 0 < 2 ^ 53 ∨ 2 ∣ M 3 0) ∧
        M 3 0 ≠ exact_moment black_sheet 3 0 := by
  refine ⟨black_sheet_exact, by norm_num, by norm_num, ?_⟩
  obtain ⟨M, hM, -, -, hrep⟩ := moment_spec black_sheet
  refine ⟨M, hM, hrep 3 0, ?_⟩
  rw [black_sheet_exact]
  rcases hrep 3 0 with h | h
  · omega
  · omega

/-- C16 (amended): `moment` succeeds on every surface; each populated entry `M[i][j]`
(`i + j <= 3`) whose exact sum is below `2^53` equals the exact sum over all pixels of
`x^i * y^j * (255 - luma)`, with each product reduced modulo `2^32` as the code computes
it; every other entry is 0. -/
theorem moment_exact_below_2_53 (s : Surface) :
    ∃ M, moment s = some M ∧
      (∀ i j, i + j ≤ 3 → exact_moment s i j < 2 ^ 53 →
        M i j = sum_upto s.w (fun x => sum_upto s.h (fun y =>
          ((255 - RGB_to_gray (s.pix x y)) * x ^ i * y ^ j) % 2 ^ 32))) ∧
      (∀ i j, 3 < i + j → M i j = 0) := by
  obtain ⟨M, hM, h1, h2, -⟩ := moment_spec s
  exact ⟨M, hM, fun i j hij hlt => h1 i j hij hlt, h2⟩

/-! ### Surfaces with a single pixel that is not white -/

theorem moment_term_lt (s : Surface) (i j x y : Nat) : moment_term s i j x y < 2 ^ 32 := by
  unfold moment_term
  exact Nat.mod_lt _ (by norm_num)

theorem exact_moment_single (s : Surface) (cx cy : Nat) (hcx : cx < s.w) (hcy : cy < s.h)
    (hwhite : ∀ x y : Nat, x < s.w → y < s.h → ¬ (x = cx ∧ y = cy) →
      RGB_to_gray (s.pix x y) = 255) (i j : Nat) :
    exact_moment s i j = moment_term s i j cx cy := by
  have hz : ∀ x y : Nat, x < s.w → y < s.h → ¬ (x = cx ∧ y = cy) →
      moment_term s i j x y = 0 := by
    intro x y hx hy hne
    unfold moment_term
    rw [hwhite x y hx hy hne]
    simp
  unfold exact_moment
  rw [sum_upto_single s.w cx _ hcx]
  · exact sum_upto_single s.h cy _ hcy (fun y hy hne => hz cx y hcx hy (fun h => hne h.2))
  · intro x hx hne
    exact sum_upto_zero _ _ (fun y hy => hz x y hx hy (fun h => hne h.1))

/-- On a surface whose pixels are white except the one at `(cx, cy)`, each populated entry
of `moment` is the single product of that pixel, reduced modulo `2^32`. -/
theorem single_pixel_moment (s : Surface) (cx cy : Nat) (hcx : cx < s.w) (hcy : cy < s.h)
    (hwhite : ∀ x y : Nat, x < s.w → y < s.h → ¬ (x = cx ∧ y = cy) →
      RGB_to_gray (s.pix x y) = 255) :
    ∃ M, moment s = some M ∧
      (∀ i j, i + j ≤ 3 →
        M i j = ((255 - RGB_to_gray (s.pix cx cy)) * cx ^ i * cy ^ j) % 2 ^ 32) ∧
      (∀ i j, 3 < i + j → M i j = 0) := by
  obtain ⟨M, hM, h1, h2, -⟩ := moment_spec s
  refine ⟨M, hM, fun i j hij => ?_, h2⟩
  have e := exact_moment_single s cx cy hcx hcy hwhite i j
  have hlt := moment_term_lt s i j cx cy
  rw [h1 i j hij (by rw [e]; omega), e]
  rfl

/-- For a single black pixel at `(cx, cy)` with `255 * cx` and `255 * cy` below `2^32`, the
centroid of the moments is `(cx, cy)`. -/
theorem centroid_single_black (s : Surface) (cx cy : Nat) (hcx : cx < s.w) (hcy : cy < s.h)
    (hblack : s.pix cx cy = pack_RGB 0 0 0)
    (hwhite : ∀ x y : Nat, x < s.w → y < s.h → ¬ (x = cx ∧ y = cy) →
      s.pix x y = pack_RGB 255 255 255)
    (hx32 : 255 * cx < 2 ^ 32) (hy32 : 255 * cy < 2 ^ 32) :
    ∃ M, moment s = some M ∧
      centroid (fun i j => ((M i j : Nat) : ℚ)) = ((cx : ℚ), (cy : ℚ)) := by
  obtain ⟨M, hM, h1, -⟩ := single_pixel_moment s cx cy hcx hcy
    (fun x y hx hy hne => by rw [hwhite x y hx hy hne, gray_white])
  refine ⟨M, hM, ?_⟩
  have m00 := h1 0 0 (by omega)
  have m10 := h1 1 0 (by omega)
  have m01 := h1 0 1 (by omega)
  rw [hblack, gray_black] at m00 m10 m01
  simp only [pow_zero, pow_one, Nat.mul_one, Nat.sub_zero] at m00 m10 m01
  rw [Nat.mod_eq_of_lt (by omega)] at m00 m10 m01
  unfold centroid
  simp only [m00, m10, m01]
  push_cast
  congr 1 <;> field_simp

/-- The bound `255 * cx < 2^32` of `centroid_single_black` cannot be dropped: on the white
surface of one row whose last pixel `(16843010, 0)` is black, the product `255 * 16843010`
exceeds `2^32`, `moment` stores `M[1][0] = 254`, and the centroid is `(254/255, 0)`. -/
theorem centroid_wide_row :
    get_pixel wide_row_surface 16843010 0 = some (pack_RGB 0 0 0) ∧
      ∃ M, moment wide_row_surface = some M ∧ M 0 0 = 255 ∧ M 1 0 = 254 ∧ M 0 1 = 0 ∧
        centroid (fun i j => ((M i j : Nat) : ℚ)) = (254 / 255, 0) := by
  refine ⟨by decide, ?_⟩
  obtain ⟨M, hM, h1, -⟩ := single_pixel_moment wide_row_surface 16843010 0 (by decide)
    (by decide) (fun x y hx hy hne => by
      have hne2 : ¬ ((x : Int) = 16843010 ∧ (y : Int) = 0) := by omega
      unfold wide_row_surface
      simp only [if_neg hne2, gray_white])
  have hb : RGB_to_gray (wide_row_surface.pix ((16843010 : Nat) : Int) ((0 : Nat) : Int)) = 0 := by
    decide
  have m00 := h1 0 0 (by omega)
  have m10 := h1 1 0 (by omega)
  have m01 := h1 0 1 (by omega)
  rw [hb] at m00 m10 m01
  norm_num at m00 m10 m01
  refine ⟨M, hM, m00, m10, m01, ?_⟩
  unfold centroid
  simp only [m00, m10, m01]
  norm_num

/-! ### Central moments in exact arithmetic -/

theorem about_expand_00 {K : Type} [Field K] (W H : Nat) (I : Nat → Nat → K) (c d : K) :
    grid_moment_about W H I c d 0 0 =
      grid_moment W H I 0 0 := by
  have key : ∀ x y : ℕ, ((x : K) - c) ^ 0 * ((y : K) - d) ^ 0 * I x y =
      ((x : K) ^ 0 * (y : K) ^ 0 * I x y) := by
    intros; ring
  simp only [grid_moment_about, grid_moment, key, Finset.sum_add_distrib,
    Finset.sum_sub_distrib, Finset.sum_neg_distrib, ← Finset.mul_sum]

theorem about_expand_10 {K : Type} [Field K] (W H : Nat) (I : Nat → Nat → K) (c d : K) :
    grid_moment_about W H I c d 1 0 =
      grid_moment W H I 1 0 - c * grid_moment W H I 0 0 := by
  have key : ∀ x y : ℕ, ((x : K) - c) ^ 1 * ((y : K) - d) ^ 0 * I x y =
      ((x : K) ^ 1 * (y : K) ^ 0 * I x y) - c * ((x : K) ^ 0 * (y : K) ^ 0 * I x y) := by
    intros; ring
  simp only [grid_moment_about, grid_moment, key, Finset.sum_add_distrib,
    Finset.sum_sub_distrib, Finset.sum_neg_distrib, ← Finset.mul_sum]

theorem about_expand_01 {K : Type} [Field K] (W H : Nat) (I : Nat → Nat → K) (c d : K) :
    grid_moment_about W H I c d 0 1 =
      grid_moment W H I 0 1 - d * grid_moment W H I 0 0 := by
  have key : ∀ x y : ℕ, ((x : K) - c) ^ 0 * ((y : K) - d) ^ 1 * I x y =
      ((x : K) ^ 0 * (y : K) ^ 1 * I x y) - d * ((x : K) ^ 0 * (y : K) ^ 0 * I x y) := by
    intros; ring
  simp only [grid_moment_about, grid_moment, key, Finset.sum_add_distrib,
    Finset.sum_sub_distrib, Finset.sum_neg_distrib, ← Finset.mul_sum]

theorem about_expand_20 {K : Type} [Field K] (W H : Nat) (I : Nat → Nat → K) (c d : K) :
    grid_moment_about W H I c d 2 0 =
      grid_moment W H I 2 0 - 2 * c * grid_moment W H I 1 0 + c ^ 2 * grid_moment W H I 0 0 := by
  have key : ∀ x y : ℕ, ((x : K) - c) ^ 2 * ((y : K) - d) ^ 0 * I x y =
      ((x : K) ^ 2 * (y : K) ^ 0 * I x y) - 2 * c * ((x : K) ^ 1 * (y : K) ^ 0 * I x y) + c ^ 2 * ((x : K) ^ 0 * (y : K) ^ 0 * I x y) := by
    intros; ring
  simp only [grid_moment_about, grid_moment, key, Finset.sum_add_distrib,
    Finset.sum_sub_distrib, Finset.sum_neg_distrib, ← Finset.mul_sum]

theorem about_expand_02 {K : Type} [Field K] (W H : Nat) (I : Nat → Nat → K) (c d : K) :
    grid_moment_about W H I c d 0 2 =
      grid_moment W H I 0 2 - 2 * d * grid_moment W H I 0 1 + d ^ 2 * grid_moment W H I 0 0 := by
  have key : ∀ x y : ℕ, ((x : K) - c) ^ 0 * ((y : K) - d) ^ 2 * I x y =
      ((x : K) ^ 0 * (y : K) ^ 2 * I x y) - 2 * d * ((x : K) ^ 0 * (y : K) ^ 1 * I x y) + d ^ 2 * ((x : K) ^ 0 * (y : K) ^ 0 * I x y) := by
    intros; ring
  simp only [grid_moment_about, grid_moment, key, Finset.sum_add_distrib,
    Finset.sum_sub_distrib, Finset.sum_neg_distrib, ← Finset.mul_sum]

theorem about_expand_11 {K : Type} [Field K] (W H : Nat) (I : Nat → Nat → K) (c d : K) :
    grid_moment_about W H I c d 1 1 =
      grid_moment W H I 1 1 - d * grid_moment W H I 1 0 - c * grid_moment W H I 0 1 + c * d * grid_moment W H I 0 0 := by
  have key : ∀ x y : ℕ, ((x : K) - c) ^ 1 * ((y : K) - d) ^ 1 * I x y =
      ((x : K) ^ 1 * (y : K) ^ 1 * I x y) - d * ((x : K) ^ 1 * (y : K) ^ 0 * I x y) - c * ((x : K) ^ 0 * (y : K) ^ 1 * I x y) + c * d * ((x : K) ^ 0 * (y : K) ^ 0 * I x y) := by
    intros; ring
  simp only [grid_moment_about, grid_moment, key, Finset.sum_add_distrib,
    Finset.sum_sub_distrib, Finset.sum_neg_distrib, ← Finset.mul_sum]

theorem about_expand_30 {K : Type} [Field K] (W H : Nat) (I : Nat → Nat → K) (c d : K) :
    grid_moment_about W H I c d 3 0 =
      grid_moment W H I 3 0 - 3 * c * grid_moment W H I 2 0 + 3 * c ^ 2 * grid_moment W H I 1 0 - c ^ 3 * grid_moment W H I 0 0 := by
  have key : ∀ x y : ℕ, ((x : K) - c) ^ 3 * ((y : K) - d) ^ 0 * I x y =
      ((x : K) ^ 3 * (y : K) ^ 0 * I x y) - 3 * c * ((x : K) ^ 2 * (y : K) ^ 0 * I x y) + 3 * c ^ 2 * ((x : K) ^ 1 * (y : K) ^ 0 * I x y) - c ^ 3 * ((x : K) ^ 0 * (y : K) ^ 0 * I x y) := by
    intros; ring
  simp only [grid_moment_about, grid_moment, key, Finset.sum_add_distrib,
    Finset.sum_sub_distrib, Finset.sum_neg_distrib, ← Finset.mul_sum]

theorem about_expand_03 {K : Type} [Field K] (W H : Nat) (I : Nat → Nat → K) (c d : K) :
    grid_moment_about W H I c d 0 3 =
      grid_moment W H I 0 3 - 3 * d * grid_moment W H I 0 2 + 3 * d ^ 2 * grid_moment W H I 0 1 - d ^ 3 * grid_moment W H I 0 0 := by
  have key : ∀ x y : ℕ, ((x : K) - c) ^ 0 * ((y : K) - d) ^ 3 * I x y =
      ((x : K) ^ 0 * (y : K) ^ 3 * I x y) - 3 * d * ((x : K) ^ 0 * (y : K) ^ 2 * I x y) + 3 * d ^ 2 * ((x : K) ^ 0 * (y : K) ^ 1 * I x y) - d ^ 3 * ((x : K) ^ 0 * (y : K) ^ 0 * I x y) := by
    intros; ring
  simp only [grid_moment_about, grid_moment, key, Finset.sum_add_distrib,
    Finset.sum_sub_distrib, Finset.sum_neg_distrib, ← Finset.mul_sum]

theorem about_expand_21 {K : Type} [Field K] (W H : Nat) (I : Nat → Nat → K) (c d : K) :
    grid_moment_about W H I c d 2 1 =
      grid_moment W H I 2 1 - d * grid_moment W H I 2 0 - 2 * c * grid_moment W H I 1 1 + 2 * c * d * grid_moment W H I 1 0 + c ^ 2 * grid_moment W H I 0 1 - c ^ 2 * d * grid_moment W H I 0 0 := by
  have key : ∀ x y : ℕ, ((x : K) - c) ^ 2 * ((y : K) - d) ^ 1 * I x y =
      ((x : K) ^ 2 * (y : K) ^ 1 * I x y) - d * ((x : K) ^ 2 * (y : K) ^ 0 * I x y) - 2 * c * ((x : K) ^ 1 * (y : K) ^ 1 * I x y) + 2 * c * d * ((x : K) ^ 1 * (y : K) ^ 0 * I x y) + c ^ 2 * ((x : K) ^ 0 * (y : K) ^ 1 * I x y) - c ^ 2 * d * ((x : K) ^ 0 * (y : K) ^ 0 * I x y) := by
    intros; ring
  simp only [grid_moment_about, grid_moment, key, Finset.sum_add_distrib,
    Finset.sum_sub_distrib, Finset.sum_neg_distrib, ← Finset.mul_sum]

theorem about_expand_12 {K : Type} [Field K] (W H : Nat) (I : Nat → Nat → K) (c d : K) :
    grid_moment_about W H I c d 1 2 =
      grid_moment W H I 1 2 - 2 * d * grid_moment W H I 1 1 + d ^ 2 * grid_moment W H I 1 0 - c * grid_moment W H I 0 2 + 2 * c * d * grid_moment W H I 0 1 - c * d ^ 2 * grid_moment W H I 0 0 := by
  have key : ∀ x y : ℕ, ((x : K) - c) ^ 1 * ((y : K) - d) ^ 2 * I x y =
      ((x : K) ^ 1 * (y : K) ^ 2 * I x y) - 2 * d * ((x : K) ^ 1 * (y : K) ^ 1 * I x y) + d ^ 2 * ((x : K) ^ 1 * (y : K) ^ 0 * I x y) - c * ((x : K) ^ 0 * (y : K) ^ 2 * I x y) + 2 * c * d * ((x : K) ^ 0 * (y : K) ^ 1 * I x y) - c * d ^ 2 * ((x : K) ^ 0 * (y : K) ^ 0 * I x y) := by
    intros; ring
  simp only [grid_moment_about, grid_moment, key, Finset.sum_add_distrib,
    Finset.sum_sub_distrib, Finset.sum_neg_distrib, ← Finset.mul_sum]

/-- The raw moments of the moved grid are the moments of the original grid about
`(-a, -b)`. -/
theorem grid_moment_translate {K : Type} [Field K] (W H a b : Nat) (I : Nat → Nat → K)
    (i j : Nat) :
    grid_moment (W + a) (H + b) (grid_translate a b I) i j =
      grid_moment_about W H I (-(a : K)) (-(b : K)) i j := by
  unfold grid_moment grid_moment_about grid_translate
  rw [Nat.add_comm W a, Finset.sum_range_add]
  have h1 : ∑ x ∈ Finset.range a, ∑ y ∈ Finset.range (H + b),
      (x : K) ^ i * (y : K) ^ j * (if a ≤ x ∧ b ≤ y then I (x - a) (y - b) else 0) = 0 := by
    apply Finset.sum_eq_zero
    intro x hx
    apply Finset.sum_eq_zero
    intro y _
    have : ¬ (a ≤ x ∧ b ≤ y) := by
      have := Finset.mem_range.mp hx
      omega
    rw [if_neg this, mul_zero]
  rw [h1, zero_add]
  apply Finset.sum_congr rfl
  intro x _
  rw [Nat.add_comm H b, Finset.sum_range_add]
  have h2 : ∑ y ∈ Finset.range b,
      ((a + x : Nat) : K) ^ i * (y : K) ^ j *
        (if a ≤ a + x ∧ b ≤ y then I (a + x - a) (y - b) else 0) = 0 := by
    apply Finset.sum_eq_zero
    intro y hy
    have : ¬ (a ≤ a + x ∧ b ≤ y) := by
      have := Finset.mem_range.mp hy
      omega
    rw [if_neg this, mul_zero]
  rw [h2, zero_add]
  apply Finset.sum_congr rfl
  intro y _
  rw [if_pos ⟨by omega, by omega⟩, Nat.add_sub_cancel_left, Nat.add_sub_cancel_left]
  push_cast
  ring

/-- The identities between the entries of `central_moments` and the moments about the
centroid, on ten field elements standing for the raw moments. -/
theorem central_algebra {K : Type} [Field K] (M N : Nat → Nat → K) (a b : K)
    (h0 : M 0 0 ≠ 0)
    (e00 : N 0 0 = M 0 0)
    (e10 : N 1 0 = M 1 0 - -a * M 0 0)
    (e01 : N 0 1 = M 0 1 - -b * M 0 0)
    (e20 : N 2 0 = M 2 0 - 2 * -a * M 1 0 + (-a) ^ 2 * M 0 0)
    (e02 : N 0 2 = M 0 2 - 2 * -b * M 0 1 + (-b) ^ 2 * M 0 0)
    (e11 : N 1 1 = M 1 1 - -b * M 1 0 - -a * M 0 1 + -a * -b * M 0 0)
    (e30 : N 3 0 = M 3 0 - 3 * -a * M 2 0 + 3 * (-a) ^ 2 * M 1 0 - (-a) ^ 3 * M 0 0)
    (e03 : N 0 3 = M 0 3 - 3 * -b * M 0 2 + 3 * (-b) ^ 2 * M 0 1 - (-b) ^ 3 * M 0 0)
    (e21 : N 2 1 = M 2 1 - -b * M 2 0 - 2 * -a * M 1 1 + 2 * -a * -b * M 1 0
      + (-a) ^ 2 * M 0 1 - (-a) ^ 2 * -b * M 0 0)
    (e12 : N 1 2 = M 1 2 - 2 * -b * M 1 1 + (-b) ^ 2 * M 1 0 - -a * M 0 2
      + 2 * -a * -b * M 0 1 - -a * (-b) ^ 2 * M 0 0)
    (i j : Nat) :
    central_moments N (centroid N) i j = central_moments M (centroid M) i j := by
  unfold central_moments centroid
  simp only [e00, e10, e01, e20, e02, e11, e30, e03, e21, e12]
  generalize M 0 0 = m00 at h0
  generalize M 1 0 = m10
  generalize M 0 1 = m01
  generalize M 2 0 = m20
  generalize M 0 2 = m02
  generalize M 1 1 = m11
  generalize M 3 0 = m30
  generalize M 0 3 = m03
  generalize M 2 1 = m21
  generalize M 1 2 = m12
  split
  · rfl
  · field_simp; ring
  · field_simp; ring
  · field_simp; ring
  · field_simp; ring
  · field_simp; ring
  · field_simp; ring
  · field_simp; ring
  · rfl

/-- C17: for a finite intensity grid with `M[0][0] != 0`, raw moments `M` and
`C = centroid(M)`, every populated entry of `central_moments(M, C)` is the moment of the
grid taken about `C`, and the table is the same for the grid content moved by any
`(a, b)`. -/
theorem central_moments_about_centroid {K : Type} [Field K] (W H : Nat) (I : Nat → Nat → K)
    (h0 : grid_moment W H I 0 0 ≠ 0) :
    (∀ i j, (i, j) ∈ [(0, 0), (0, 2), (0, 3), (2, 0), (3, 0), (1, 1), (1, 2), (2, 1)] →
      central_moments (grid_moment W H I) (centroid (grid_moment W H I)) i j =
        grid_moment_about W H I (centroid (grid_moment W H I)).1
          (centroid (grid_moment W H I)).2 i j) ∧
    (∀ (a b : Nat) i j,
      central_moments (grid_moment (W + a) (H + b) (grid_translate a b I))
          (centroid (grid_moment (W + a) (H + b) (grid_translate a b I))) i j =
        central_moments (grid_moment W H I) (centroid (grid_moment W H I)) i j) := by
  constructor
  · intro i j hij
    simp only [List.mem_cons, Prod.mk.injEq, List.mem_singleton, List.not_mem_nil,
      or_false] at hij
    rcases hij with h | h | h | h | h | h | h | h <;> obtain ⟨rfl, rfl⟩ := h
    · rw [about_expand_00]; rfl
    all_goals
      first
        | rw [about_expand_02]
        | rw [about_expand_03]
        | rw [about_expand_20]
        | rw [about_expand_30]
        | rw [about_expand_11]
        | rw [about_expand_12]
        | rw [about_expand_21]
      simp only [central_moments, centroid]
      generalize grid_moment W H I 0 0 = m00 at h0
      generalize grid_moment W H I 1 0 = m10
      generalize grid_moment W H I 0 1 = m01
      generalize grid_moment W H I 2 0 = m20
      generalize grid_moment W H I 0 2 = m02
      generalize grid_moment W H I 1 1 = m11
      generalize grid_moment W H I 3 0 = m30
      generalize grid_moment W H I 0 3 = m03
      generalize grid_moment W H I 2 1 = m21
      generalize grid_moment W H I 1 2 = m12
      obtain ⟨c, rfl⟩ : ∃ c, m10 = c * m00 := ⟨m10 / m00, by field_simp⟩
      obtain ⟨d, rfl⟩ : ∃ d, m01 = d * m00 := ⟨m01 / m00, by field_simp⟩
      simp only [mul_div_assoc, div_self h0, mul_one]
      ring
  · intro a b i j
    exact central_algebra (grid_moment W H I)
      (grid_moment (W + a) (H + b) (grid_translate a b I)) (a : K) (b : K) h0
      (by rw [grid_moment_translate, about_expand_00])
      (by rw [grid_moment_translate, about_expand_10])
      (by rw [grid_moment_translate, about_expand_01])
      (by rw [grid_moment_translate, about_expand_20])
      (by rw [grid_moment_translate, about_expand_02])
      (by rw [grid_moment_translate, about_expand_11])
      (by rw [grid_moment_translate, about_expand_30])
      (by rw [grid_moment_translate, about_expand_03])
      (by rw [grid_moment_translate, about_expand_21])
      (by rw [grid_moment_translate, about_expand_12]) i j

theorem central_moments_about_centroid_witness :
    (∀ i j, (i, j) ∈ [(0, 0), (0, 2), (0, 3), (2, 0), (3, 0), (1, 1), (1, 2), (2, 1)] →
      central_moments (grid_moment 2 1 (fun _ _ => (1 : ℚ)))
          (centroid (grid_moment 2 1 (fun _ _ => (1 : ℚ)))) i j =
        grid_moment_about 2 1 (fun _ _ => (1 : ℚ))
          (centroid (grid_moment 2 1 (fun _ _ => (1 : ℚ)))).1
          (centroid (grid_moment 2 1 (fun _ _ => (1 : ℚ)))).2 i j) ∧
    (∀ (a b : Nat) i j,
      central_moments (grid_moment (2 + a) (1 + b) (grid_translate a b (fun _ _ => (1 : ℚ))))
          (centroid (grid_moment (2 + a) (1 + b)
            (grid_translate a b (fun _ _ => (1 : ℚ))))) i j =
        central_moments (grid_moment 2 1 (fun _ _ => (1 : ℚ)))
          (centroid (grid_moment 2 1 (fun _ _ => (1 : ℚ)))) i j) :=
  central_moments_about_centroid 2 1 (fun _ _ => (1 : ℚ)) (by
    simp [grid_moment, Finset.sum_range_succ])

/-! ### The invariants and the eigenvectors on small surfaces -/

theorem sqrt_four : Real.sqrt 4 = 2 := by
  rw [show (4 : ℝ) = 2 ^ 2 by norm_num]
  exact Real.sqrt_sq (by norm_num)

/-- The values `invariants[0..3]`, `invariants[5]` and `invariants[6]` are the Hu invariants
of the normalised moments; `invariants[4]` is the product of the two terms whose sum is the
fifth Hu invariant. -/
theorem invariants_vs_hu {K : Type} [Field K] (sqrt : K → K) (u : Nat → Nat → K) :
    (∀ k, k ≠ 4 → invariants sqrt u k = hu_invariants (normalized_moments sqrt u) k) ∧
    invariants sqrt u 4 =
      ((normalized_moments sqrt u 3 0 - 3 * normalized_moments sqrt u 1 2)
        * (normalized_moments sqrt u 3 0 + normalized_moments sqrt u 1 2)
        * ((normalized_moments sqrt u 3 0 + normalized_moments sqrt u 1 2) ^ 2
          - 3 * (normalized_moments sqrt u 2 1 + normalized_moments sqrt u 0 3) ^ 2))
      * ((3 * normalized_moments sqrt u 2 1 - normalized_moments sqrt u 0 3)
        * (normalized_moments sqrt u 2 1 + normalized_moments sqrt u 0 3)
        * (3 * (normalized_moments sqrt u 3 0 + normalized_moments sqrt u 1 2) ^ 2
          - (normalized_moments sqrt u 2 1 + normalized_moments sqrt u 0 3) ^ 2)) := by
  constructor
  · intro k hk
    unfold invariants hu_invariants
    rcases k with _ | _ | _ | _ | _ | _ | _ | k
    · rfl
    · simp only []; ring
    · simp only []; ring
    · simp only []; ring
    · exact absurd rfl hk
    · simp only []; ring
    · simp only []; ring
    · rfl
  · unfold invariants
    simp only []
    ring

/-- C18: on the central moments of the 3x1 surface with intensities 3, 0, 1 (`u00 = 4`,
`u20 = 3`, `u30 = 3`, the other entries 0), `invariants[4]` is 0 while the fifth Hu
invariant is `(3/32)^4 = 81/1048576`. -/
theorem invariants_fifth_differs :
    ∃ M, moment skew_row_surface = some M ∧
      central_moments (fun i j => ((M i j : Nat) : ℝ))
        (centroid (fun i j => ((M i j : Nat) : ℝ))) 0 0 = 4 ∧
      central_moments (fun i j => ((M i j : Nat) : ℝ))
        (centroid (fun i j => ((M i j : Nat) : ℝ))) 2 0 = 3 ∧
      central_moments (fun i j => ((M i j : Nat) : ℝ))
        (centroid (fun i j => ((M i j : Nat) : ℝ))) 3 0 = 3 ∧
      invariants Real.sqrt (central_moments (fun i j => ((M i j : Nat) : ℝ))
        (centroid (fun i j => ((M i j : Nat) : ℝ)))) 4 = 0 ∧
      hu_invariants (normalized_moments Real.sqrt
        (central_moments (fun i j => ((M i j : Nat) : ℝ))
          (centroid (fun i j => ((M i j : Nat) : ℝ))))) 4 = 81 / 1048576 := by
  obtain ⟨M, hM, h1, -, -⟩ := moment_spec skew_row_surface
  have m00 : M 0 0 = 4 := by rw [h1 0 0 (by omega) (by decide)]; decide
  have m01 : M 0 1 = 0 := by rw [h1 0 1 (by omega) (by decide)]; decide
  have m02 : M 0 2 = 0 := by rw [h1 0 2 (by omega) (by decide)]; decide
  have m03 : M 0 3 = 0 := by rw [h1 0 3 (by omega) (by decide)]; decide
  have m10 : M 1 0 = 2 := by rw [h1 1 0 (by omega) (by decide)]; decide
  have m20 : M 2 0 = 4 := by rw [h1 2 0 (by omega) (by decide)]; decide
  have m30 : M 3 0 = 8 := by rw [h1 3 0 (by omega) (by decide)]; decide
  have m11 : M 1 1 = 0 := by rw [h1 1 1 (by omega) (by decide)]; decide
  have m12 : M 1 2 = 0 := by rw [h1 1 2 (by omega) (by decide)]; decide
  have m21 : M 2 1 = 0 := by rw [h1 2 1 (by omega) (by decide)]; decide
  refine ⟨M, hM, ?_, ?_, ?_, ?_, ?_⟩
  all_goals
    simp only [invariants, hu_invariants, normalized_moments, central_moments, centroid,
      m00, m01, m02, m03, m10, m20, m30, m11, m12, m21]
    norm_num [sqrt_four]

theorem sqrt_255_sq : Real.sqrt 255 * Real.sqrt 255 = 255 :=
  Real.mul_self_sqrt (by norm_num)

/-- C19: on the white 1x300 surface with a black pixel at `(0, 299)` the product
`255 * 299^3` exceeds `2^32`, `moment` stores `M[0][3] = 2521411949`, and `invariants[2]` is
`2^64 / 255^5`; on the copy rotated by 90 degrees (black pixel at `(0, 0)`) it is 0. -/
theorem invariants_rotation_differs :
    get_pixel tall_dot_surface 0 299 = some (pack_RGB 0 0 0) ∧
    get_pixel (rotate90 tall_dot_surface) 0 0 = some (pack_RGB 0 0 0) ∧
    ∃ M N, moment tall_dot_surface = some M ∧ moment (rotate90 tall_dot_surface) = some N ∧
      M 0 3 = 2521411949 ∧
      invariants Real.sqrt (central_moments (fun i j => ((M i j : Nat) : ℝ))
        (centroid (fun i j => ((M i j : Nat) : ℝ)))) 2 = 2 ^ 64 / 255 ^ 5 ∧
      invariants Real.sqrt (central_moments (fun i j => ((N i j : Nat) : ℝ))
        (centroid (fun i j => ((N i j : Nat) : ℝ)))) 2 = 0 := by
  refine ⟨by decide, by decide, ?_⟩
  obtain ⟨M, hM, h1, -⟩ := single_pixel_moment tall_dot_surface 0 299 (by decide)
    (by decide) (fun x y hx hy hne => by
      have hne2 : ¬ ((x : Int) = 0 ∧ (y : Int) = 299) := by omega
      unfold tall_dot_surface
      simp only [if_neg hne2, gray_white])
  obtain ⟨N, hN, k1, -⟩ := single_pixel_moment (rotate90 tall_dot_surface) 0 0 (by decide)
    (by decide) (fun x y hx hy hne => by
      have hx' : x < 300 := hx
      have hy' : y < 1 := hy
      have hne2 : ¬ ((y : Int) = 0 ∧ ((300 : Nat) : Int) - 1 - (x : Int) = 299) := by omega
      unfold rotate90 tall_dot_surface
      simp only [if_neg hne2, gray_white])
  have hb : RGB_to_gray (tall_dot_surface.pix ((0 : Nat) : Int) ((299 : Nat) : Int)) = 0 := by
    decide
  have hb2 : RGB_to_gray ((rotate90 tall_dot_surface).pix ((0 : Nat) : Int)
      ((0 : Nat) : Int)) = 0 := by
    decide
  have m00 := h1 0 0 (by omega)
  have m01 := h1 0 1 (by omega)
  have m02 := h1 0 2 (by omega)
  have m03 := h1 0 3 (by omega)
  have m10 := h1 1 0 (by omega)
  have m20 := h1 2 0 (by omega)
  have m30 := h1 3 0 (by omega)
  have m11 := h1 1 1 (by omega)
  have m12 := h1 1 2 (by omega)
  have m21 := h1 2 1 (by omega)
  rw [hb] at m00 m01 m02 m03 m10 m20 m30 m11 m12 m21
  norm_num at m00 m01 m02 m03 m10 m20 m30 m11 m12 m21
  have n00 := k1 0 0 (by omega)
  have n01 := k1 0 1 (by omega)
  have n02 := k1 0 2 (by omega)
  have n03 := k1 0 3 (by omega)
  have n10 := k1 1 0 (by omega)
  have n20 := k1 2 0 (by omega)
  have n30 := k1 3 0 (by omega)
  have n11 := k1 1 1 (by omega)
  have n12 := k1 1 2 (by omega)
  have n21 := k1 2 1 (by omega)
  rw [hb2] at n00 n01 n02 n03 n10 n20 n30 n11 n12 n21
  norm_num at n00 n01 n02 n03 n10 n20 n30 n11 n12 n21
  refine ⟨M, N, hM, hN, m03, ?_, ?_⟩
  · simp only [invariants, normalized_moments, central_moments, centroid,
      m00, m01, m02, m03, m10, m20, m30, m11, m12, m21]
    have hs := sqrt_255_sq
    have hpos : Real.sqrt 255 ≠ 0 := by
      intro h
      rw [h] at hs
      norm_num at hs
    norm_num
    field_simp
    nlinarith [hs]
  · simp only [invariants, normalized_moments, central_moments, centroid,
      n00, n01, n02, n03, n10, n20, n30, n11, n12, n21]
    norm_num

/-- C20: on the moments of the surface of one column with black pixels at `(0, 0)` and
`(0, 2)` the covariance matrix is `[[0, 0], [0, 1]]`, a diagonal matrix with
`A[0][0] < A[1][1]`. The first returned row holds the eigenvalue 1 with the vector `(1, 0)`,
for which the first component of `A v` is 0 while the first component of `lambda v` is
1. -/
theorem eigen_diagonal_mismatch :
    ∃ M, moment vertical_pair_surface = some M ∧
      covariance (fun i j => ((M i j : Nat) : ℝ))
        (centroid (fun i j => ((M i j : Nat) : ℝ))) = (0, 0, 0, 1) ∧
      eigen Real.sqrt (fun i j => ((M i j : Nat) : ℝ))
        (centroid (fun i j => ((M i j : Nat) : ℝ))) (eigen_cell 0 0) = 1 ∧
      eigen Real.sqrt (fun i j => ((M i j : Nat) : ℝ))
        (centroid (fun i j => ((M i j : Nat) : ℝ))) (eigen_cell 0 1) = 1 ∧
      eigen Real.sqrt (fun i j => ((M i j : Nat) : ℝ))
        (centroid (fun i j => ((M i j : Nat) : ℝ))) (eigen_cell 0 2) = 0 ∧
      (covariance (fun i j => ((M i j : Nat) : ℝ))
          (centroid (fun i j => ((M i j : Nat) : ℝ)))).1
        * eigen Real.sqrt (fun i j => ((M i j : Nat) : ℝ))
          (centroid (fun i j => ((M i j : Nat) : ℝ))) (eigen_cell 0 1)
        + (covariance (fun i j => ((M i j : Nat) : ℝ))
          (centroid (fun i j => ((M i j : Nat) : ℝ)))).2.1
        * eigen Real.sqrt (fun i j => ((M i j : Nat) : ℝ))
          (centroid (fun i j => ((M i j : Nat) : ℝ))) (eigen_cell 0 2) = 0 ∧
      eigen Real.sqrt (fun i j => ((M i j : Nat) : ℝ))
          (centroid (fun i j => ((M i j : Nat) : ℝ))) (eigen_cell 0 0)
        * eigen Real.sqrt (fun i j => ((M i j : Nat) : ℝ))
          (centroid (fun i j => ((M i j : Nat) : ℝ))) (eigen_cell 0 1) = 1 := by
  obtain ⟨M, hM, h1, -, -⟩ := moment_spec vertical_pair_surface
  have m00 : M 0 0 = 510 := by rw [h1 0 0 (by omega) (by decide)]; decide
  have m01 : M 0 1 = 510 := by rw [h1 0 1 (by omega) (by decide)]; decide
  have m02 : M 0 2 = 1020 := by rw [h1 0 2 (by omega) (by decide)]; decide
  have m10 : M 1 0 = 0 := by rw [h1 1 0 (by omega) (by decide)]; decide
  have m20 : M 2 0 = 0 := by rw [h1 2 0 (by omega) (by decide)]; decide
  have m11 : M 1 1 = 0 := by rw [h1 1 1 (by omega) (by decide)]; decide
  refine ⟨M, hM, ?_, ?_, ?_, ?_, ?_, ?_⟩
  · simp only [covariance, centroid, m00, m01, m02, m10, m20, m11]
    norm_num
  all_goals
    simp only [eigen, covariance, centroid, m00, m01, m02, m10, m20, m11]
    norm_num [sqrt_four, eigen_set, eigen_cell]

/-- In the branch `A[1][0] != 0` the assignment `eigen[0][2] = A[1][0]` lands on the cell
of `eigen[1][0]`, so the second eigenvalue is replaced by `A[1][0]` and `eigen[1][1]` is
computed from that value. -/
theorem eigen_second_value_overwritten {K : Type} [Field K] [DecidableEq K] (sqrt : K → K)
    (M : Nat → Nat → K) (C : K × K) (h : M 1 1 / M 0 0 - C.1 * C.2 ≠ 0) :
    eigen sqrt M C (eigen_cell 1 0) = M 1 1 / M 0 0 - C.1 * C.2 ∧
      eigen sqrt M C (eigen_cell 1 1) =
        (M 1 1 / M 0 0 - C.1 * C.2) - (M 0 2 / M 0 0 - C.2 * C.2) := by
  simp only [eigen, if_pos h, eigen_set, eigen_cell]
  norm_num

/-! ### Erosion followed by dilation -/

/-- A window whose nine snapshot pixels are pure black holds no non-black pixel. -/
theorem window_black (s : Surface) (x y : Int)
    (h : ∀ p q, x - 1 ≤ p → p ≤ x + 1 → y - 1 ≤ q → q ≤ y + 1 →
      s.pix p q = pack_RGB 0x00 0x00 0x00) :
    window_nonblack s x y = false := by
  unfold window_nonblack column_nonblack
  rw [h (x + -1) (y + -1) (by omega) (by omega) (by omega) (by omega),
    h (x + -1) (y + 0) (by omega) (by omega) (by omega) (by omega),
    h (x + -1) (y + 1) (by omega) (by omega) (by omega) (by omega),
    h (x + 0) (y + -1) (by omega) (by omega) (by omega) (by omega),
    h (x + 0) (y + 0) (by omega) (by omega) (by omega) (by omega),
    h (x + 0) (y + 1) (by omega) (by omega) (by omega) (by omega),
    h (x + 1) (y + -1) (by omega) (by omega) (by omega) (by omega),
    h (x + 1) (y + 0) (by omega) (by omega) (by omega) (by omega),
    h (x + 1) (y + 1) (by omega) (by omega) (by omega) (by omega), gray_black]
  rfl

/-- One pass of `erosion` keeps black every pixel of a black rectangle that is not on the
outermost ring of the rectangle. -/
theorem erosion_pass_core (s : Surface) (x0 x1 y0 y1 : Int)
    (hb : ∀ x y, x0 ≤ x → x < x1 → y0 ≤ y → y < y1 → s.pix x y = pack_RGB 0x00 0x00 0x00) :
    ∃ s', erosion_pass s = some s' ∧ s'.w = s.w ∧ s'.h = s.h ∧
      ∀ x y, x0 + 1 ≤ x → x < x1 - 1 → y0 + 1 ≤ y → y < y1 - 1 →
        s'.pix x y = pack_RGB 0x00 0x00 0x00 := by
  obtain ⟨s', h1, hw, hh, hp⟩ := erosion_pass_spec s
  refine ⟨s', h1, hw, hh, fun x y hx0 hx1 hy0 hy1 => ?_⟩
  have hwin : window_nonblack s x y = false :=
    window_black s x y (fun p q _ _ _ _ => hb p q (by omega) (by omega) (by omega) (by omega))
  rw [hp x y, if_neg (fun c => by rw [hwin] at c; exact Bool.noConfusion c.2)]
  exact hb x y (by omega) (by omega) (by omega) (by omega)

/-- After `erode_n` passes of `erosion` the pixels of a black rectangle that lie at least
`erode_n` pixels inside it are still black. -/
theorem erosion_core (s : Surface) (erode_n x0 x1 y0 y1 : Int) (hn : 0 ≤ erode_n)
    (hb : ∀ x y, x0 ≤ x → x < x1 → y0 ≤ y → y < y1 → s.pix x y = pack_RGB 0x00 0x00 0x00) :
    ∃ s', erosion s erode_n = some s' ∧ s'.w = s.w ∧ s'.h = s.h ∧
      ∀ x y, x0 + erode_n ≤ x → x < x1 - erode_n → y0 + erode_n ≤ y → y < y1 - erode_n →
        s'.pix x y = pack_RGB 0x00 0x00 0x00 := by
  unfold erosion
  apply forRange_inv_idx (fun k (img : Surface) => img.w = s.w ∧ img.h = s.h ∧
      ∀ x y, x0 + k ≤ x → x < x1 - k → y0 + k ≤ y → y < y1 - k →
        img.pix x y = pack_RGB 0x00 0x00 0x00) 0 erode_n _ s hn
  · exact ⟨rfl, rfl, fun x y _ _ _ _ => hb x y (by omega) (by omega) (by omega) (by omega)⟩
  · intro k img _ _ ⟨iw, ih, ip⟩
    obtain ⟨img', e1, ew, eh, ep⟩ :=
      erosion_pass_core img (x0 + k) (x1 - k) (y0 + k) (y1 - k) ip
    exact ⟨img', e1, by omega, by omega,
      fun x y _ _ _ _ => ep x y (by omega) (by omega) (by omega) (by omega)⟩

/-- The two loops over the interior when every step keeps an invariant `R` and establishes
a property `G x y` that later steps do not destroy: `G` holds for every interior cell in
the result. -/
theorem interior_loop_acc (s : Surface) (body : Int → Int → Surface → Option Surface)
    (R : Surface → Prop) (G : Int → Int → Surface → Prop) (hR : R s)
    (hstep : ∀ x y img, 1 ≤ x → x < (s.w : Int) - 1 → 1 ≤ y → y < (s.h : Int) - 1 → R img →
      ∃ img', body x y img = some img' ∧ R img' ∧ G x y img' ∧
        ∀ x' y', G x' y' img → G x' y' img') :
    ∃ s', forRange 1 ((s.w : Int) - 1) (fun x image =>
        forRange 1 ((s.h : Int) - 1) (fun y image => body x y image) image) s = some s' ∧
      R s' ∧ ∀ x y, 1 ≤ x → x < (s.w : Int) - 1 → 1 ≤ y → y < (s.h : Int) - 1 → G x y s' := by
  by_cases hw : (s.w : Int) - 1 ≤ 1
  · rw [forRange_empty _ _ _ _ hw]
    exact ⟨s, rfl, hR, fun x y _ _ _ _ => by omega⟩
  apply forRange_inv_idx (fun X (img : Surface) => R img ∧
      ∀ x y, 1 ≤ x → x < X → 1 ≤ y → y < (s.h : Int) - 1 → G x y img)
  · omega
  · exact ⟨hR, fun x y _ _ _ _ => by omega⟩
  · intro x img hx0 hx ⟨iR, iG⟩
    by_cases hh : (s.h : Int) - 1 ≤ 1
    · refine ⟨img, forRange_empty _ _ _ _ hh, iR, fun x' y' _ _ _ _ => by omega⟩
    obtain ⟨img', h1, hR', hG'⟩ := forRange_inv_idx (fun Y (im : Surface) => R im ∧
        ∀ x' y', (1 ≤ x' ∧ x' < x ∧ 1 ≤ y' ∧ y' < (s.h : Int) - 1) ∨
          (x' = x ∧ 1 ≤ y' ∧ y' < Y) → G x' y' im) 1 ((s.h : Int) - 1)
        (fun y image => body x y image) img (by omega)
        ⟨iR, fun x' y' c => by
          rcases c with c | c
          · exact iG x' y' c.1 c.2.1 c.2.2.1 c.2.2.2
          · omega⟩
        (by
          intro y im hy0 hy ⟨jR, jG⟩
          obtain ⟨im', e1, eR, eG, eK⟩ := hstep x y im hx0 hx hy0 hy jR
          refine ⟨im', e1, eR, fun x' y' c => ?_⟩
          by_cases d : x' = x ∧ y' = y
          · obtain ⟨rfl, rfl⟩ := d
            exact eG
          · exact eK x' y' (jG x' y' (by omega)))
    exact ⟨img', h1, hR', fun x' y' a1 a2 a3 a4 => hG' x' y' (by omega)⟩

/-- The two neighborhood loops of `dilation` at an interior pixel: they succeed, keep the size
and every pixel that already held the written value, and leave the whole 3x3 window
holding it. -/
theorem paint_window_spec (im : Surface) (x y : Int) (pixel_dst : Nat) (hx1 : 1 ≤ x)
    (hx : x < (im.w : Int) - 1) (hy1 : 1 ≤ y) (hy : y < (im.h : Int) - 1) :
    ∃ im', forRange (-1) 2 (fun u image =>
          forRange (-1) 2 (fun v image => put_pixel image (x + u) (y + v) pixel_dst) image)
          im = some im' ∧ im'.w = im.w ∧ im'.h = im.h ∧
      (∀ p q, im.pix p q = pixel_dst → im'.pix p q = pixel_dst) ∧
      ∀ p q, x - 1 ≤ p → p ≤ x + 1 → y - 1 ≤ q → q ≤ y + 1 → im'.pix p q = pixel_dst := by
  obtain ⟨im', h1, hw, hh, hk, hp⟩ := forRange_inv_idx (fun U (img : Surface) =>
      img.w = im.w ∧ img.h = im.h ∧ (∀ p q, im.pix p q = pixel_dst → img.pix p q = pixel_dst) ∧
      ∀ p q, x - 1 ≤ p → p < x + U → y - 1 ≤ q → q ≤ y + 1 → img.pix p q = pixel_dst)
    (-1) 2 (fun u image =>
      forRange (-1) 2 (fun v image => put_pixel image (x + u) (y + v) pixel_dst) image) im
    (by omega) ⟨rfl, rfl, fun _ _ h => h, fun p q _ _ _ _ => by omega⟩
    (by
      intro u img hu0 hu ⟨iw, ih, ik, ip⟩
      obtain ⟨img', g1, gw, gh, gk, gp⟩ := forRange_inv_idx (fun V (i2 : Surface) =>
          i2.w = im.w ∧ i2.h = im.h ∧
          (∀ p q, im.pix p q = pixel_dst → i2.pix p q = pixel_dst) ∧
          ∀ p q, (x - 1 ≤ p ∧ p < x + u ∧ y - 1 ≤ q ∧ q ≤ y + 1) ∨
            (p = x + u ∧ y - 1 ≤ q ∧ q < y + V) → i2.pix p q = pixel_dst)
        (-1) 2 (fun v image => put_pixel image (x + u) (y + v) pixel_dst) img (by omega)
        ⟨iw, ih, ik, fun p q c => by
          rcases c with c | c
          · exact ip p q c.1 c.2.1 c.2.2.1 c.2.2.2
          · omega⟩
        (by
          intro v i2 hv0 hv ⟨jw, jh, jk, jp⟩
          beta_reduce
          rw [put_pixel_of_inRange i2 (x + u) (y + v) _ (by omega) (by omega) (by omega)
            (by omega)]
          refine ⟨_, rfl, jw, jh, fun p q e => ?_, fun p q c => ?_⟩
          · simp only
            by_cases d : p = x + u ∧ q = y + v
            · rw [if_pos d]
            · rw [if_neg d]; exact jk p q e
          · simp only
            by_cases d : p = x + u ∧ q = y + v
            · rw [if_pos d]
            · rw [if_neg d]; exact jp p q (by omega))
      exact ⟨img', g1, gw, gh, gk, fun p q a1 a2 a3 a4 => gp p q (by omega)⟩)
  exact ⟨im', h1, hw, hh, hk, fun p q a1 a2 a3 a4 => hp p q a1 (by omega) a3 a4⟩

/-- One pass of `dilation`: it succeeds, keeps the size and every black pixel, and leaves
black the 3x3 window of every interior pixel whose gray value in the snapshot is zero. -/
theorem dilation_pass_grow (s : Surface) :
    ∃ s', dilation_pass s = some s' ∧ s'.w = s.w ∧ s'.h = s.h ∧
      (∀ p q, s.pix p q = pack_RGB 0x00 0x00 0x00 → s'.pix p q = pack_RGB 0x00 0x00 0x00) ∧
      ∀ x y, 1 ≤ x → x < (s.w : Int) - 1 → 1 ≤ y → y < (s.h : Int) - 1 →
        RGB_to_gray (s.pix x y) = 0x00 →
        ∀ p q, x - 1 ≤ p → p ≤ x + 1 → y - 1 ≤ q → q ≤ y + 1 →
          s'.pix p q = pack_RGB 0x00 0x00 0x00 := by
  unfold dilation_pass
  obtain ⟨s', h1, ⟨hw, hh, hk⟩, hG⟩ := interior_loop_acc s
    (fun x y image => do
      let pixel_src ← get_pixel s x y
      let gray_value := RGB_to_gray pixel_src
      let pixel_dst := pack_RGB 0x00 0x00 0x00
      if gray_value = 0x00 then
        forRange (-1) 2 (fun u image =>
          forRange (-1) 2 (fun v image => put_pixel image (x + u) (y + v) pixel_dst) image)
          image
      else pure image)
    (fun img => img.w = s.w ∧ img.h = s.h ∧
      ∀ p q, s.pix p q = pack_RGB 0x00 0x00 0x00 → img.pix p q = pack_RGB 0x00 0x00 0x00)
    (fun x y img => RGB_to_gray (s.pix x y) = 0x00 →
      ∀ p q, x - 1 ≤ p → p ≤ x + 1 → y - 1 ≤ q → q ≤ y + 1 →
        img.pix p q = pack_RGB 0x00 0x00 0x00)
    ⟨rfl, rfl, fun _ _ h => h⟩
    (by
      intro x y img hx0 hx hy0 hy ⟨iw, ih, ik⟩
      beta_reduce
      rw [get_pixel_of_inRange s x y (by omega) (by omega) (by omega) (by omega)]
      simp only [Option.bind_eq_bind, Option.some_bind]
      by_cases g : RGB_to_gray (s.pix x y) = 0x00
      · rw [if_pos g]
        obtain ⟨im', e1, ew, eh, ek, ep⟩ := paint_window_spec img x y
          (pack_RGB 0x00 0x00 0x00) hx0 (by omega) hy0 (by omega)
        exact ⟨im', e1, ⟨by omega, by omega, fun p q h => ek p q (ik p q h)⟩,
          fun _ => ep, fun x' y' G' g' p q a1 a2 a3 a4 => ek p q (G' g' p q a1 a2 a3 a4)⟩
      · rw [if_neg g]
        exact ⟨img, rfl, ⟨iw, ih, ik⟩, fun g' => absurd g' g, fun _ _ G' => G'⟩)
  exact ⟨s', h1, hw, hh, hk, hG⟩

/-- After `dilate_n` passes of `dilation` a non-empty black rectangle has grown by `dilate_n`
pixels on every side, when the grown rectangle fits in the surface. -/
theorem dilation_core (s : Surface) (dilate_n x0 x1 y0 y1 : Int) (hn : 0 ≤ dilate_n)
    (hx : x0 < x1) (hy : y0 < y1) (hx0 : dilate_n ≤ x0) (hx1 : x1 + dilate_n ≤ s.w)
    (hy0 : dilate_n ≤ y0) (hy1 : y1 + dilate_n ≤ s.h)
    (hb : ∀ x y, x0 ≤ x → x < x1 → y0 ≤ y → y < y1 → s.pix x y = pack_RGB 0x00 0x00 0x00) :
    ∃ s', dilation s dilate_n = some s' ∧ s'.w = s.w ∧ s'.h = s.h ∧
      ∀ x y, x0 - dilate_n ≤ x → x < x1 + dilate_n → y0 - dilate_n ≤ y → y < y1 + dilate_n →
        s'.pix x y = pack_RGB 0x00 0x00 0x00 := by
  unfold dilation
  apply forRange_inv_idx (fun k (img : Surface) => img.w = s.w ∧ img.h = s.h ∧
      ∀ x y, x0 - k ≤ x → x < x1 + k → y0 - k ≤ y → y < y1 + k →
        img.pix x y = pack_RGB 0x00 0x00 0x00) 0 dilate_n _ s hn
  · exact ⟨rfl, rfl, fun x y _ _ _ _ => hb x y (by omega) (by omega) (by omega) (by omega)⟩
  · intro k img hk0 hk ⟨iw, ih, ip⟩
    obtain ⟨img', e1, ew, eh, -, ep⟩ := dilation_pass_grow img
    refine ⟨img', e1, by omega, by omega, fun p q a1 a2 a3 a4 => ?_⟩
    obtain ⟨x', b1, b2, b3, b4⟩ : ∃ x', x0 - k ≤ x' ∧ x' < x1 + k ∧ x' - 1 ≤ p ∧ p ≤ x' + 1 := by
      by_cases c1 : p < x0 - k
      · exact ⟨x0 - k, by omega, by omega, by omega, by omega⟩
      · by_cases c2 : x1 + k ≤ p
        · exact ⟨x1 + k - 1, by omega, by omega, by omega, by omega⟩
        · exact ⟨p, by omega, by omega, by omega, by omega⟩
    obtain ⟨y', d1, d2, d3, d4⟩ : ∃ y', y0 - k ≤ y' ∧ y' < y1 + k ∧ y' - 1 ≤ q ∧ q ≤ y' + 1 := by
      by_cases c1 : q < y0 - k
      · exact ⟨y0 - k, by omega, by omega, by omega, by omega⟩
      · by_cases c2 : y1 + k ≤ q
        · exact ⟨y1 + k - 1, by omega, by omega, by omega, by omega⟩
        · exact ⟨q, by omega, by omega, by omega, by omega⟩
    refine ep x' y' (by omega) (by omega) (by omega) (by omega) ?_ p q b3 b4 d3 d4
    rw [ip x' y' b1 b2 d1 d2]
    exact gray_black

/-- C15: for every `n >= 0` and every surface that is pure white except for a solid pure
black axis-aligned square of side `s > 2n`, `erosion(surface, n)` followed by
`dilation(surface, n)` succeeds, keeps the size, and leaves pure black every pixel of the
original square, hence every pixel that lay strictly inside it. -/
theorem opening_restores_square (img : Surface) (n a b s : Int) (hn : 0 ≤ n) (hs : 2 * n < s)
    (ha : 0 ≤ a) (haw : a + s ≤ img.w) (hb : 0 ≤ b) (hbh : b + s ≤ img.h)
    (hsq : ∀ x y, 0 ≤ x → x < (img.w : Int) → 0 ≤ y → y < (img.h : Int) →
      img.pix x y = if a ≤ x ∧ x < a + s ∧ b ≤ y ∧ y < b + s then pack_RGB 0x00 0x00 0x00
        else pack_RGB 0xFF 0xFF 0xFF) :
    ∃ e d, erosion img n = some e ∧ dilation e n = some d ∧ d.w = img.w ∧ d.h = img.h ∧
      ∀ x y, a ≤ x → x < a + s → b ≤ y → y < b + s →
        get_pixel d x y = some (pack_RGB 0x00 0x00 0x00) := by
  obtain ⟨e, h1, ew, eh, ep⟩ := erosion_core img n a (a + s) b (b + s) hn
    (fun x y a1 a2 a3 a4 => by
      rw [hsq x y (by omega) (by omega) (by omega) (by omega), if_pos ⟨a1, a2, a3, a4⟩])
  obtain ⟨d, h2, dw, dh, dp⟩ := dilation_core e n (a + n) (a + s - n) (b + n) (b + s - n) hn
    (by omega) (by omega) (by omega) (by omega) (by omega) (by omega) ep
  refine ⟨e, d, h1, h2, by omega, by omega, fun x y a1 a2 a3 a4 => ?_⟩
  rw [get_pixel_of_inRange d x y (by omega) (by omega) (by omega) (by omega),
    dp x y (by omega) (by omega) (by omega) (by omega)]

theorem opening_restores_square_witness :
    (0 : Int) ≤ 2 ∧ (2 : Int) * 2 < 5 ∧
      ∃ e d, erosion black_square_surface 2 = some e ∧ dilation e 2 = some d ∧
        d.w = black_square_surface.w ∧ d.h = black_square_surface.h ∧
        ∀ x y, (1 : Int) ≤ x → x < 1 + 5 → (1 : Int) ≤ y → y < 1 + 5 →
          get_pixel d x y = some (pack_RGB 0x00 0x00 0x00) :=
  ⟨by decide, by decide,
    opening_restores_square black_square_surface 2 1 1 5 (by decide) (by decide) (by decide)
      (by decide) (by decide) (by decide) (fun x y _ _ _ _ => by
        show (if 1 ≤ x ∧ x < 6 ∧ 1 ≤ y ∧ y < 6 then pack_RGB 0 0 0 else pack_RGB 255 255 255) =
          (if 1 ≤ x ∧ x < 1 + 5 ∧ 1 ≤ y ∧ y < 1 + 5 then pack_RGB 0 0 0
            else pack_RGB 255 255 255)
        rfl)⟩

/-! ### Erosion as an iterated map, and the perimeter -/

theorem erosion_pass_eq_step (s : Surface) : erosion_pass s = some (erosion_step s) := by
  obtain ⟨s', h1, hw, hh, hp⟩ := erosion_pass_spec s
  rw [h1]
  congr 1
  cases s' with
  | mk w h pix =>
    simp only at hw hh hp
    subst hw hh
    unfold erosion_step
    congr 1
    funext a b
    exact hp a b

theorem erosion_eq_iterate (s : Surface) (erode_n : Int) :
    erosion s erode_n = some (Nat.iterate erosion_step erode_n.toNat s) := by
  unfold erosion
  by_cases hn : erode_n ≤ 0
  · rw [forRange_empty _ _ _ _ hn]
    have e : erode_n.toNat = 0 := by omega
    rw [e]
    rfl
  · obtain ⟨r, h1, h2⟩ := forRange_inv_idx
      (fun k (img : Surface) => img = Nat.iterate erosion_step k.toNat s) 0 erode_n
      (fun _ image => erosion_pass image) s (by omega) rfl
      (by
        intro k img hk0 hk hi
        refine ⟨erosion_step img, erosion_pass_eq_step img, ?_⟩
        have e : (k + 1).toNat = k.toNat + 1 := by omega
        beta_reduce
        rw [e, Function.iterate_succ_apply', ← hi])
    rw [h1, h2]

theorem window_nonblack_iff (img : Surface) (x y : Int) :
    window_nonblack img x y = true ↔
      ∃ u v : Int, -1 ≤ u ∧ u ≤ 1 ∧ -1 ≤ v ∧ v ≤ 1 ∧ RGB_to_gray (img.pix (x + u) (y + v)) ≠ 0 := by
  constructor
  · intro h
    by_contra hcon
    push_neg at hcon
    have a1 := hcon (-1) (-1) (by omega) (by omega) (by omega) (by omega)
    have a2 := hcon (-1) 0 (by omega) (by omega) (by omega) (by omega)
    have a3 := hcon (-1) 1 (by omega) (by omega) (by omega) (by omega)
    have a4 := hcon 0 (-1) (by omega) (by omega) (by omega) (by omega)
    have a5 := hcon 0 0 (by omega) (by omega) (by omega) (by omega)
    have a6 := hcon 0 1 (by omega) (by omega) (by omega) (by omega)
    have a7 := hcon 1 (-1) (by omega) (by omega) (by omega) (by omega)
    have a8 := hcon 1 0 (by omega) (by omega) (by omega) (by omega)
    have a9 := hcon 1 1 (by omega) (by omega) (by omega) (by omega)
    unfold window_nonblack column_nonblack at h
    rw [a1, a2, a3, a4, a5, a6, a7, a8, a9] at h
    exact Bool.noConfusion h
  · rintro ⟨u, v, hu0, hu1, hv0, hv1, h⟩
    have hu : u = -1 ∨ u = 0 ∨ u = 1 := by omega
    have hv : v = -1 ∨ v = 0 ∨ v = 1 := by omega
    have hb : (RGB_to_gray (img.pix (x + u) (y + v)) != 0) = true := by simpa using h
    unfold window_nonblack column_nonblack
    rcases hu with rfl | rfl | rfl <;> rcases hv with rfl | rfl | rfl <;> rw [hb] <;>
      simp only [Bool.true_or, Bool.or_true]

/-- C23: for every surface and every `n`, `erosion(surface, n)` succeeds and returns
`max(n, 0)` successive applications of the one-pass map `erosion_step`; that map turns an
interior pixel pure white exactly when one of the nine pixels of its 3x3 window in the
pre-pass surface has a nonzero gray value, and keeps every other pixel. -/
theorem erosion_is_iterated_step (s : Surface) (erode_n : Int) :
    erosion s erode_n = some (Nat.iterate erosion_step (max erode_n 0).toNat s) ∧
    ∀ img : Surface, (erosion_step img).w = img.w ∧ (erosion_step img).h = img.h ∧
      ∀ x y : Int,
        (((1 ≤ x ∧ x < (img.w : Int) - 1 ∧ 1 ≤ y ∧ y < (img.h : Int) - 1) ∧
          ∃ u v : Int, -1 ≤ u ∧ u ≤ 1 ∧ -1 ≤ v ∧ v ≤ 1 ∧
            RGB_to_gray (img.pix (x + u) (y + v)) ≠ 0) →
          (erosion_step img).pix x y = pack_RGB 0xFF 0xFF 0xFF) ∧
        (¬ ((1 ≤ x ∧ x < (img.w : Int) - 1 ∧ 1 ≤ y ∧ y < (img.h : Int) - 1) ∧
          ∃ u v : Int, -1 ≤ u ∧ u ≤ 1 ∧ -1 ≤ v ∧ v ≤ 1 ∧
            RGB_to_gray (img.pix (x + u) (y + v)) ≠ 0) →
          (erosion_step img).pix x y = img.pix x y) := by
  refine ⟨?_, fun img => ⟨rfl, rfl, fun x y => ⟨fun h => ?_, fun h => ?_⟩⟩⟩
  · rw [erosion_eq_iterate]
    have e : (max erode_n 0).toNat = erode_n.toNat := by omega
    rw [e]
  · rw [← window_nonblack_iff] at h
    simp only [erosion_step, if_pos h]
  · rw [← window_nonblack_iff] at h
    simp only [erosion_step, if_neg h]

theorem gray_diff_ne_zero (a b : Nat) (ha : a < 256) (hb : b < 256) :
    ((a + 2 ^ 32 - b) % 2 ^ 32 ≠ 0) ↔ a ≠ b := by
  omega

/-- The count loops of `perimiter` on a surface and its copy eroded once. -/
theorem perimiter_count (s : Surface) :
    forRange 1 (((erosion_step s).w : Int) - 1) (fun x perimeter_sum =>
      forRange 1 (((erosion_step s).h : Int) - 1) (fun y perimeter_sum => do
        let pixel_src ← get_pixel s x y
        let pixel_src_eroded ← get_pixel (erosion_step s) x y
        let pixel_src_gray := RGB_to_gray pixel_src
        let pixel_src_gray_eroded := RGB_to_gray pixel_src_eroded
        if (pixel_src_gray + 2 ^ 32 - pixel_src_gray_eroded) % 2 ^ 32 ≠ 0 then
          pure (perimeter_sum + 1)
        else pure perimeter_sum) perimeter_sum) 0 =
      some (sum_range 1 ((s.w : Int) - 1) (fun x =>
        sum_range 1 ((s.h : Int) - 1) (fun y =>
          if RGB_to_gray (s.pix x y) ≠ 255 ∧ window_nonblack s x y = true then 1 else 0))) := by
  have ew : (erosion_step s).w = s.w := rfl
  have eh : (erosion_step s).h = s.h := rfl
  rw [ew, eh]
  rw [forRange_sum 1 ((s.w : Int) - 1) _ (fun x =>
      sum_range 1 ((s.h : Int) - 1) (fun y =>
        if RGB_to_gray (s.pix x y) ≠ 255 ∧ window_nonblack s x y = true then 1 else 0)) _ 0]
  · simp
  · intro x acc hx0 hx
    apply forRange_sum
    intro y acc2 hy0 hy
    rw [get_pixel_of_inRange s x y (by omega) (by omega) (by omega) (by omega),
      get_pixel_of_inRange (erosion_step s) x y (by omega) (by rw [ew]; omega) (by omega)
        (by rw [eh]; omega)]
    simp only [Option.bind_eq_bind, Option.some_bind]
    have hlt := RGB_to_gray_lt (s.pix x y)
    by_cases hn : window_nonblack s x y = true
    · have e : (erosion_step s).pix x y = pack_RGB 0xFF 0xFF 0xFF := by
        simp only [erosion_step, if_pos (And.intro (And.intro hx0 (And.intro hx
          (And.intro hy0 hy))) hn)]
      rw [e, gray_white]
      by_cases hg : RGB_to_gray (s.pix x y) = 255
      · rw [if_neg (by rw [hg]; decide), if_neg (fun c => c.1 hg)]
        rfl
      · rw [if_pos ((gray_diff_ne_zero _ _ hlt (by decide)).2 hg), if_pos ⟨hg, hn⟩]
        rfl
    · have e : (erosion_step s).pix x y = s.pix x y := by
        simp only [erosion_step, if_neg (fun c : (1 ≤ x ∧ x < (s.w : Int) - 1 ∧ 1 ≤ y ∧
          y < (s.h : Int) - 1) ∧ window_nonblack s x y = true => hn c.2)]
      rw [e, if_neg (by rw [gray_diff_ne_zero _ _ hlt hlt]; exact fun c => c rfl),
        if_neg (fun c => hn c.2)]
      rfl

/-- C25: `perimiter` returns the number of interior pixels whose gray value is not 255 and
whose 3x3 window holds a pixel of nonzero gray value; when it returns, the surface it was
given is as it was (the writes of `erosion` went to the copy). -/
theorem perimiter_counts_boundary (s : Surface) :
    perimiter s = some (sum_range 1 ((s.w : Int) - 1) (fun x =>
        sum_range 1 ((s.h : Int) - 1) (fun y =>
          if RGB_to_gray (s.pix x y) ≠ 255 ∧ window_nonblack s x y = true then 1 else 0))) ∧
    perimiter_state s = some (s, erosion_step s,
      sum_range 1 ((s.w : Int) - 1) (fun x =>
        sum_range 1 ((s.h : Int) - 1) (fun y =>
          if RGB_to_gray (s.pix x y) ≠ 255 ∧ window_nonblack s x y = true then 1 else 0))) := by
  constructor
  · unfold perimiter
    rw [erosion_eq_iterate]
    have e : (1 : Int).toNat = 1 := rfl
    simp only [e, Function.iterate_succ, Function.iterate_zero, Function.comp_apply, id_eq,
      Option.bind_eq_bind, Option.some_bind]
    exact perimiter_count s
  · have e : (1 : Int).toNat = 1 := rfl
    simp only [perimiter_state, erosion_eq_iterate, e, Function.iterate_succ,
      Function.iterate_zero, Function.comp_apply, id_eq, Option.bind_eq_bind, Option.some_bind]
    exact congrArg (fun o : Option Nat =>
      o.bind fun perimeter_sum => some (s, erosion_step s, perimeter_sum)) (perimiter_count s)

/-! ### One pass of dilation in any visiting order -/

/-- The two neighborhood loops of `dilation` at an interior pixel write the value at the nine
window pixels and nowhere else. -/
theorem paint_window_eq (im : Surface) (x y : Int) (pixel_dst : Nat) (hx1 : 1 ≤ x)
    (hx : x < (im.w : Int) - 1) (hy1 : 1 ≤ y) (hy : y < (im.h : Int) - 1) :
    ∃ im', forRange (-1) 2 (fun u image =>
          forRange (-1) 2 (fun v image => put_pixel image (x + u) (y + v) pixel_dst) image)
          im = some im' ∧ im'.w = im.w ∧ im'.h = im.h ∧
      ∀ p q, im'.pix p q =
        if x - 1 ≤ p ∧ p ≤ x + 1 ∧ y - 1 ≤ q ∧ q ≤ y + 1 then pixel_dst else im.pix p q := by
  obtain ⟨im', h1, hw, hh, hp⟩ := forRange_inv_idx (fun U (img : Surface) =>
      img.w = im.w ∧ img.h = im.h ∧
      ∀ p q, img.pix p q =
        if x - 1 ≤ p ∧ p < x + U ∧ y - 1 ≤ q ∧ q ≤ y + 1 then pixel_dst else im.pix p q)
    (-1) 2 (fun u image =>
      forRange (-1) 2 (fun v image => put_pixel image (x + u) (y + v) pixel_dst) image) im
    (by omega) ⟨rfl, rfl, fun p q => by rw [if_neg (by omega)]⟩
    (by
      intro u img hu0 hu ⟨iw, ih, ip⟩
      obtain ⟨img', g1, gw, gh, gp⟩ := forRange_inv_idx (fun V (i2 : Surface) =>
          i2.w = im.w ∧ i2.h = im.h ∧
          ∀ p q, i2.pix p q =
            if (x - 1 ≤ p ∧ p < x + u ∧ y - 1 ≤ q ∧ q ≤ y + 1) ∨
              (p = x + u ∧ y - 1 ≤ q ∧ q < y + V) then pixel_dst else im.pix p q)
        (-1) 2 (fun v image => put_pixel image (x + u) (y + v) pixel_dst) img (by omega)
        ⟨iw, ih, fun p q => by
          rw [ip p q]
          by_cases c : x - 1 ≤ p ∧ p < x + u ∧ y - 1 ≤ q ∧ q ≤ y + 1
          · rw [if_pos c, if_pos (Or.inl c)]
          · rw [if_neg c, if_neg (by omega)]⟩
        (by
          intro v i2 hv0 hv ⟨jw, jh, jp⟩
          beta_reduce
          rw [put_pixel_of_inRange i2 (x + u) (y + v) _ (by omega) (by omega) (by omega)
            (by omega)]
          refine ⟨_, rfl, jw, jh, fun p q => ?_⟩
          simp only
          by_cases d : p = x + u ∧ q = y + v
          · rw [if_pos d, if_pos (by omega)]
          · rw [if_neg d, jp p q]
            by_cases c : (x - 1 ≤ p ∧ p < x + u ∧ y - 1 ≤ q ∧ q ≤ y + 1) ∨
                (p = x + u ∧ y - 1 ≤ q ∧ q < y + v)
            · rw [if_pos c, if_pos (by omega)]
            · rw [if_neg c, if_neg (by omega)])
      refine ⟨img', g1, gw, gh, fun p q => ?_⟩
      rw [gp p q]
      by_cases c : (x - 1 ≤ p ∧ p < x + u ∧ y - 1 ≤ q ∧ q ≤ y + 1) ∨
          (p = x + u ∧ y - 1 ≤ q ∧ q < y + 2)
      · rw [if_pos c, if_pos (by omega)]
      · rw [if_neg c, if_neg (by omega)])
  refine ⟨im', h1, hw, hh, fun p q => ?_⟩
  rw [hp p q]
  by_cases c : x - 1 ≤ p ∧ p ≤ x + 1 ∧ y - 1 ≤ q ∧ q ≤ y + 1
  · rw [if_pos c, if_pos (by omega)]
  · rw [if_neg c, if_neg (by omega)]

/-- The loop body of `dilation` at an interior pixel `(x, y)`. -/
theorem dilation_at_spec (s img : Surface) (x y : Int) (hx1 : 1 ≤ x)
    (hx : x < (s.w : Int) - 1) (hy1 : 1 ≤ y) (hy : y < (s.h : Int) - 1)
    (iw : img.w = s.w) (ih : img.h = s.h) :
    ∃ img', dilation_at s x y img = some img' ∧ img'.w = s.w ∧ img'.h = s.h ∧
      ∀ p q, img'.pix p q =
        if RGB_to_gray (s.pix x y) = 0 ∧ x - 1 ≤ p ∧ p ≤ x + 1 ∧ y - 1 ≤ q ∧ q ≤ y + 1
        then pack_RGB 0x00 0x00 0x00 else img.pix p q := by
  unfold dilation_at
  rw [get_pixel_of_inRange s x y (by omega) (by omega) (by omega) (by omega)]
  simp only [Option.bind_eq_bind, Option.some_bind]
  by_cases g : RGB_to_gray (s.pix x y) = 0
  · rw [if_pos g]
    obtain ⟨im', e1, ew, eh, ep⟩ := paint_window_eq img x y (pack_RGB 0x00 0x00 0x00) hx1
      (by omega) hy1 (by omega)
    refine ⟨im', e1, by omega, by omega, fun p q => ?_⟩
    rw [ep p q]
    by_cases c : x - 1 ≤ p ∧ p ≤ x + 1 ∧ y - 1 ≤ q ∧ q ≤ y + 1
    · rw [if_pos c, if_pos ⟨g, c⟩]
    · rw [if_neg c, if_neg (fun h => c h.2)]
  · rw [if_neg g]
    exact ⟨img, rfl, iw, ih, fun p q => by rw [if_neg (fun h => g h.1)]⟩

/-- Visiting a list of interior pixels: the pixels near a visited pixel that is black in the
snapshot are black, the others are as in the snapshot. -/
theorem dilation_fold_spec (s : Surface) (l : List (Int × Int))
    (hl : ∀ c ∈ l, 1 ≤ c.1 ∧ c.1 < (s.w : Int) - 1 ∧ 1 ≤ c.2 ∧ c.2 < (s.h : Int) - 1) :
    ∀ (done : List (Int × Int)) (img : Surface), img.w = s.w → img.h = s.h →
      (∀ p q, (∃ c ∈ done, RGB_to_gray (s.pix c.1 c.2) = 0 ∧
          c.1 - 1 ≤ p ∧ p ≤ c.1 + 1 ∧ c.2 - 1 ≤ q ∧ q ≤ c.2 + 1) →
        img.pix p q = pack_RGB 0x00 0x00 0x00) →
      (∀ p q, (¬ ∃ c ∈ done, RGB_to_gray (s.pix c.1 c.2) = 0 ∧
          c.1 - 1 ≤ p ∧ p ≤ c.1 + 1 ∧ c.2 - 1 ≤ q ∧ q ≤ c.2 + 1) →
        img.pix p q = s.pix p q) →
      ∃ img', l.foldlM (fun image c => dilation_at s c.1 c.2 image) img = some img' ∧
        img'.w = s.w ∧ img'.h = s.h ∧
        (∀ p q, (∃ c ∈ done ++ l, RGB_to_gray (s.pix c.1 c.2) = 0 ∧
            c.1 - 1 ≤ p ∧ p ≤ c.1 + 1 ∧ c.2 - 1 ≤ q ∧ q ≤ c.2 + 1) →
          img'.pix p q = pack_RGB 0x00 0x00 0x00) ∧
        (∀ p q, (¬ ∃ c ∈ done ++ l, RGB_to_gray (s.pix c.1 c.2) = 0 ∧
            c.1 - 1 ≤ p ∧ p ≤ c.1 + 1 ∧ c.2 - 1 ≤ q ∧ q ≤ c.2 + 1) →
          img'.pix p q = s.pix p q) := by
  induction l with
  | nil =>
    intro done img iw ih hB hS
    refine ⟨img, rfl, iw, ih, ?_, ?_⟩
    · intro p q h
      rw [List.append_nil] at h
      exact hB p q h
    · intro p q h
      rw [List.append_nil] at h
      exact hS p q h
  | cons a l ihl =>
    intro done img iw ih hB hS
    have ha := hl a (List.mem_cons_self a l)
    obtain ⟨img1, e1, w1, h1, p1⟩ := dilation_at_spec s img a.1 a.2 ha.1 ha.2.1 ha.2.2.1
      ha.2.2.2 iw ih
    obtain ⟨img', e2, w2, h2, B2, S2⟩ := ihl (fun c hc => hl c (List.mem_cons_of_mem a hc))
      (done ++ [a]) img1 w1 h1
      (by
        intro p q ⟨c, hc, hg, hn⟩
        rw [p1 p q]
        by_cases k : RGB_to_gray (s.pix a.1 a.2) = 0 ∧
            a.1 - 1 ≤ p ∧ p ≤ a.1 + 1 ∧ a.2 - 1 ≤ q ∧ q ≤ a.2 + 1
        · rw [if_pos k]
        · rw [if_neg k]
          rcases List.mem_append.1 hc with hc | hc
          · exact hB p q ⟨c, hc, hg, hn⟩
          · rw [List.mem_singleton] at hc
            subst hc
            exact absurd ⟨hg, hn⟩ k)
      (by
        intro p q hno
        rw [p1 p q, if_neg (fun k => hno ⟨a, List.mem_append.2 (Or.inr (List.mem_singleton.2 rfl)),
          k⟩)]
        exact hS p q (fun ⟨c, hc, hk⟩ => hno ⟨c, List.mem_append.2 (Or.inl hc), hk⟩))
    refine ⟨img', ?_, w2, h2, ?_, ?_⟩
    · rw [List.foldlM_cons, e1]
      exact e2
    · intro p q h
      rw [List.append_assoc, List.singleton_append] at B2
      exact B2 p q h
    · intro p q h
      rw [List.append_assoc, List.singleton_append] at S2
      exact S2 p q h

theorem black_interior_iff (img : Surface) (x y : Int) :
    black_interior img x y = true ↔
      (1 ≤ x ∧ x < (img.w : Int) - 1 ∧ 1 ≤ y ∧ y < (img.h : Int) - 1) ∧
        RGB_to_gray (img.pix x y) = 0 := by
  simp [black_interior]

theorem near_black_interior_iff (img : Surface) (p q : Int) :
    near_black_interior img p q = true ↔
      ∃ x y : Int, (1 ≤ x ∧ x < (img.w : Int) - 1 ∧ 1 ≤ y ∧ y < (img.h : Int) - 1) ∧
        RGB_to_gray (img.pix x y) = 0 ∧ x - 1 ≤ p ∧ p ≤ x + 1 ∧ y - 1 ≤ q ∧ q ≤ y + 1 := by
  constructor
  · intro h
    unfold near_black_interior at h
    simp only [Bool.or_eq_true, black_interior_iff] at h
    rcases h with (((((((h | h) | h) | h) | h) | h) | h) | h) | h
    · exact ⟨_, _, h.1, h.2, by omega, by omega, by omega, by omega⟩
    · exact ⟨_, _, h.1, h.2, by omega, by omega, by omega, by omega⟩
    · exact ⟨_, _, h.1, h.2, by omega, by omega, by omega, by omega⟩
    · exact ⟨_, _, h.1, h.2, by omega, by omega, by omega, by omega⟩
    · exact ⟨_, _, h.1, h.2, by omega, by omega, by omega, by omega⟩
    · exact ⟨_, _, h.1, h.2, by omega, by omega, by omega, by omega⟩
    · exact ⟨_, _, h.1, h.2, by omega, by omega, by omega, by omega⟩
    · exact ⟨_, _, h.1, h.2, by omega, by omega, by omega, by omega⟩
    · exact ⟨_, _, h.1, h.2, by omega, by omega, by omega, by omega⟩
  · rintro ⟨x, y, hin, hg, h1, h2, h3, h4⟩
    have hb : black_interior img x y = true := (black_interior_iff img x y).2 ⟨hin, hg⟩
    have hx : x = p + -1 ∨ x = p + 0 ∨ x = p + 1 := by omega
    have hy : y = q + -1 ∨ y = q + 0 ∨ y = q + 1 := by omega
    unfold near_black_interior
    rcases hx with rfl | rfl | rfl <;> rcases hy with rfl | rfl | rfl <;> rw [hb] <;>
      simp only [Bool.true_or, Bool.or_true]

/-- A surface of the size of `s` whose pixels are black near a black interior pixel of `s`
and as in `s` elsewhere is `dilation_step s`. -/
theorem eq_dilation_step (s img : Surface) (iw : img.w = s.w) (ih : img.h = s.h)
    (hB : ∀ p q, (∃ x y : Int, (1 ≤ x ∧ x < (s.w : Int) - 1 ∧ 1 ≤ y ∧ y < (s.h : Int) - 1) ∧
        RGB_to_gray (s.pix x y) = 0 ∧ x - 1 ≤ p ∧ p ≤ x + 1 ∧ y - 1 ≤ q ∧ q ≤ y + 1) →
      img.pix p q = pack_RGB 0x00 0x00 0x00)
    (hS : ∀ p q, (¬ ∃ x y : Int, (1 ≤ x ∧ x < (s.w : Int) - 1 ∧ 1 ≤ y ∧ y < (s.h : Int) - 1) ∧
        RGB_to_gray (s.pix x y) = 0 ∧ x - 1 ≤ p ∧ p ≤ x + 1 ∧ y - 1 ≤ q ∧ q ≤ y + 1) →
      img.pix p q = s.pix p q) :
    img = dilation_step s := by
  cases img with
  | mk w h pix =>
    simp only at iw ih hB hS
    subst iw ih
    unfold dilation_step
    congr 1
    funext p q
    by_cases c : near_black_interior s p q = true
    · rw [if_pos c]
      exact hB p q ((near_black_interior_iff s p q).1 c)
    · rw [if_neg c]
      exact hS p q (fun h => c ((near_black_interior_iff s p q).2 h))

/-- Visiting the interior pixels in any order, each at least once, yields
`dilation_step`. -/
theorem dilation_visit_eq_step (s : Surface) (order : List (Int × Int))
    (hin : ∀ c ∈ order, 1 ≤ c.1 ∧ c.1 < (s.w : Int) - 1 ∧ 1 ≤ c.2 ∧ c.2 < (s.h : Int) - 1)
    (hall : ∀ x y : Int, 1 ≤ x → x < (s.w : Int) - 1 → 1 ≤ y → y < (s.h : Int) - 1 →
      (x, y) ∈ order) :
    dilation_visit s order = some (dilation_step s) := by
  obtain ⟨img', e, w', h', B, S⟩ := dilation_fold_spec s order hin [] s rfl rfl
    (fun p q ⟨c, hc, _⟩ => absurd hc (List.not_mem_nil c)) (fun _ _ _ => rfl)
  rw [List.nil_append] at B S
  unfold dilation_visit
  simp only
  rw [e]
  congr 1
  apply eq_dilation_step s img' w' h'
  · rintro p q ⟨x, y, hi, hg, hn⟩
    exact B p q ⟨(x, y), hall x y hi.1 hi.2.1 hi.2.2.1 hi.2.2.2, hg, hn⟩
  · intro p q hno
    exact S p q (fun ⟨c, hc, hg, hn⟩ => hno ⟨c.1, c.2, hin c hc, hg, hn⟩)

theorem foldlM_flatMap {α β σ : Type} (l : List α) (f : α → List β) (g : σ → β → Option σ)
    (init : σ) :
    (l.flatMap f).foldlM g init = l.foldlM (fun st a => (f a).foldlM g st) init := by
  induction l generalizing init with
  | nil => rfl
  | cons a l ih =>
    rw [List.flatMap_cons, List.foldlM_append, List.foldlM_cons]
    cases h : (f a).foldlM g init with
    | none => rfl
    | some st => exact ih st

/-- The loops of one pass of `dilation` visit `interior_cells` in order. -/
theorem dilation_pass_eq_visit (s : Surface) :
    dilation_pass s = dilation_visit s (interior_cells s) := by
  unfold dilation_pass dilation_visit interior_cells forRange
  simp only [foldlM_flatMap, List.foldlM_map]
  rfl

theorem mem_interior_cells (s : Surface) (c : Int × Int) :
    c ∈ interior_cells s ↔
      1 ≤ c.1 ∧ c.1 < (s.w : Int) - 1 ∧ 1 ≤ c.2 ∧ c.2 < (s.h : Int) - 1 := by
  unfold interior_cells
  simp only [List.mem_flatMap, List.mem_map, List.mem_range]
  constructor
  · rintro ⟨i, hi, j, hj, rfl⟩
    simp only
    omega
  · intro h
    refine ⟨(c.1 - 1).toNat, by omega, (c.2 - 1).toNat, by omega, ?_⟩
    apply Prod.ext
    · simp only; omega
    · simp only; omega

theorem dilation_one (s : Surface) : dilation s 1 = dilation_pass s := by
  unfold dilation forRange
  have e : ((1 : Int) - 0).toNat = 1 := rfl
  rw [e]
  simp [List.range_succ]

/-- C24: one pass of `dilation` succeeds and returns `dilation_step`: a pixel is pure black
afterwards when an interior pixel at distance at most 1 in both coordinates has gray value
zero in the pre-pass surface, and otherwise has its pre-pass value. Visiting the interior
pixels in any other order, each at least once, gives the same surface. -/
theorem dilation_order_free (s : Surface) :
    dilation s 1 = some (dilation_step s) ∧
    (∀ order : List (Int × Int),
      (∀ c ∈ order, 1 ≤ c.1 ∧ c.1 < (s.w : Int) - 1 ∧ 1 ≤ c.2 ∧ c.2 < (s.h : Int) - 1) →
      (∀ x y : Int, 1 ≤ x → x < (s.w : Int) - 1 → 1 ≤ y → y < (s.h : Int) - 1 →
        (x, y) ∈ order) →
      dilation_visit s order = dilation s 1) ∧
    (dilation_step s).w = s.w ∧ (dilation_step s).h = s.h ∧
    ∀ px py : Int,
      ((∃ x y : Int, (1 ≤ x ∧ x < (s.w : Int) - 1 ∧ 1 ≤ y ∧ y < (s.h : Int) - 1) ∧
          RGB_to_gray (s.pix x y) = 0 ∧ x - 1 ≤ px ∧ px ≤ x + 1 ∧ y - 1 ≤ py ∧ py ≤ y + 1) →
        (dilation_step s).pix px py = pack_RGB 0x00 0x00 0x00) ∧
      ((¬ ∃ x y : Int, (1 ≤ x ∧ x < (s.w : Int) - 1 ∧ 1 ≤ y ∧ y < (s.h : Int) - 1) ∧
          RGB_to_gray (s.pix x y) = 0 ∧ x - 1 ≤ px ∧ px ≤ x + 1 ∧ y - 1 ≤ py ∧ py ≤ y + 1) →
        (dilation_step s).pix px py = s.pix px py) := by
  have hcode : dilation s 1 = some (dilation_step s) := by
    rw [dilation_one, dilation_pass_eq_visit]
    exact dilation_visit_eq_step s (interior_cells s)
      (fun c hc => (mem_interior_cells s c).1 hc)
      (fun x y h1 h2 h3 h4 => (mem_interior_cells s (x, y)).2 ⟨h1, h2, h3, h4⟩)
  refine ⟨hcode, fun order hin hall => ?_, rfl, rfl, fun px py => ⟨fun h => ?_, fun h => ?_⟩⟩
  · rw [hcode]
    exact dilation_visit_eq_step s order hin hall
  · rw [← near_black_interior_iff] at h
    simp only [dilation_step, if_pos h]
  · rw [← near_black_interior_iff] at h
    simp only [dilation_step, if_neg h]

/-! ### The Sobel magnitude -/

/-- The pixel written by `sobel_gradient` at an interior pixel: the three channels hold the
low 8 bits of the integer square root of `Gx^2 + Gy^2`, for the exact weighted sums `Gx`,
`Gy` (the `int` sums of the code never wrap). -/
theorem sobel_gradient_spec (s : Surface) :
    ∃ s', sobel_gradient s = some s' ∧ s'.w = s.w ∧ s'.h = s.h ∧
      ∀ x y, 1 ≤ x → x < (s.w : Int) - 1 → 1 ≤ y → y < (s.h : Int) - 1 →
        s'.pix x y = pack_RGB
          (Nat.sqrt ((sobel_sum_x s x y).natAbs ^ 2 + (sobel_sum_y s x y).natAbs ^ 2) % 256)
          (Nat.sqrt ((sobel_sum_x s x y).natAbs ^ 2 + (sobel_sum_y s x y).natAbs ^ 2) % 256)
          (Nat.sqrt ((sobel_sum_x s x y).natAbs ^ 2 + (sobel_sum_y s x y).natAbs ^ 2) % 256) := by
  obtain ⟨s1, h1, w1, hh1, p1⟩ := window_transform_spec s
    (fun u v pixel_src (acc : Int × Int) =>
        let gray_value := RGB_to_gray pixel_src
        (toInt32 (acc.1 + sobel_mask_x.getD ((u + 1) + 3 * (v + 1)).toNat 0 * gray_value),
          toInt32 (acc.2 + sobel_mask_y.getD ((u + 1) + 3 * (v + 1)).toNat 0 * gray_value)))
    ((0 : Int), (0 : Int))
    (fun sums => pack_RGB (toUint8 (sobel_magnitude sums.1 sums.2))
      (toUint8 (sobel_magnitude sums.1 sums.2)) (toUint8 (sobel_magnitude sums.1 sums.2)))
  refine ⟨s1, h1, w1, hh1, fun x y hx1 hx hy1 hy => ?_⟩
  have i0 : ((-1 : Int) + 1 + 3 * (-1 + 1)).toNat = 0 := by decide
  have i1 : ((-1 : Int) + 1 + 3 * (0 + 1)).toNat = 3 := by decide
  have i2 : ((-1 : Int) + 1 + 3 * (1 + 1)).toNat = 6 := by decide
  have i3 : ((0 : Int) + 1 + 3 * (-1 + 1)).toNat = 1 := by decide
  have i4 : ((0 : Int) + 1 + 3 * (0 + 1)).toNat = 4 := by decide
  have i5 : ((0 : Int) + 1 + 3 * (1 + 1)).toNat = 7 := by decide
  have i6 : ((1 : Int) + 1 + 3 * (-1 + 1)).toNat = 2 := by decide
  have i7 : ((1 : Int) + 1 + 3 * (0 + 1)).toNat = 5 := by decide
  have i8 : ((1 : Int) + 1 + 3 * (1 + 1)).toNat = 8 := by decide
  rw [p1 x y, if_pos ⟨hx1, hx, hy1, hy⟩]
  unfold window_value sobel_sum_x sobel_sum_y
  simp only [i0, i1, i2, i3, i4, i5, i6, i7, i8, sobel_mask_x, sobel_mask_y,
    List.getD_cons_zero, List.getD_cons_succ]
  have b1 := RGB_to_gray_lt (s.pix (x + -1) (y + -1))
  have b2 := RGB_to_gray_lt (s.pix (x + -1) (y + 0))
  have b3 := RGB_to_gray_lt (s.pix (x + -1) (y + 1))
  have b4 := RGB_to_gray_lt (s.pix (x + 0) (y + -1))
  have b5 := RGB_to_gray_lt (s.pix (x + 0) (y + 0))
  have b6 := RGB_to_gray_lt (s.pix (x + 0) (y + 1))
  have b7 := RGB_to_gray_lt (s.pix (x + 1) (y + -1))
  have b8 := RGB_to_gray_lt (s.pix (x + 1) (y + 0))
  have b9 := RGB_to_gray_lt (s.pix (x + 1) (y + 1))
  generalize RGB_to_gray (s.pix (x + -1) (y + -1)) = g1 at b1 ⊢
  generalize RGB_to_gray (s.pix (x + -1) (y + 0)) = g2 at b2 ⊢
  generalize RGB_to_gray (s.pix (x + -1) (y + 1)) = g3 at b3 ⊢
  generalize RGB_to_gray (s.pix (x + 0) (y + -1)) = g4 at b4 ⊢
  generalize RGB_to_gray (s.pix (x + 0) (y + 0)) = g5 at b5 ⊢
  generalize RGB_to_gray (s.pix (x + 0) (y + 1)) = g6 at b6 ⊢
  generalize RGB_to_gray (s.pix (x + 1) (y + -1)) = g7 at b7 ⊢
  generalize RGB_to_gray (s.pix (x + 1) (y + 0)) = g8 at b8 ⊢
  generalize RGB_to_gray (s.pix (x + 1) (y + 1)) = g9 at b9 ⊢
  have e1 : toInt32 (toInt32 (toInt32 (toInt32 (toInt32 (toInt32 (toInt32 (toInt32
      (toInt32 (0 + -1 * (g1 : Int)) + -2 * (g2 : Int)) + -1 * (g3 : Int)) + 0 * (g4 : Int))
      + 0 * (g5 : Int)) + 0 * (g6 : Int)) + 1 * (g7 : Int)) + 2 * (g8 : Int)) + 1 * (g9 : Int))
      = -1 * (g1 : Int) + 0 * (g4 : Int) + 1 * (g7 : Int) + -2 * (g2 : Int) + 0 * (g5 : Int)
        + 2 * (g8 : Int) + -1 * (g3 : Int) + 0 * (g6 : Int) + 1 * (g9 : Int) := by
    simp (disch := omega) only [toInt32_small]
    omega
  have e2 : toInt32 (toInt32 (toInt32 (toInt32 (toInt32 (toInt32 (toInt32 (toInt32
      (toInt32 (0 + -1 * (g1 : Int)) + 0 * (g2 : Int)) + 1 * (g3 : Int)) + -2 * (g4 : Int))
      + 0 * (g5 : Int)) + 2 * (g6 : Int)) + -1 * (g7 : Int)) + 0 * (g8 : Int)) + 1 * (g9 : Int))
      = -1 * (g1 : Int) + -2 * (g4 : Int) + -1 * (g7 : Int) + 0 * (g2 : Int) + 0 * (g5 : Int)
        + 0 * (g8 : Int) + 1 * (g3 : Int) + 2 * (g6 : Int) + 1 * (g9 : Int) := by
    simp (disch := omega) only [toInt32_small]
    omega
  rw [e1, e2]
  have hu : ∀ n : Nat, toUint8 (n : Int) = n % 256 := by
    intro n
    unfold toUint8
    omega
  simp only [sobel_magnitude, hu]

/-- C22 (as stated): on the 3x3 black surface whose corner `(2, 2)` is the gray `(2, 2, 2)`,
the window of the centre has `Gx = 2` and `Gy = 2`; `round(sqrt(8))` is 3, while
`sobel_gradient` writes `(2, 2, 2)` at the centre. -/
theorem sobel_round_counterexample :
    sobel_sum_x faint_corner_surface 1 1 = 2 ∧ sobel_sum_y faint_corner_surface 1 1 = 2 ∧
      spec_sobel_magnitude 2 2 = 3 ∧
      ∃ s', sobel_gradient faint_corner_surface = some s' ∧
        get_pixel s' 1 1 = some (pack_RGB 2 2 2) := by
  have hx : sobel_sum_x faint_corner_surface 1 1 = 2 := by decide
  have hy : sobel_sum_y faint_corner_surface 1 1 = 2 := by decide
  refine ⟨hx, hy, by decide, ?_⟩
  obtain ⟨s', h1, hw, hh, hp⟩ := sobel_gradient_spec faint_corner_surface
  refine ⟨s', h1, ?_⟩
  have w3 : s'.w = 3 := hw
  have h3 : s'.h = 3 := hh
  rw [get_pixel_of_inRange s' 1 1 (by omega) (by omega) (by omega) (by omega),
    hp 1 1 (by decide) (by decide) (by decide) (by decide), hx, hy]
  have e : Nat.sqrt (Int.natAbs 2 ^ 2 + Int.natAbs 2 ^ 2) = 2 :=
    (Nat.eq_sqrt.2 ⟨by decide, by decide⟩).symm
  rw [e]

/-- C22 (amended): at every interior pixel `sobel_gradient` writes the pixel whose three
channels all equal `r` reduced to its low 8 bits, where `r` is `sqrt(Gx^2 + Gy^2)` truncated
to an integer (`r^2 <= Gx^2 + Gy^2 < (r + 1)^2`) and `Gx`, `Gy` are the weighted sums of the
gray values of the nine snapshot window pixels under the two kernels. -/
theorem sobel_gradient_truncates (s : Surface) (x y : Int) (hx1 : 1 ≤ x)
    (hx : x < (s.w : Int) - 1) (hy1 : 1 ≤ y) (hy : y < (s.h : Int) - 1) :
    ∃ (s' : Surface) (r : Nat), sobel_gradient s = some s' ∧
      (r : Int) * r ≤ sobel_sum_x s x y ^ 2 + sobel_sum_y s x y ^ 2 ∧
      sobel_sum_x s x y ^ 2 + sobel_sum_y s x y ^ 2 < ((r : Int) + 1) * ((r : Int) + 1) ∧
      get_pixel s' x y = some (pack_RGB (r % 256) (r % 256) (r % 256)) := by
  obtain ⟨s', h1, hw, hh, hp⟩ := sobel_gradient_spec s
  refine ⟨s', Nat.sqrt ((sobel_sum_x s x y).natAbs ^ 2 + (sobel_sum_y s x y).natAbs ^ 2), h1,
    ?_, ?_, ?_⟩
  · have h := Nat.sqrt_le ((sobel_sum_x s x y).natAbs ^ 2 + (sobel_sum_y s x y).natAbs ^ 2)
    have hc : ((Nat.sqrt ((sobel_sum_x s x y).natAbs ^ 2 + (sobel_sum_y s x y).natAbs ^ 2)
        * Nat.sqrt ((sobel_sum_x s x y).natAbs ^ 2 + (sobel_sum_y s x y).natAbs ^ 2) : Nat) : Int)
        ≤ (((sobel_sum_x s x y).natAbs ^ 2 + (sobel_sum_y s x y).natAbs ^ 2 : Nat) : Int) := by
      exact_mod_cast h
    push_cast at hc
    rw [sq_abs, sq_abs] at hc
    exact hc
  · have h := Nat.lt_succ_sqrt
      ((sobel_sum_x s x y).natAbs ^ 2 + (sobel_sum_y s x y).natAbs ^ 2)
    have hc : ((((sobel_sum_x s x y).natAbs ^ 2 + (sobel_sum_y s x y).natAbs ^ 2 : Nat)) : Int)
        < (((Nat.sqrt ((sobel_sum_x s x y).natAbs ^ 2 + (sobel_sum_y s x y).natAbs ^ 2)).succ
          * (Nat.sqrt ((sobel_sum_x s x y).natAbs ^ 2
            + (sobel_sum_y s x y).natAbs ^ 2)).succ : Nat) : Int) := by
      exact_mod_cast h
    push_cast at hc
    rw [sq_abs, sq_abs] at hc
    exact hc
  · rw [get_pixel_of_inRange s' x y (by omega) (by omega) (by omega) (by omega),
      hp x y hx1 hx hy1 hy]

theorem sobel_gradient_truncates_witness :
    ∃ (s' : Surface) (r : Nat), sobel_gradient faint_corner_surface = some s' ∧
      (r : Int) * r ≤ sobel_sum_x faint_corner_surface 1 1 ^ 2
        + sobel_sum_y faint_corner_surface 1 1 ^ 2 ∧
      sobel_sum_x faint_corner_surface 1 1 ^ 2 + sobel_sum_y faint_corner_surface 1 1 ^ 2
        < ((r : Int) + 1) * ((r : Int) + 1) ∧
      get_pixel s' 1 1 = some (pack_RGB (r % 256) (r % 256) (r % 256)) :=
  sobel_gradient_truncates faint_corner_surface 1 1 (by decide) (by decide) (by decide)
    (by decide)

/-! ### Rounding to a double -/

theorem round_half_even_cases (x : ℚ) :
    round_half_even x = ⌊x⌋ ∨ round_half_even x = ⌊x⌋ + 1 := by
  unfold round_half_even
  split_ifs <;> simp

theorem round_half_even_near (x : ℚ) : |(round_half_even x : ℚ) - x| ≤ 1 / 2 := by
  have h1 : (⌊x⌋ : ℚ) ≤ x := Int.floor_le x
  have h2 : x < ⌊x⌋ + 1 := Int.lt_floor_add_one x
  unfold round_half_even
  rw [abs_le]
  split_ifs with a b c
  · constructor <;> linarith
  · push_cast; constructor <;> linarith
  · have e : x - ⌊x⌋ = 1 / 2 := le_antisymm (not_lt.1 b) (not_lt.1 a)
    constructor <;> linarith
  · have e : x - ⌊x⌋ = 1 / 2 := le_antisymm (not_lt.1 b) (not_lt.1 a)
    push_cast; constructor <;> linarith

theorem round_half_even_tie (x : ℚ) (h : |(round_half_even x : ℚ) - x| = 1 / 2) :
    round_half_even x % 2 = 0 := by
  have h1 : (⌊x⌋ : ℚ) ≤ x := Int.floor_le x
  have h2 : x < ⌊x⌋ + 1 := Int.lt_floor_add_one x
  unfold round_half_even at h ⊢
  split_ifs at h ⊢ with a b c
  · rw [abs_of_nonpos (by linarith)] at h
    linarith
  · push_cast at h
    rw [abs_of_nonneg (by linarith)] at h
    linarith
  · exact c
  · omega

theorem round_half_even_int (z : ℤ) : round_half_even (z : ℚ) = z := by
  unfold round_half_even
  rw [Int.floor_intCast, sub_self, if_pos (by norm_num)]

theorem round_half_even_mono_int (x : ℚ) (z : ℤ) (h : (z : ℚ) ≤ x) : z ≤ round_half_even x := by
  have hz : z ≤ ⌊x⌋ := Int.le_floor.2 h
  rcases round_half_even_cases x with e | e <;> rw [e] <;> omega

theorem round_half_even_le_int (x : ℚ) (z : ℤ) (h : x ≤ (z : ℚ)) : round_half_even x ≤ z := by
  by_cases hx : x = z
  · rw [hx, round_half_even_int]
  · have hlt : x < z := lt_of_le_of_ne h hx
    have hz : ⌊x⌋ < z := Int.floor_lt.2 hlt
    rcases round_half_even_cases x with e | e <;> rw [e] <;> omega

theorem double_exponent_ge (q : ℚ) : -1074 ≤ double_exponent q := le_max_left _ _

/-- The scaled quotient `q / 2^e` lies below `2^53`, and at or above `2^52` unless the
exponent is the least one. -/
theorem scaled_bounds (q : ℚ) (hq : 0 < q) :
    q / 2 ^ double_exponent q < 2 ^ 53 ∧
      ((2 : ℚ) ^ 52 ≤ q / 2 ^ double_exponent q ∨ double_exponent q = -1074) := by
  have hpos : ∀ z : ℤ, (0 : ℚ) < 2 ^ z := fun z => zpow_pos (by norm_num) z
  have h1 : ((2 : ℕ) : ℚ) ^ Int.log 2 q ≤ q := Int.zpow_log_le_self (by norm_num) hq
  have h2 : q < ((2 : ℕ) : ℚ) ^ (Int.log 2 q + 1) := Int.lt_zpow_succ_log_self (by norm_num) q
  push_cast at h1 h2
  constructor
  · rw [div_lt_iff₀ (hpos _)]
    have e : (2 : ℚ) ^ (53 : ℕ) * 2 ^ double_exponent q = 2 ^ ((53 : ℤ) + double_exponent q) := by
      rw [← zpow_natCast (2 : ℚ) 53, ← zpow_add₀ (by norm_num)]
      congr 1
    rw [e]
    refine lt_of_lt_of_le h2 (zpow_le_zpow_right₀ (by norm_num) ?_)
    unfold double_exponent
    have := le_max_right (-1074) (Int.log 2 q - 52)
    omega
  · by_cases c : -1074 ≤ Int.log 2 q - 52
    · left
      have e : double_exponent q = Int.log 2 q - 52 := max_eq_right c
      rw [le_div_iff₀ (hpos _), e]
      have e2 : (2 : ℚ) ^ (52 : ℕ) * 2 ^ (Int.log 2 q - 52) = 2 ^ Int.log 2 q := by
        rw [← zpow_natCast (2 : ℚ) 52, ← zpow_add₀ (by norm_num)]
        congr 1
        push_cast
        ring
      rw [e2]
      exact h1
    · right
      exact max_eq_left (by omega)

/-- Rounding a positive rational `q` to a double. The unit in the last place is `2^e` with
`q < 2^53 * 2^e`, and `2^52 * 2^e <= q` unless `e` is the least exponent `-1074`; the result
is `m * 2^e` for the integer `m` nearest to `q / 2^e` (`m` even when `q / 2^e` lies half way
between two integers), so `m <= 2^53`; it is replaced by an infinity exactly when it reaches
`2^1024`. -/
theorem round_to_double_nearest (negative : Bool) (q : ℚ) (hq : 0 < q) :
    ∃ (m : ℕ) (e : ℤ), -1074 ≤ e ∧ q < 2 ^ 53 * 2 ^ e ∧ (2 ^ 52 * 2 ^ e ≤ q ∨ e = -1074) ∧
      m ≤ 2 ^ 53 ∧ |(m : ℚ) * 2 ^ e - q| ≤ 2 ^ e / 2 ∧
      (|(m : ℚ) * 2 ^ e - q| = 2 ^ e / 2 → m % 2 = 0) ∧
      ((m : ℚ) * 2 ^ e < 2 ^ 1024 →
        round_to_double negative q = Double.finite negative ((m : ℚ) * 2 ^ e)) ∧
      ((2 : ℚ) ^ 1024 ≤ (m : ℚ) * 2 ^ e → round_to_double negative q = Double.infinity negative) := by
  obtain ⟨hlt, hge⟩ := scaled_bounds q hq
  have hpos : (0 : ℚ) < 2 ^ double_exponent q := zpow_pos (by norm_num) _
  have hx0 : (0 : ℚ) ≤ q / 2 ^ double_exponent q := le_of_lt (div_pos hq hpos)
  have hr0 : 0 ≤ round_half_even (q / 2 ^ double_exponent q) :=
    round_half_even_mono_int _ 0 (by exact_mod_cast hx0)
  have hr53 : round_half_even (q / 2 ^ double_exponent q) ≤ 2 ^ 53 :=
    round_half_even_le_int _ (2 ^ 53) (by push_cast; exact le_of_lt hlt)
  have hnat : ((round_half_even (q / 2 ^ double_exponent q)).toNat : ℤ)
      = round_half_even (q / 2 ^ double_exponent q) := Int.toNat_of_nonneg hr0
  have hcast : ((round_half_even (q / 2 ^ double_exponent q)).toNat : ℚ)
      = (round_half_even (q / 2 ^ double_exponent q) : ℚ) := by
    exact_mod_cast hnat
  have hdiff : (round_half_even (q / 2 ^ double_exponent q) : ℚ) * 2 ^ double_exponent q - q
      = ((round_half_even (q / 2 ^ double_exponent q) : ℚ) - q / 2 ^ double_exponent q)
        * 2 ^ double_exponent q := by
    field_simp
  refine ⟨(round_half_even (q / 2 ^ double_exponent q)).toNat, double_exponent q,
    double_exponent_ge q, ?_, ?_, ?_, ?_, ?_, ?_, ?_⟩
  · exact (div_lt_iff₀ hpos).1 hlt
  · rcases hge with h | h
    · left; exact (le_div_iff₀ hpos).1 h
    · right; exact h
  · have : ((round_half_even (q / 2 ^ double_exponent q)).toNat : ℤ) ≤ 2 ^ 53 := by
      rw [hnat]; exact hr53
    exact_mod_cast this
  · rw [hcast]
    have hn := round_half_even_near (q / 2 ^ double_exponent q)
    rw [hdiff, abs_mul, abs_of_pos hpos]
    calc |(round_half_even (q / 2 ^ double_exponent q) : ℚ) - q / 2 ^ double_exponent q|
          * 2 ^ double_exponent q ≤ 1 / 2 * 2 ^ double_exponent q :=
            mul_le_mul_of_nonneg_right hn (le_of_lt hpos)
      _ = 2 ^ double_exponent q / 2 := by ring
  · rw [hcast, hdiff, abs_mul, abs_of_pos hpos]
    intro h
    have h2 : |(round_half_even (q / 2 ^ double_exponent q) : ℚ)
        - q / 2 ^ double_exponent q| = 1 / 2 := by
      have h3 : |(round_half_even (q / 2 ^ double_exponent q) : ℚ)
          - q / 2 ^ double_exponent q| * 2 ^ double_exponent q
          = 1 / 2 * 2 ^ double_exponent q := by rw [h]; ring
      exact mul_right_cancel₀ (ne_of_gt hpos) h3
    have h4 := round_half_even_tie _ h2
    omega
  · rw [hcast]
    intro h
    unfold round_to_double
    rw [if_neg (ne_of_gt hq), if_neg (not_le.2 h)]
  · rw [hcast]
    intro h
    unfold round_to_double
    rw [if_neg (ne_of_gt hq), if_pos h]

/-- A natural number below `2^53` is a double: rounding it changes nothing. -/
theorem round_to_double_nat (negative : Bool) (n : ℕ) (hn : n < 2 ^ 53) :
    round_to_double negative (n : ℚ) = Double.finite negative (n : ℚ) := by
  by_cases h0 : n = 0
  · subst h0
    simp [round_to_double]
  have hq : (0 : ℚ) < n := by exact_mod_cast Nat.pos_of_ne_zero h0
  have hlog : Int.log 2 (n : ℚ) = Nat.log 2 n := Int.log_natCast 2 n
  have hl : Nat.log 2 n < 53 := Nat.log_lt_of_lt_pow h0 hn
  have he : double_exponent (n : ℚ) = (Nat.log 2 n : ℤ) - 52 := by
    unfold double_exponent
    rw [hlog]
    exact max_eq_right (by omega)
  have hk : double_exponent (n : ℚ) = -((52 - Nat.log 2 n : ℕ) : ℤ) := by
    rw [he]; omega
  have hx : (n : ℚ) / 2 ^ double_exponent (n : ℚ) = ((n * 2 ^ (52 - Nat.log 2 n) : ℕ) : ℤ) := by
    rw [hk, zpow_neg, zpow_natCast]
    push_cast
    field_simp
  have hv : (round_half_even ((n : ℚ) / 2 ^ double_exponent (n : ℚ)) : ℚ)
      * 2 ^ double_exponent (n : ℚ) = n := by
    rw [hx, round_half_even_int, hk, zpow_neg, zpow_natCast]
    push_cast
    field_simp
  unfold round_to_double
  rw [if_neg (ne_of_gt hq), hv, if_neg]
  rw [not_le]
  calc (n : ℚ) < 2 ^ 53 := by exact_mod_cast hn
    _ ≤ 2 ^ 1024 := by norm_num

/-! ### Centroid of a zero mass -/

/-- The centroid of the table `M[0][0] = 2`, `M[1][0] = 4`, `M[0][1] = 6` is `(2, 3)`. -/
theorem centroid_double_example :
    centroid_double (fun i j => Double.finite false
        (if i = 0 ∧ j = 0 then 2 else if i = 1 ∧ j = 0 then 4 else if i = 0 ∧ j = 1 then 6
          else 0)) = (Double.finite false 2, Double.finite false 3) := by
  have e2 : round_to_double false 2 = Double.finite false 2 := by
    simpa using round_to_double_nat false 2 (by norm_num)
  have e3 : round_to_double false 3 = Double.finite false 3 := by
    simpa using round_to_double_nat false 3 (by norm_num)
  simp only [centroid_double, Double.div]
  norm_num
  exact ⟨e2, e3⟩

/-- C21 (as stated): on the 2x2 white surface `moment` returns a table with `M[0][0] = 0`,
`M[1][0] = 0`, `M[0][1] = 0`, and `centroid` returns the pair `(NaN, NaN)`: a value of its
result type, not an error. -/
theorem centroid_zero_mass_counterexample :
    ∃ M, moment white_surface = some M ∧ M 0 0 = 0 ∧ M 1 0 = 0 ∧ M 0 1 = 0 ∧
      centroid_double (moments_as_doubles M) = (Double.nan, Double.nan) := by
  obtain ⟨M, hM, h1, -, -⟩ := moment_spec white_surface
  have m00 : M 0 0 = 0 := by rw [h1 0 0 (by omega) (by decide)]; decide
  have m10 : M 1 0 = 0 := by rw [h1 1 0 (by omega) (by decide)]; decide
  have m01 : M 0 1 = 0 := by rw [h1 0 1 (by omega) (by decide)]; decide
  refine ⟨M, hM, m00, m10, m01, ?_⟩
  simp [centroid_double, moments_as_doubles, m00, m10, m01, Double.div]

/-- The quotient of two finite doubles with positive magnitudes `a`, `b`: it is `a / b`
rounded to the nearest double, ties to even, as `round_to_double_nearest` states it. -/
theorem div_is_rounded_quotient (s t : Bool) (a b : ℚ) (ha : 0 < a) (hb : 0 < b) :
    ∃ (m : ℕ) (e : ℤ), -1074 ≤ e ∧ a / b < 2 ^ 53 * 2 ^ e ∧
      (2 ^ 52 * 2 ^ e ≤ a / b ∨ e = -1074) ∧
      m ≤ 2 ^ 53 ∧ |(m : ℚ) * 2 ^ e - a / b| ≤ 2 ^ e / 2 ∧
      (|(m : ℚ) * 2 ^ e - a / b| = 2 ^ e / 2 → m % 2 = 0) ∧
      ((m : ℚ) * 2 ^ e < 2 ^ 1024 →
        Double.div (Double.finite s a) (Double.finite t b)
          = Double.finite (xor s t) ((m : ℚ) * 2 ^ e)) ∧
      ((2 : ℚ) ^ 1024 ≤ (m : ℚ) * 2 ^ e →
        Double.div (Double.finite s a) (Double.finite t b) = Double.infinity (xor s t)) := by
  have e : Double.div (Double.finite s a) (Double.finite t b)
      = round_to_double (xor s t) (a / b) := by
    simp only [Double.div, if_neg (ne_of_gt hb)]
  rw [e]
  exact round_to_double_nearest (xor s t) (a / b) (div_pos ha hb)

/-- C21 (amended): `centroid` returns a pair of doubles for every table. When `M[0][0]` is a
zero, a component is NaN if its numerator is a zero or a NaN and an infinity for every other
numerator. When `M[0][0]` is finite and not zero and the numerators are finite, the pair is
`(M[1][0]/M[0][0], M[0][1]/M[0][0])`, each quotient rounded to a double: a zero numerator
gives a zero, and a nonzero numerator gives `m * 2^e`, where `2^e` is the unit in the last
place of the exact quotient `q` of the magnitudes (`q < 2^53 * 2^e`, and `2^52 * 2^e <= q`
unless `e = -1074`) and `m` is the integer nearest to `q / 2^e`, even in a tie, or an
infinity when that value reaches `2^1024`. -/
theorem centroid_double_total (M : Nat → Nat → Double) :
    (∀ t, M 0 0 = Double.finite t 0 →
      ((M 1 0 = Double.nan ∨ ∃ s, M 1 0 = Double.finite s 0) →
        (centroid_double M).1 = Double.nan) ∧
      (∀ s a, a ≠ 0 → M 1 0 = Double.finite s a →
        (centroid_double M).1 = Double.infinity (xor s t)) ∧
      (∀ s, M 1 0 = Double.infinity s →
        (centroid_double M).1 = Double.infinity (xor s t)) ∧
      ((M 0 1 = Double.nan ∨ ∃ s, M 0 1 = Double.finite s 0) →
        (centroid_double M).2 = Double.nan) ∧
      (∀ s a, a ≠ 0 → M 0 1 = Double.finite s a →
        (centroid_double M).2 = Double.infinity (xor s t)) ∧
      (∀ s, M 0 1 = Double.infinity s →
        (centroid_double M).2 = Double.infinity (xor s t))) ∧
    (∀ t b, 0 < b → M 0 0 = Double.finite t b →
      (∀ s, M 1 0 = Double.finite s 0 →
        (centroid_double M).1 = Double.finite (xor s t) 0) ∧
      (∀ s, M 0 1 = Double.finite s 0 →
        (centroid_double M).2 = Double.finite (xor s t) 0) ∧
      (∀ s a, 0 < a → M 1 0 = Double.finite s a →
        ∃ (m : ℕ) (e : ℤ), -1074 ≤ e ∧ a / b < 2 ^ 53 * 2 ^ e ∧
          (2 ^ 52 * 2 ^ e ≤ a / b ∨ e = -1074) ∧
          m ≤ 2 ^ 53 ∧ |(m : ℚ) * 2 ^ e - a / b| ≤ 2 ^ e / 2 ∧
          (|(m : ℚ) * 2 ^ e - a / b| = 2 ^ e / 2 → m % 2 = 0) ∧
          ((m : ℚ) * 2 ^ e < 2 ^ 1024 →
            (centroid_double M).1 = Double.finite (xor s t) ((m : ℚ) * 2 ^ e)) ∧
          ((2 : ℚ) ^ 1024 ≤ (m : ℚ) * 2 ^ e →
            (centroid_double M).1 = Double.infinity (xor s t))) ∧
      (∀ s a, 0 < a → M 0 1 = Double.finite s a →
        ∃ (m : ℕ) (e : ℤ), -1074 ≤ e ∧ a / b < 2 ^ 53 * 2 ^ e ∧
          (2 ^ 52 * 2 ^ e ≤ a / b ∨ e = -1074) ∧
          m ≤ 2 ^ 53 ∧ |(m : ℚ) * 2 ^ e - a / b| ≤ 2 ^ e / 2 ∧
          (|(m : ℚ) * 2 ^ e - a / b| = 2 ^ e / 2 → m % 2 = 0) ∧
          ((m : ℚ) * 2 ^ e < 2 ^ 1024 →
            (centroid_double M).2 = Double.finite (xor s t) ((m : ℚ) * 2 ^ e)) ∧
          ((2 : ℚ) ^ 1024 ≤ (m : ℚ) * 2 ^ e →
            (centroid_double M).2 = Double.infinity (xor s t)))) := by
  refine ⟨fun t h0 => ⟨?_, ?_, ?_, ?_, ?_, ?_⟩, fun t b hb h0 => ⟨?_, ?_, ?_, ?_⟩⟩
  · rintro (h | ⟨s, h⟩) <;> simp [centroid_double, h0, h, Double.div]
  · intro s a ha h
    simp [centroid_double, h0, h, Double.div, ha]
  · intro s h
    simp [centroid_double, h0, h, Double.div]
  · rintro (h | ⟨s, h⟩) <;> simp [centroid_double, h0, h, Double.div]
  · intro s a ha h
    simp [centroid_double, h0, h, Double.div, ha]
  · intro s h
    simp [centroid_double, h0, h, Double.div]
  · intro s h
    simp [centroid_double, h0, h, Double.div, ne_of_gt hb, round_to_double]
  · intro s h
    simp [centroid_double, h0, h, Double.div, ne_of_gt hb, round_to_double]
  · intro s a ha h
    simp only [centroid_double, h0, h]
    exact div_is_rounded_quotient s t a b ha hb
  · intro s a ha h
    simp only [centroid_double, h0, h]
    exact div_is_rounded_quotient s t a b ha hb

/-! ### Centroid of a single black pixel -/

/-- C14: on a W x H surface whose pixel at `(cx, cy)` is pure black and whose other pixels
are pure white, `moment` succeeds and the centroid of its table is exactly `(cx, cy)`, in
exact arithmetic and in double arithmetic. The surface is one the library can hold: its
width and height are at most 16843010 (an SDL 1.2 surface is below 16384 x 65536), so that
no product `255 * x` or `255 * y` reaches `2^32`. -/
theorem centroid_of_single_black (s : Surface) (cx cy : Nat) (hw : s.w ≤ 16843010)
    (hh : s.h ≤ 16843010) (hcx : cx < s.w) (hcy : cy < s.h)
    (hblack : s.pix cx cy = pack_RGB 0 0 0)
    (hwhite : ∀ x y : Nat, x < s.w → y < s.h → ¬ (x = cx ∧ y = cy) →
      s.pix x y = pack_RGB 255 255 255) :
    ∃ M, moment s = some M ∧
      centroid (fun i j => ((M i j : Nat) : ℚ)) = ((cx : ℚ), (cy : ℚ)) ∧
      centroid_double (moments_as_doubles M)
        = (Double.finite false (cx : ℚ), Double.finite false (cy : ℚ)) := by
  obtain ⟨M, hM, h1, -⟩ := single_pixel_moment s cx cy hcx hcy
    (fun x y hx hy hne => by rw [hwhite x y hx hy hne, gray_white])
  refine ⟨M, hM, ?_, ?_⟩
  all_goals
    have m00 := h1 0 0 (by omega)
    have m10 := h1 1 0 (by omega)
    have m01 := h1 0 1 (by omega)
    rw [hblack, gray_black] at m00 m10 m01
    simp only [pow_zero, pow_one, Nat.mul_one, Nat.sub_zero] at m00 m10 m01
    rw [Nat.mod_eq_of_lt (by omega)] at m00 m10 m01
  · unfold centroid
    simp only [m00, m10, m01]
    push_cast
    congr 1 <;> field_simp
  · have ex : (((255 * cx : ℕ) : ℚ)) / ((255 : ℕ) : ℚ) = (cx : ℚ) := by
      push_cast; field_simp
    have ey : (((255 * cy : ℕ) : ℚ)) / ((255 : ℕ) : ℚ) = (cy : ℚ) := by
      push_cast; field_simp
    have h255 : ((255 : ℕ) : ℚ) ≠ 0 := by norm_num
    have hx53 : cx < 2 ^ 53 := by omega
    have hy53 : cy < 2 ^ 53 := by omega
    simp only [centroid_double, moments_as_doubles, m00, m10, m01, Double.div, if_neg h255,
      ex, ey, Bool.xor_false, round_to_double_nat false cx hx53,
      round_to_double_nat false cy hy53]

theorem centroid_of_single_black_witness :
    ∃ M, moment inner_dot_surface = some M ∧
      centroid (fun i j => ((M i j : Nat) : ℚ)) = (((3 : Nat) : ℚ), ((2 : Nat) : ℚ)) ∧
      centroid_double (moments_as_doubles M)
        = (Double.finite false ((3 : Nat) : ℚ), Double.finite false ((2 : Nat) : ℚ)) :=
  centroid_of_single_black inner_dot_surface 3 2 (by decide) (by decide) (by decide) (by decide)
    (by decide) (fun x y _ _ hne => by
      have hne2 : ¬ ((x : Int) = 3 ∧ (y : Int) = 2) := by omega
      unfold inner_dot_surface
      simp only [if_neg hne2])

/-! ### The column index 2 in `eigen` -/

theorem sqrt_sixteenth : Real.sqrt (1 / 16) = 1 / 4 := by
  rw [show (1 / 16 : ℝ) = (1 / 4) ^ 2 by norm_num]
  exact Real.sqrt_sq (by norm_num)

/-- C26: the result of `eigen` is declared with the column indices 0 and 1, and the source
writes `eigen[0][2]` and `eigen[1][2]`; in the storage these are the cells of `eigen[1][0]`
and `eigen[2][0]`. On the moments of the 2x2 surface with black pixels at `(0, 0)` and
`(1, 1)` the covariance matrix has all four entries `1/4`, the second eigenvalue is 0, and
the cell `eigen[1][0]` of the result holds `1/4`, the value written through
`eigen[0][2]`. -/
theorem eigen_column_two_aliases :
    eigen_cell 0 2 = eigen_cell 1 0 ∧ eigen_cell 1 2 = eigen_cell 2 0 ∧
    ∃ M, moment diagonal_pair_surface = some M ∧
      covariance (fun i j => ((M i j : Nat) : ℝ))
        (centroid (fun i j => ((M i j : Nat) : ℝ))) = (1 / 4, 1 / 4, 1 / 4, 1 / 4) ∧
      ((1 / 4 : ℝ) + 1 / 4) / 2
        - Real.sqrt ((((1 / 4 : ℝ) + 1 / 4) * ((1 / 4 : ℝ) + 1 / 4)) / 4
          - ((1 / 4 : ℝ) * (1 / 4) - (1 / 4) * (1 / 4))) = 0 ∧
      eigen Real.sqrt (fun i j => ((M i j : Nat) : ℝ))
        (centroid (fun i j => ((M i j : Nat) : ℝ))) (eigen_cell 1 0) = 1 / 4 ∧
      eigen Real.sqrt (fun i j => ((M i j : Nat) : ℝ))
        (centroid (fun i j => ((M i j : Nat) : ℝ))) (eigen_cell 2 0) = 1 / 4 := by
  refine ⟨rfl, rfl, ?_⟩
  obtain ⟨M, hM, h1, -, -⟩ := moment_spec diagonal_pair_surface
  have m00 : M 0 0 = 510 := by rw [h1 0 0 (by omega) (by decide)]; decide
  have m01 : M 0 1 = 255 := by rw [h1 0 1 (by omega) (by decide)]; decide
  have m02 : M 0 2 = 255 := by rw [h1 0 2 (by omega) (by decide)]; decide
  have m10 : M 1 0 = 255 := by rw [h1 1 0 (by omega) (by decide)]; decide
  have m20 : M 2 0 = 255 := by rw [h1 2 0 (by omega) (by decide)]; decide
  have m11 : M 1 1 = 255 := by rw [h1 1 1 (by omega) (by decide)]; decide
  have hcov : covariance (fun i j => ((M i j : Nat) : ℝ))
      (centroid (fun i j => ((M i j : Nat) : ℝ))) = (1 / 4, 1 / 4, 1 / 4, 1 / 4) := by
    simp only [covariance, centroid, m00, m01, m02, m10, m20, m11]
    norm_num
  have hne : ((M 1 1 : Nat) : ℝ) / ((M 0 0 : Nat) : ℝ)
      - (centroid (fun i j => ((M i j : Nat) : ℝ))).1
        * (centroid (fun i j => ((M i j : Nat) : ℝ))).2 ≠ 0 := by
    simp only [centroid, m00, m01, m10, m11]
    norm_num
  refine ⟨M, hM, hcov, ?_, ?_, ?_⟩
  · rw [show ((((1 / 4 : ℝ) + 1 / 4) * ((1 / 4 : ℝ) + 1 / 4)) / 4
        - ((1 / 4 : ℝ) * (1 / 4) - (1 / 4) * (1 / 4))) = 1 / 16 by norm_num, sqrt_sixteenth]
    norm_num
  · simp only [eigen, if_pos hne, eigen_set, eigen_cell]
    simp only [centroid, m00, m01, m10, m11]
    norm_num
  · simp only [eigen, if_pos hne, eigen_set, eigen_cell]
    simp only [centroid, m00, m01, m10, m11]
    norm_num

/-! ### Dilation as an iterated map, and the pixels it reaches -/

theorem dilation_pass_eq_step (s : Surface) : dilation_pass s = some (dilation_step s) := by
  rw [dilation_pass_eq_visit]
  exact dilation_visit_eq_step s (interior_cells s)
    (fun c hc => (mem_interior_cells s c).1 hc)
    (fun x y h1 h2 h3 h4 => (mem_interior_cells s (x, y)).2 ⟨h1, h2, h3, h4⟩)

theorem dilation_eq_iterate (s : Surface) (dilate_n : Int) :
    dilation s dilate_n = some (Nat.iterate dilation_step dilate_n.toNat s) := by
  unfold dilation
  by_cases hn : dilate_n ≤ 0
  · rw [forRange_empty _ _ _ _ hn]
    have e : dilate_n.toNat = 0 := by omega
    rw [e]
    rfl
  · obtain ⟨r, h1, h2⟩ := forRange_inv_idx
      (fun k (img : Surface) => img = Nat.iterate dilation_step k.toNat s) 0 dilate_n
      (fun _ image => dilation_pass image) s (by omega) rfl
      (by
        intro k img hk0 hk hi
        refine ⟨dilation_step img, dilation_pass_eq_step img, ?_⟩
        have e : (k + 1).toNat = k.toNat + 1 := by omega
        beta_reduce
        rw [e, Function.iterate_succ_apply', ← hi])
    rw [h1, h2]

theorem dilation_iterate_size (s : Surface) (k : Nat) :
    (Nat.iterate dilation_step k s).w = s.w ∧ (Nat.iterate dilation_step k s).h = s.h := by
  induction k with
  | zero => exact ⟨rfl, rfl⟩
  | succ k ih =>
    rw [Function.iterate_succ_apply']
    exact ih

/-- After `k` passes of dilation a pixel of the surface is pure black when `k >= 1` and an
interior pixel with gray value zero in the first surface lies within `k` pixels of it in
both coordinates, and it has its first value otherwise. -/
theorem dilation_iterate_reach (s : Surface) (k : Nat) :
    ∀ x y : Int, 0 ≤ x → x < (s.w : Int) → 0 ≤ y → y < (s.h : Int) →
      ((1 ≤ k ∧ ∃ a b : Int, (1 ≤ a ∧ a < (s.w : Int) - 1 ∧ 1 ≤ b ∧ b < (s.h : Int) - 1) ∧
          RGB_to_gray (s.pix a b) = 0 ∧
          a - (k : Int) ≤ x ∧ x ≤ a + (k : Int) ∧ b - (k : Int) ≤ y ∧ y ≤ b + (k : Int)) →
        (Nat.iterate dilation_step k s).pix x y = pack_RGB 0x00 0x00 0x00) ∧
      ((¬ (1 ≤ k ∧ ∃ a b : Int, (1 ≤ a ∧ a < (s.w : Int) - 1 ∧ 1 ≤ b ∧ b < (s.h : Int) - 1) ∧
          RGB_to_gray (s.pix a b) = 0 ∧
          a - (k : Int) ≤ x ∧ x ≤ a + (k : Int) ∧ b - (k : Int) ≤ y ∧ y ≤ b + (k : Int))) →
        (Nat.iterate dilation_step k s).pix x y = s.pix x y) := by
  induction k with
  | zero =>
    intro x y _ _ _ _
    exact ⟨fun h => absurd h.1 (by omega), fun _ => rfl⟩
  | succ k ih =>
    obtain ⟨tw, th⟩ := dilation_iterate_size s k
    -- the gray value of an interior pixel after `k` passes
    have hgray : ∀ x' y' : Int, 1 ≤ x' → x' < (s.w : Int) - 1 → 1 ≤ y' → y' < (s.h : Int) - 1 →
        (RGB_to_gray ((Nat.iterate dilation_step k s).pix x' y') = 0 ↔
          ∃ a b : Int, (1 ≤ a ∧ a < (s.w : Int) - 1 ∧ 1 ≤ b ∧ b < (s.h : Int) - 1) ∧
            RGB_to_gray (s.pix a b) = 0 ∧
            a - (k : Int) ≤ x' ∧ x' ≤ a + (k : Int) ∧ b - (k : Int) ≤ y' ∧ y' ≤ b + (k : Int)) := by
      intro x' y' h1 h2 h3 h4
      obtain ⟨ihB, ihS⟩ := ih x' y' (by omega) (by omega) (by omega) (by omega)
      constructor
      · intro hg
        by_cases c : 1 ≤ k ∧ ∃ a b : Int,
            (1 ≤ a ∧ a < (s.w : Int) - 1 ∧ 1 ≤ b ∧ b < (s.h : Int) - 1) ∧
            RGB_to_gray (s.pix a b) = 0 ∧
            a - (k : Int) ≤ x' ∧ x' ≤ a + (k : Int) ∧ b - (k : Int) ≤ y' ∧ y' ≤ b + (k : Int)
        · exact c.2
        · rw [ihS c] at hg
          exact ⟨x', y', ⟨h1, h2, h3, h4⟩, hg, by omega, by omega, by omega, by omega⟩
      · rintro ⟨a, b, hin, hg, d1, d2, d3, d4⟩
        by_cases c : 1 ≤ k
        · rw [ihB ⟨c, a, b, hin, hg, d1, d2, d3, d4⟩]
          exact gray_black
        · have hk : k = 0 := by omega
          subst hk
          have ea : a = x' := by omega
          have eb : b = y' := by omega
          subst ea eb
          exact hg
    intro x y hx0 hx hy0 hy
    rw [Function.iterate_succ_apply']
    constructor
    · rintro ⟨-, a, b, hin, hg, d1, d2, d3, d4⟩
      push_cast at d1 d2 d3 d4
      have hx' : ∃ x' : Int, 1 ≤ x' ∧ x' < (s.w : Int) - 1 ∧ x' - 1 ≤ x ∧ x ≤ x' + 1 ∧
          a - (k : Int) ≤ x' ∧ x' ≤ a + (k : Int) := by
        by_cases c1 : x < a
        · exact ⟨x + 1, by omega, by omega, by omega, by omega, by omega, by omega⟩
        · by_cases c2 : a < x
          · exact ⟨x - 1, by omega, by omega, by omega, by omega, by omega, by omega⟩
          · exact ⟨a, by omega, by omega, by omega, by omega, by omega, by omega⟩
      have hy' : ∃ y' : Int, 1 ≤ y' ∧ y' < (s.h : Int) - 1 ∧ y' - 1 ≤ y ∧ y ≤ y' + 1 ∧
          b - (k : Int) ≤ y' ∧ y' ≤ b + (k : Int) := by
        by_cases c1 : y < b
        · exact ⟨y + 1, by omega, by omega, by omega, by omega, by omega, by omega⟩
        · by_cases c2 : b < y
          · exact ⟨y - 1, by omega, by omega, by omega, by omega, by omega, by omega⟩
          · exact ⟨b, by omega, by omega, by omega, by omega, by omega, by omega⟩
      obtain ⟨x', p1, p2, p3, p4, p5, p6⟩ := hx'
      obtain ⟨y', q1, q2, q3, q4, q5, q6⟩ := hy'
      have hnear : near_black_interior (Nat.iterate dilation_step k s) x y = true := by
        rw [near_black_interior_iff, tw, th]
        exact ⟨x', y', ⟨p1, p2, q1, q2⟩,
          (hgray x' y' p1 p2 q1 q2).2 ⟨a, b, hin, hg, p5, p6, q5, q6⟩, p3, p4, q3, q4⟩
      simp only [dilation_step, if_pos hnear]
    · intro hno
      have hnear : ¬ near_black_interior (Nat.iterate dilation_step k s) x y = true := by
        rw [near_black_interior_iff, tw, th]
        rintro ⟨x', y', hin', hg', n1, n2, n3, n4⟩
        obtain ⟨a, b, hin, hg, d1, d2, d3, d4⟩ :=
          (hgray x' y' hin'.1 hin'.2.1 hin'.2.2.1 hin'.2.2.2).1 hg'
        refine hno ⟨by omega, a, b, hin, hg, ?_, ?_, ?_, ?_⟩ <;> push_cast <;> omega
      simp only [dilation_step, if_neg hnear]
      obtain ⟨-, ihS⟩ := ih x y hx0 hx hy0 hy
      apply ihS
      rintro ⟨hk, a, b, hin, hg, d1, d2, d3, d4⟩
      refine hno ⟨by omega, a, b, hin, hg, ?_, ?_, ?_, ?_⟩ <;> push_cast <;> omega

/-- C9 (amended): `dilation` succeeds for every surface and every `n` and keeps the size. A
pixel of the outermost ring, like every other pixel, has the same value as before the
operation, unless `n >= 1` and an interior pixel whose gray value is zero before the
operation lies within `n` pixels of it in both coordinates: then it is pure black. -/
theorem dilation_reach (s : Surface) (dilate_n : Int) :
    ∃ s', dilation s dilate_n = some s' ∧ s'.w = s.w ∧ s'.h = s.h ∧
      ∀ x y : Int, 0 ≤ x → x < (s.w : Int) → 0 ≤ y → y < (s.h : Int) →
        ((1 ≤ dilate_n ∧ ∃ a b : Int,
            (1 ≤ a ∧ a < (s.w : Int) - 1 ∧ 1 ≤ b ∧ b < (s.h : Int) - 1) ∧
            RGB_to_gray (s.pix a b) = 0 ∧
            a - dilate_n ≤ x ∧ x ≤ a + dilate_n ∧ b - dilate_n ≤ y ∧ y ≤ b + dilate_n) →
          get_pixel s' x y = some (pack_RGB 0x00 0x00 0x00)) ∧
        ((¬ (1 ≤ dilate_n ∧ ∃ a b : Int,
            (1 ≤ a ∧ a < (s.w : Int) - 1 ∧ 1 ≤ b ∧ b < (s.h : Int) - 1) ∧
            RGB_to_gray (s.pix a b) = 0 ∧
            a - dilate_n ≤ x ∧ x ≤ a + dilate_n ∧ b - dilate_n ≤ y ∧ y ≤ b + dilate_n)) →
          get_pixel s' x y = get_pixel s x y) := by
  obtain ⟨tw, th⟩ := dilation_iterate_size s dilate_n.toNat
  refine ⟨Nat.iterate dilation_step dilate_n.toNat s, dilation_eq_iterate s dilate_n, tw, th,
    fun x y hx0 hx hy0 hy => ?_⟩
  obtain ⟨hB, hS⟩ := dilation_iterate_reach s dilate_n.toNat x y hx0 hx hy0 hy
  rw [get_pixel_of_inRange _ x y hx0 (by omega) hy0 (by omega),
    get_pixel_of_inRange s x y hx0 hx hy0 hy]
  constructor
  · rintro ⟨hn, a, b, hin, hg, d1, d2, d3, d4⟩
    have e : ((dilate_n.toNat : Nat) : Int) = dilate_n := by omega
    rw [hB ⟨by omega, a, b, hin, hg, by omega, by omega, by omega, by omega⟩]
  · intro hno
    rw [hS]
    rintro ⟨hk, a, b, hin, hg, d1, d2, d3, d4⟩
    have e : ((dilate_n.toNat : Nat) : Int) = dilate_n := by omega
    exact hno ⟨by omega, a, b, hin, hg, by omega, by omega, by omega, by omega⟩

end ImageManip
